import Mathlib

/-!
Verification development for the lineage backend of the Tracil repository.

The definitions below are a shallow embedding, in Lean 4, of the pure core of
`src/backend/services/llm_lineage_define.py` and of the `/analyze-variable`
handler in `src/backend/main.py`:

* Python strings are Lean `String`s (or `List Char` where a character scan is
  embedded); Python `None`-or-missing dictionary fields are `Option` fields.
  A dictionary field holding an explicit `None` is modelled the same way as a
  missing field, and the graph dictionaries are modelled with the fixed field
  set that the backend reads and writes.
* Exceptions are `Except String` values; external effects (model calls,
  retrieval, the augmentation round) are parameters of the embedded functions.
* Machine integers do not occur in the embedded code paths; all counting is
  over `Nat`, and the retry delay (Python float seconds) is an exact `Rat`.
-/

namespace Tracil

/-! ## Python string primitives -/

/-- Whitespace characters stripped by Python `str.strip()` (ASCII subset). -/
def isPyWs (c : Char) : Bool :=
  c == ' ' || c == '\t' || c == '\n' || c == '\r' || c == Char.ofNat 11 || c == Char.ofNat 12

/-- Remove trailing whitespace from a character list. -/
def dropTrailWs (l : List Char) : List Char :=
  (l.reverse.dropWhile isPyWs).reverse

/-- Python `str.strip()` on a character list. -/
def pyStripL (l : List Char) : List Char :=
  dropTrailWs (l.dropWhile isPyWs)

/-- Python `str.strip()`. -/
def pyStrip (s : String) : String :=
  ⟨pyStripL s.data⟩

/-- ASCII lower-casing of one character (as Python `str.lower()` acts on the
identifiers this backend manipulates). -/
def lowCh (c : Char) : Char :=
  if 'A' ≤ c ∧ c ≤ 'Z' then Char.ofNat (c.toNat + 32) else c

/-- ASCII upper-casing of one character. -/
def upCh (c : Char) : Char :=
  if 'a' ≤ c ∧ c ≤ 'z' then Char.ofNat (c.toNat - 32) else c

/-- Python `str.lower()`. -/
def pyLower (s : String) : String :=
  ⟨s.data.map lowCh⟩

/-- Python `str.upper()`. -/
def pyUpper (s : String) : String :=
  ⟨s.data.map upCh⟩

/-- Python `x or ""` for an optional string (`None` and `""` are falsy). -/
def orEmpty : Option String → String
  | none => ""
  | some s => s

/-- Python `str(x)` for an optional string (`str(None)` is the text `None`). -/
def pyStr : Option String → String
  | none => "None"
  | some s => s

/-- Python falsiness of an optional string: `None` and `""` are falsy. -/
def isFalsyStr : Option String → Bool
  | none => true
  | some s => s == ""

/-- `pat` is a (character-wise) prefix of `l`. -/
def prefAt : List Char → List Char → Bool
  | [], _ => true
  | _ :: _, [] => false
  | a :: as, b :: bs => a == b && prefAt as bs

/-- `pat` occurs contiguously inside `l` (Python `pat in l`). -/
def containsSub (pat l : List Char) : Bool :=
  prefAt pat l ||
    match l with
    | [] => false
    | _ :: t => containsSub pat t

/-- Python substring membership `pat in s`. -/
def containsSubStr (pat s : String) : Bool :=
  containsSub pat.data s.data

/-- Apostrophe (single-quote) character, kept out of string literals. -/
def sqCh : Char := Char.ofNat 39

/-- Double-quote character. -/
def dqCh : Char := Char.ofNat 34

/-- Backslash character. -/
def bslCh : Char := Char.ofNat 92

/-- Backtick character. -/
def btCh : Char := Char.ofNat 96

/-- One-character string holding an apostrophe. -/
def sq1 : String := String.singleton sqCh

/-- ASCII upper-case letter test (`[A-Z]`). -/
def isUpAZ (c : Char) : Bool :=
  'A' ≤ c && c ≤ 'Z'

/-- Character class `[A-Z0-9]`. -/
def isUpDigit (c : Char) : Bool :=
  isUpAZ c || c.isDigit

/-- Character class `[A-Z0-9_]`. -/
def isWordCh (c : Char) : Bool :=
  isUpAZ c || c.isDigit || c == '_'

/-- The regex `^AD[A-Z0-9]{2,}\.[A-Z0-9_]+$` from the normalizer (an ADaM
`DATASET.VARIABLE` id). `takeWhile` models the greedy character class, whose
alphabet excludes the dot that must follow. -/
def reAdamVar (s : String) : Bool :=
  match s.data with
  | 'A' :: 'D' :: rest =>
      (rest.takeWhile isUpDigit).length ≥ 2 &&
      (match rest.dropWhile isUpDigit with
       | '.' :: tl => tl ≠ [] && tl.all isWordCh
       | _ => false)
  | _ => false

/-- The regex `^[A-Z]{2}\.[A-Z0-9_]+$` (an SDTM `DOMAIN.VARIABLE` id). -/
def reSdtmVar (s : String) : Bool :=
  match s.data with
  | a :: b :: '.' :: tl => isUpAZ a && isUpAZ b && tl ≠ [] && tl.all isWordCh
  | _ => false

/-- The regex `^[A-Z0-9_]+$` (a bare upper-case token, used by the ADaM
auto-prefixer). -/
def reBareToken (s : String) : Bool :=
  s.data ≠ [] && s.data.all isWordCh

/-! ## Graph data model

The unified output schema of all builders (module docstring of
`llm_lineage_define.py`): nodes, edges and gaps under `lineage`, with
`variable`, `dataset`, `summary` at the top level. Gap lists hold either
dictionaries (from the normalizer) or plain strings (degraded paths). -/

/-- A lineage node dictionary (`{id, type, label, file, description,
explanation}`). The Python field `type` is `ntype` here; `from` in edges is a
Lean keyword, hence the `e` prefixes in `LEdge`. -/
structure LNode where
  id : Option String
  ntype : Option String
  label : Option String
  file : Option String
  description : Option String
  explanation : Option String
  deriving DecidableEq

/-- A lineage edge dictionary. `esource`/`etarget` model the alternate
`source`/`target` keys that `_validate_and_fix_graph` renames to
`from`/`to`. -/
structure LEdge where
  efrom : Option String
  eto : Option String
  esource : Option String
  etarget : Option String
  label : Option String
  explanation : Option String
  deriving DecidableEq

/-- A gap dictionary (`{source?, target?, explanation}`). -/
structure GapRec where
  gsource : Option String
  gtarget : Option String
  explanation : Option String
  deriving DecidableEq

/-- One entry of a `gaps` list: a dictionary or a bare string. -/
inductive GapItem where
  | grec (g : GapRec)
  | gstr (s : String)
  deriving DecidableEq

/-- The `lineage` sub-dictionary. -/
structure Lineage where
  nodes : List LNode
  edges : List LEdge
  gaps : List GapItem
  deriving DecidableEq

/-- A full lineage graph dictionary. The Python keys `variable`, `dataset`,
`summary` are `gvariable`, `gdataset`, `gsummary` (`variable` is a Lean
command keyword). -/
structure LGraph where
  gvariable : Option String
  gdataset : Option String
  gsummary : Option String
  lineage : Lineage
  deriving DecidableEq

/-! ## `_suggest_type_for_id` -/

/-- `_suggest_type_for_id(nid, dataset_kind)`: best-guess canonical node type
for an id, given the request kind. The source applies `.upper().strip()` to
the id and `.lower()` to the kind. -/
def suggestTypeForId (nid datasetKind : String) : String :=
  let up := pyStrip (pyUpper nid)
  let dk := pyLower datasetKind
  if dk == "table" || dk == "tlf" || dk == "display" then
    (if containsSubStr "|" up then "tlf cell" else "tlf display")
  else if dk == "endpoint" || dk == "protocol" || dk == "soa" then "endpoint"
  else if reAdamVar up then "adam variable"
  else if prefAt "SDTM.".data up.data then "sdtm variable"
  else if reSdtmVar up then "sdtm variable"
  else if up == "PROTOCOL" || up == "CRF" || up == "USDM" then pyLower up
  else "concept"

/-! ## `_canonicalize_types_in_graph` -/

/-- The `dataset.variable`-style generic type synonyms. -/
def synDatasetVariable (t : String) : Bool :=
  t == "dataset.variable" || t == "data set variable" || t == "data-variable" || t == "variable"

/-- The `tlf display` type synonyms. -/
def synDisplay (t : String) : Bool :=
  t == "display" || t == "tlf" || t == "tlf display" || t == "table"

/-- The `tlf cell` type synonyms. -/
def synCell (t : String) : Bool :=
  t == "cell" || t == "tlf cell" || t == "output cell"

/-- The `protocol section` type synonyms. -/
def synProtocol (t : String) : Bool :=
  t == "protocol" || t == "protocol/sap" || t == "sap" || t == "protocol section"

/-- The `crf page` type synonyms. -/
def synCrf (t : String) : Bool :=
  t == "crf" || t == "acrf" || t == "crf page"

/-- The ADaM type synonyms. -/
def synAdam (t : String) : Bool :=
  t == "adam" || t == "adam variable" || t == "adsl var" || t == "ad a m" ||
  t == "adaml" || t == "adaml variable"

/-- The SDTM type synonyms. -/
def synSdtm (t : String) : Bool :=
  t == "sdtm" || t == "sdtm variable"

/-- The placeholder types whose real type is inferred from id patterns. -/
def synInfer (t : String) : Bool :=
  t == "" || t == "target" || t == "source" || t == "concept"

/-- The id-pattern inference of the `target`/`source`/`concept` branch. -/
def inferTypeFromId (nid up lbl : String) : Option String :=
  if reAdamVar up then some "adam variable"
  else if reSdtmVar up || prefAt "SDTM.".data up.data then some "sdtm variable"
  else if prefAt "AD".data up.data && !(containsSubStr "." up) then some "adam dataset"
  else if containsSubStr "crf page" (pyLower up) then some "crf page"
  else if containsSubStr "|" nid then some "tlf cell"
  else if containsSubStr "table" (pyLower nid) || containsSubStr "tlf" lbl then some "tlf display"
  else if containsSubStr "endpoint" lbl then some "protocol endpoint"
  else none

/-- The per-node type decision of `_canonicalize_types_in_graph`, on the
already lower-cased/stripped type `t`, the stripped id `nid`, its upper-case
form `up` and the lower-cased label `lbl`. `none` means the type field is left
unchanged. -/
def canonTypeOf (t nid up lbl : String) : Option String :=
  if synDatasetVariable t then
    (if reAdamVar up then some "adam variable"
     else if reSdtmVar up || prefAt "SDTM.".data up.data then some "sdtm variable"
     else none)
  else if synDisplay t then some "tlf display"
  else if synCell t then some "tlf cell"
  else if synProtocol t then some "protocol section"
  else if synCrf t then some "crf page"
  else if synAdam t then
    (if containsSubStr "." nid then some "adam variable" else some "adam dataset")
  else if synSdtm t then
    (if containsSubStr "." nid || reSdtmVar up then some "sdtm variable" else some "sdtm dataset")
  else if synInfer t then inferTypeFromId nid up lbl
  else none

/-- One node of `_canonicalize_types_in_graph`. -/
def canonNode (n : LNode) : LNode :=
  let t := pyLower (pyStrip (orEmpty n.ntype))
  let nid := pyStrip (orEmpty n.id)
  let up := pyUpper nid
  let lbl := pyLower (orEmpty n.label)
  match canonTypeOf t nid up lbl with
  | some ty => { n with ntype := some ty }
  | none => n

/-- `_canonicalize_types_in_graph`: coerce every node type to the canonical
vocabulary, based on id/label patterns. -/
def canonicalizeTypesInGraph (g : LGraph) : LGraph :=
  { g with lineage := { g.lineage with nodes := g.lineage.nodes.map canonNode } }

/-! ## `_validate_and_fix_graph` -/

/-- The de-duplication key of a node: `str(n.get("id") or "").strip()`. -/
def nodeKey (n : LNode) : String :=
  pyStrip (orEmpty n.id)

/-- One field of the shallow merge of a duplicate node into the kept node:
a missing or empty kept value is overwritten by the duplicate value when the
duplicate carries the field. -/
def mergeField (kept dup : Option String) : Option String :=
  match dup with
  | none => kept
  | some v => if kept = none ∨ kept = some "" then some v else kept

/-- Shallow merge of a duplicate node `dup` into the kept node `kept`. -/
def mergeNode (kept dup : LNode) : LNode where
  id := mergeField kept.id dup.id
  ntype := mergeField kept.ntype dup.ntype
  label := mergeField kept.label dup.label
  file := mergeField kept.file dup.file
  description := mergeField kept.description dup.description
  explanation := mergeField kept.explanation dup.explanation

/-- Lookup in the ordered association list that models `node_map`. -/
def lookupK (k : String) : List (String × LNode) → Option LNode
  | [] => none
  | (k', n) :: t => if k' == k then some n else lookupK k t

/-- Replace the value stored at key `k`. -/
def updateK (k : String) (n : LNode) : List (String × LNode) → List (String × LNode)
  | [] => []
  | (k', n') :: t => if k' == k then (k', n) :: t else (k', n') :: updateK k n t

/-- Insert one node into `node_map` (first occurrence kept, duplicates merged
shallowly; nodes whose key strips to empty are skipped). -/
def dedupInsert (acc : List (String × LNode)) (n : LNode) : List (String × LNode) :=
  let k := nodeKey n
  if k == "" then acc
  else
    match lookupK k acc with
    | none => acc ++ [(k, n)]
    | some kept => updateK k (mergeNode kept n) acc

/-- The `node_map` built by the de-duplication loop, in first-occurrence
order. -/
def dedupNodes (ns : List LNode) : List (String × LNode) :=
  ns.foldl dedupInsert []

/-- Default backfilled node explanation. -/
def defaultNodeExpl : String :=
  "[reasoned] This node is included based on adjacent evidence and CDISC artifacts."

/-- Default backfilled edge explanation. -/
def defaultEdgeExpl : String :=
  "[reasoned] This connection is inferred from standard mapping and nearby evidence."

/-- Gap text for an edge with a missing endpoint (the source text quotes the
key names with apostrophes). -/
def missingEndpointMsg : String :=
  "Dropped an edge because " ++ sq1 ++ "from" ++ sq1 ++ " or " ++ sq1 ++ "to" ++ sq1 ++ " was missing."

/-- Gap text for an edge whose endpoints do not resolve to a known node. -/
def unknownNodeMsg : String :=
  "Removed an edge that referenced an unknown node id."

/-- Type/explanation normalization of one kept node (`node_map` loop):
a missing/`target`/`source` type is re-derived from the id, and a missing
explanation gets the default placeholder. -/
def fixNode (datasetKind k : String) (n : LNode) : LNode :=
  let t := pyLower (pyStrip (orEmpty n.ntype))
  let n1 :=
    if t == "" || t == "target" || t == "source" then
      { n with ntype := some (suggestTypeForId k datasetKind) }
    else n
  if isFalsyStr n1.explanation then { n1 with explanation := some defaultNodeExpl } else n1

/-- Rename the alternate `source`/`target` edge keys to `from`/`to` when the
latter are absent. -/
def normEdgeKeys (e : LEdge) : LEdge :=
  let e1 :=
    if e.efrom = none ∧ e.esource ≠ none then
      { e with efrom := e.esource, esource := none }
    else e
  if e1.eto = none ∧ e1.etarget ≠ none then
    { e1 with eto := e1.etarget, etarget := none }
  else e1

/-- The edge kept (with backfilled explanation) by the edge-normalization
loop, or `none` when the edge is dropped. `keys` is the key set of
`node_map`. -/
def keptEdge (keys : List String) (e : LEdge) : Option LEdge :=
  let e' := normEdgeKeys e
  let frm := pyStrip (orEmpty e'.efrom)
  let tov := pyStrip (orEmpty e'.eto)
  if frm == "" || tov == "" then none
  else if !(keys.contains frm) || !(keys.contains tov) then none
  else if isFalsyStr e'.explanation then some { e' with explanation := some defaultEdgeExpl }
  else some e'

/-- The gap appended for a dropped edge, or `none` when the edge is kept. -/
def edgeGap (keys : List String) (e : LEdge) : Option GapItem :=
  let e' := normEdgeKeys e
  let frm := pyStrip (orEmpty e'.efrom)
  let tov := pyStrip (orEmpty e'.eto)
  if frm == "" || tov == "" then
    some (GapItem.grec ⟨none, none, some missingEndpointMsg⟩)
  else if !(keys.contains frm) || !(keys.contains tov) then
    some (GapItem.grec ⟨some frm, some tov, some unknownNodeMsg⟩)
  else none

/-- The `used_ids` set: raw `from`/`to` strings of the kept edges. -/
def usedIds (es : List LEdge) : List String :=
  es.foldr (fun e acc => pyStr e.efrom :: pyStr e.eto :: acc) []

/-- `_is_explicit_placeholder`: a `[general]` explanation mentioning an
explicit node for the requested/target variable. -/
def isExplicitPlaceholder (n : LNode) : Bool :=
  let expl := pyLower (orEmpty n.explanation)
  containsSub "[general]".data expl.data &&
  containsSub "explicit node".data expl.data &&
  (containsSub "requested".data expl.data || containsSub "target".data expl.data)

/-- Membership of a raw node id value in `used_ids` (a `None` id is never a
member of a set of strings). -/
def idInUsed (used : List String) : Option String → Bool
  | none => false
  | some s => used.contains s

/-- `_validate_and_fix_graph`: de-duplicate nodes, normalize types and
explanations, drop unresolved edges (recording gaps), prune orphan explicit
placeholders, and canonicalize node types. -/
def validateAndFixGraph (g : LGraph) : LGraph :=
  let dk := pyLower (orEmpty g.gdataset)
  let nm := dedupNodes g.lineage.nodes
  let keys := nm.map (fun p => p.1)
  let nodesFixed := nm.map (fun p => fixNode dk p.1 p.2)
  let edgesFixed := g.lineage.edges.filterMap (keptEdge keys)
  let gaps2 := g.lineage.gaps ++ g.lineage.edges.filterMap (edgeGap keys)
  let used := usedIds edgesFixed
  let pruned := nodesFixed.filter (fun n => !(!(idInUsed used n.id) && isExplicitPlaceholder n))
  { g with lineage := { nodes := pruned.map canonNode, edges := edgesFixed, gaps := gaps2 } }

/-! ## `_auto_prefix_adam_vars` -/

/-- Set-style insertion (membership is all that is observed downstream). -/
def insertNew (acc : List String) (s : String) : List String :=
  if acc.contains s then acc else acc ++ [s]

/-- Dictionary update-or-insert for string maps. -/
def assocUpd (m : List (String × String)) (k v : String) : List (String × String) :=
  if (m.find? (fun p => p.1 == k)).isSome then
    m.map (fun p => if p.1 == k then (k, v) else p)
  else m ++ [(k, v)]

/-- Dictionary lookup for string maps. -/
def assocGet (m : List (String × String)) (k : String) : Option String :=
  (m.find? (fun p => p.1 == k)).map (fun p => p.2)

/-- The `ds_ids` collection of `_auto_prefix_adam_vars`: ADaM dataset ids,
either by type synonym or by the `AD`-prefix heuristic, with falsy entries
filtered out. -/
def autoPrefixDsIds (ns : List LNode) : List String :=
  ns.foldl
    (fun acc n =>
      let t := pyLower (orEmpty n.ntype)
      let acc1 :=
        if t == "adam dataset" || t == "adam data set" || t == "adamdata set" ||
           t == "adaml dataset" || t == "adml dataset" then
          (match n.id with
           | some v => if v ≠ "" then insertNew acc v else acc
           | none => acc)
        else acc
      let nid := orEmpty n.id
      if prefAt "AD".data (pyUpper nid).data && !(containsSubStr "." nid) && containsSubStr "dataset" t then
        insertNew acc1 nid
      else acc1)
    []

/-- The dataset-inferring `edge_map` (`to ↦ from` for edges leaving a known
ADaM dataset node). -/
def autoPrefixEdgeMap (dsIds : List String) (es : List LEdge) : List (String × String) :=
  es.foldl
    (fun m e =>
      let frm := orEmpty e.efrom
      let tov := orEmpty e.eto
      if dsIds.contains frm && tov ≠ "" then assocUpd m tov frm else m)
    []

/-- Rewrite one raw edge endpoint through the `id_changes` map. -/
def rewriteEnd (ch : List (String × String)) : Option String → Option String
  | none => none
  | some s =>
    match assocGet ch s with
    | some newId => some newId
    | none => some s

/-- `_auto_prefix_adam_vars`: prefix bare ADaM variable node ids with the
dataset in context and rewrite the affected edge endpoints. -/
def autoPrefixAdamVars (g : LGraph) : LGraph :=
  let ns := g.lineage.nodes
  let es := g.lineage.edges
  let dsIds := autoPrefixDsIds ns
  let em := autoPrefixEdgeMap dsIds es
  let defaultDs : Option String := if dsIds.length == 1 then dsIds.head? else none
  let step : List LNode × List (String × String) → LNode → List LNode × List (String × String) :=
    fun (outNs, ch) n =>
      let t := pyLower (orEmpty n.ntype)
      let nid := orEmpty n.id
      if prefAt "adam".data t.data && containsSubStr "var" t &&
         !(containsSubStr "." nid) && reBareToken nid then
        match (match assocGet em nid with | some v => some v | none => defaultDs) with
        | some ds =>
          let newId := ds ++ "." ++ nid
          (outNs ++ [{ n with id := some newId }], assocUpd ch nid newId)
        | none => (outNs ++ [n], ch)
      else (outNs ++ [n], ch)
  let (ns2, ch) := ns.foldl step ([], [])
  let es2 :=
    if ch.isEmpty then es
    else es.map (fun e => { e with efrom := rewriteEnd ch e.efrom, eto := rewriteEnd ch e.eto })
  { g with lineage := { g.lineage with nodes := ns2, edges := es2 } }

/-! ## Augmentation guard (`_augment_backtrace_if_missing_sdtm`) -/

/-- `_has_sdtm_nodes`. -/
def hasSdtmNodes (ns : List LNode) : Bool :=
  ns.any (fun n =>
    let t := pyLower (orEmpty n.ntype)
    let i := pyUpper (orEmpty n.id)
    t == "sdtm" || t == "sdtm variable" || t == "sdtm dataset" ||
    prefAt "SDTM.".data i.data || reSdtmVar i)

/-- `_extract_adam_vars_from_nodes`. -/
def extractAdamVars (ns : List LNode) : List String :=
  ns.foldl
    (fun out n =>
      if pyLower (orEmpty n.ntype) == "adam variable" then
        let vid := if orEmpty n.id ≠ "" then orEmpty n.id else orEmpty n.label
        if vid ≠ "" && !(out.contains vid) then out ++ [vid] else out
      else out)
    []

/-- `_augment_backtrace_if_missing_sdtm`: the pure guards; the
retrieval/model/merge round behind them is the external `oracle`, which may
raise. -/
def augmentIfMissingSdtm (oracle : LGraph → Except String LGraph) (g : LGraph) :
    Except String LGraph :=
  let ns := g.lineage.nodes
  if ns.isEmpty then .ok g
  else if hasSdtmNodes ns then .ok g
  else if (extractAdamVars ns).isEmpty then .ok g
  else oracle g

/-! ## The variable builder (`build_lineage_with_llm_from_session`) -/

/-- The canonical requested target id `f"{dataset}.{variable}".upper()`. -/
def targetIdOf (dataset varName : String) : String :=
  pyUpper (dataset ++ "." ++ varName)

/-- Explanation of the appended explicit target placeholder. -/
def explicitTargetExpl : String :=
  "[general] Explicit node for the requested variable."

/-- The ensure-explicit-target step of the variable builder: append a
placeholder node when no node id upper-cases to the requested target id. -/
def ensureTarget (dataset varName : String) (g : LGraph) : LGraph :=
  let tid := targetIdOf dataset varName
  if g.lineage.nodes.any (fun n => pyUpper (orEmpty n.id) == tid) then g
  else
    { g with lineage :=
      { g.lineage with nodes := g.lineage.nodes ++
        [{ id := some tid, ntype := some (suggestTypeForId tid dataset),
           label := none, file := none, description := none,
           explanation := some explicitTargetExpl }] } }

/-- The `out` dictionary built from the parsed model response `raw`. -/
def mkOut (dataset varName : String) (raw : LGraph) : LGraph where
  gvariable := if isFalsyStr raw.gvariable then some (pyUpper varName) else raw.gvariable
  gdataset := if isFalsyStr raw.gdataset then some (pyUpper dataset) else raw.gdataset
  gsummary := some (pyStrip (orEmpty raw.gsummary))
  lineage := raw.lineage

/-- The short-circuit graph returned when no evidence chunks exist. -/
def noEvidenceGraph (dataset varName : String) : LGraph :=
  { gvariable := some varName, gdataset := some dataset,
    gsummary := some ("No evidence available in session for " ++ dataset ++ "." ++ varName ++ "."),
    lineage :=
    { nodes := [{ id := some (pyUpper (dataset ++ "." ++ varName)),
                  ntype := some (suggestTypeForId (dataset ++ "." ++ varName) dataset),
                  label := none, file := none, description := none,
                  explanation := some "[general] Target only; no artifacts to trace against." }],
      edges := [],
      gaps := [GapItem.gstr "No evidence found."] } }

/-- Explanation of the degraded graph built when post-processing raises. -/
def postErrorExpl : String :=
  "[general] Post-processing error; returning target only."

/-- The degraded graph returned by the builder when post-processing raises
with message `e`. -/
def postErrorGraph (dataset varName e : String) : LGraph :=
  { gvariable := some (pyUpper varName), gdataset := some (pyUpper dataset),
    gsummary := some "",
    lineage :=
    { nodes := [{ id := some (pyUpper (dataset ++ "." ++ varName)),
                  ntype := some (suggestTypeForId (dataset ++ "." ++ varName) dataset),
                  label := none, file := none, description := none,
                  explanation := some postErrorExpl }],
      edges := [],
      gaps := [GapItem.gstr ("Post-processing error: " ++ e)] } }

/-- Backfill the summary when falsy. -/
def backfillSummary (dataset varName : String) (g : LGraph) : LGraph :=
  if isFalsyStr g.gsummary then
    { g with gsummary := some ("Lineage for " ++ pyUpper varName ++ " in " ++ pyUpper dataset ++
        " assembled from protocol/USDM, aCRF index, and define/spec.") }
  else g

/-- The post-parse pipeline of the variable builder (the `try` block):
auto-prefix, ensure-target, validate, augment; an exception inside (only the
augmentation round can raise in this model) yields the degraded
post-processing-error graph. -/
def postProcessVariable (dataset varName : String)
    (augOracle : LGraph → Except String LGraph) (raw : LGraph) : Except String LGraph :=
  let out := mkOut dataset varName raw
  let out := autoPrefixAdamVars out
  let out := ensureTarget dataset varName out
  let out := validateAndFixGraph out
  match augmentIfMissingSdtm augOracle out with
  | .error e => .ok (postErrorGraph dataset varName e)
  | .ok out2 => .ok (backfillSummary dataset varName out2)

/-- `build_lineage_with_llm_from_session`. The endpoint/table builders, the
evidence emptiness, the two chat-call results (primary model, then the one
fallback-model call) and the augmentation round are parameters; an error of
the fallback call propagates (the `try` block starts after the calls). -/
def buildLineageWithLlmFromSession (dataset varName : String)
    (endpointFn tableFn : String → Except String LGraph)
    (chunksEmpty : Bool)
    (primaryRes fallbackRes : Except String LGraph)
    (augOracle : LGraph → Except String LGraph) : Except String LGraph :=
  if pyLower dataset == "endpoint" || pyLower dataset == "protocol" || pyLower dataset == "soa" then
    endpointFn varName
  else if pyLower dataset == "table" || pyLower dataset == "tlf" || pyLower dataset == "display" then
    tableFn varName
  else if chunksEmpty then .ok (noEvidenceGraph dataset varName)
  else
    match primaryRes with
    | .ok raw => postProcessVariable dataset varName augOracle raw
    | .error _ =>
      match fallbackRes with
      | .ok raw => postProcessVariable dataset varName augOracle raw
      | .error e => .error e

/-! ## The `/analyze-variable` handler (`main.py`) -/

/-- Gap message of the freeform-router failure graph. -/
def freeformGapMsg : String :=
  "Freeform router could not determine dataset/variable; please reference a table id (e.g., " ++
  sq1 ++ "table ars_vs_t01" ++ sq1 ++ "), an ADaM/SDTM variable (e.g., " ++
  sq1 ++ "ADSL.AGE" ++ sq1 ++ " or " ++ sq1 ++ "DM.BRTHDTC" ++ sq1 ++
  "), or an endpoint description."

/-- The graph returned when the freeform router cannot classify the request. -/
def couldNotClassifyGraph (pds pvar : String) : LGraph :=
  { gvariable := some pvar, gdataset := some pds, gsummary := some "",
    lineage :=
    { nodes := [{ id := some (let s := pyLower (pyStrip pds ++ "." ++ pyStrip pvar);
                             if s == "" then "target" else s),
                  ntype := some "target", label := none, file := none, description := none,
                  explanation := some "[general] Could not classify the freeform request into a dataset/variable." }],
      edges := [],
      gaps := [GapItem.gstr freeformGapMsg] } }

/-- The degraded graph of the top-level exception handler in
`analyze_variable`. -/
def errorPathGraph (pds pvar e : String) : LGraph :=
  { gvariable := some pvar, gdataset := some pds, gsummary := some "",
    lineage :=
    { nodes := [{ id := some (let s := pyLower (pyStrip pds ++ "." ++ pyStrip pvar);
                             if s == "" then "target" else s),
                  ntype := some "target", label := none, file := none, description := none,
                  explanation := some "[general] Error path." }],
      edges := [],
      gaps := [GapItem.gstr ("Lineage service error: " ++ e)] } }

/-- `analyze_variable`: strip the payload, route through the freeform router
when the dataset is empty (`routed`/`cellRouted` are the router results),
dispatch to the endpoint or variable builder, and catch every exception into
the degraded error-path graph. -/
def analyzeVariable (pds pvar : String)
    (routed cellRouted : Option (String × String))
    (endpointFn : String → Except String LGraph)
    (buildFn : String → String → Except String LGraph) : LGraph :=
  let ds0 := pyStrip pds
  let var0 := pyStrip pvar
  let dispatch : String → String → Except String LGraph := fun d v =>
    if pyLower d == "endpoint" || pyLower d == "soa" then endpointFn v else buildFn d v
  let body : Except String LGraph :=
    if ds0 == "" then
      match routed with
      | some (d, v) => dispatch d v
      | none =>
        match cellRouted with
        | some (d, v) => dispatch d v
        | none => .ok (couldNotClassifyGraph pds pvar)
    else dispatch ds0 var0
  match body with
  | .ok g => g
  | .error e => errorPathGraph pds pvar e

/-! ## `_chunk_text` -/

/-- One produced chunk (`{"id": f"{docid}#{index}", "text": ...}`). -/
structure Chunk where
  cid : String
  text : List Char
  deriving DecidableEq

/-- Python slice `text[i:j]`. -/
def sliceL (l : List Char) (i j : Nat) : List Char :=
  (l.drop i).take (j - i)

/-- Python `text.rfind("\n", i, j)`: the highest index in `[i, j)` holding a
newline, if any. -/
def rfindNl (l : List Char) (i j : Nat) : Option Nat :=
  let window := sliceL l i j
  match window.reverse.findIdx? (fun c => c == '\n') with
  | none => none
  | some r => some (i + (window.length - 1 - r))

/-- The chunk boundary `j` computed for cursor `i`: `min(n, i+max_chars)`,
walked back to the nearest newline when that newline is within 200 characters
of the boundary (only when the boundary is not the end of the text). -/
def chunkBoundary (l : List Char) (maxChars i : Nat) : Nat :=
  let n := l.length
  let j0 := min n (i + maxChars)
  if j0 < n then
    match rfindNl l i j0 with
    | some k => if j0 - k < 200 then k else j0
    | none => j0
  else j0

/-- The chunking loop of `_chunk_text`, with explicit fuel standing for the
unbounded Python `while`; `none` means the fuel ran out with the cursor still
inside the text (the Python loop does not terminate from such a state, since
the cursor update is deterministic in `i`). -/
def chunkLoop (docid : String) (l : List Char) (maxChars overlap : Nat) :
    Nat → Nat → List Chunk → Option (List Chunk)
  | fuel, i, acc =>
    if i < l.length then
      match fuel with
      | 0 => none
      | fuel' + 1 =>
        let j := chunkBoundary l maxChars i
        let c : Chunk := { cid := docid ++ "#" ++ toString acc.length, text := sliceL l i j }
        chunkLoop docid l maxChars overlap fuel' (max (j - overlap) j) (acc ++ [c])
    else some acc

/-- `_chunk_text(docid, text, max_chars, overlap)`. The fuel `n + 1` is
sufficient whenever every iteration advances the cursor. -/
def chunkText (docid : String) (l : List Char) (maxChars overlap : Nat) : Option (List Chunk) :=
  chunkLoop docid l maxChars overlap (l.length + 1) 0 []

/-! ## `_retry` -/

/-- Outcome of one invocation of the wrapped function: a value, one of the
two retryable exception classes (`RateLimitError`, `APIError`), or any other
exception. -/
inductive CallOutcome (α : Type) where
  | success (v : α)
  | rateLimitErr (e : String)
  | apiError (e : String)
  | otherErr (e : String)
  deriving DecidableEq

/-- Observable behaviour of one `_retry` run: the returned value or raised
exception, the number of invocations of the wrapped function, and the
sequence of `time.sleep` delays (exact rationals, in seconds). -/
structure RetryResult (α : Type) where
  result : Except String α
  calls : Nat
  sleeps : List ℚ

/-- `RETRY_TRIES`. -/
def retryTries : Nat := 5

/-- `RETRY_BASE_WAIT` (1.5 seconds). -/
def retryBaseWait : ℚ := 3 / 2

/-- The retry loop: `i` attempts made so far, `r` iterations remaining,
current delay `d`, last recorded exception, and the reversed sleep log. The
`none` case of the exhausted branch is unreachable for a positive trial count
and mirrors the implicit `return None` after the Python loop. -/
def retryGo {α : Type} (f : Nat → CallOutcome α) :
    Nat → Nat → ℚ → Option String → List ℚ → RetryResult α
  | i, 0, _, last, sl =>
    { result := match last with | some e => .error e | none => .error "",
      calls := i, sleeps := sl.reverse }
  | i, r + 1, d, _, sl =>
    match f i with
    | .success v => { result := .ok v, calls := i + 1, sleeps := sl.reverse }
    | .rateLimitErr e => retryGo f (i + 1) r (d * 2) (some e) (d :: sl)
    | .apiError e => retryGo f (i + 1) r (d * 2) (some e) (d :: sl)
    | .otherErr e => { result := .error e, calls := i + 1, sleeps := sl.reverse }

/-- `_retry(fn)`: run the attempt sequence `f` under the source constants. -/
def retryRun {α : Type} (f : Nat → CallOutcome α) : RetryResult α :=
  retryGo f 0 retryTries retryBaseWait none []

/-! ## Graph parser/repairer (`_parse_llm_json` and helpers)

The parser claims quantify over well-formed JSON object texts. The value
universe below (strings, non-negative integers, arrays, objects) and its
canonical serializers produce such texts; `jsonLoads`/`pyLiteralEval` model
`json.loads` and `ast.literal_eval` on them (no insignificant whitespace, no
string escapes; `json.loads` rejects raw control characters inside strings,
single-quoted strings only in the literal parser — both modelled). -/

/-- JSON-like values: strings, non-negative integers, arrays, objects. -/
inductive Jv where
  | jstr (s : String)
  | jnum (n : Nat)
  | jarr (xs : List Jv)
  | jobj (fs : List (String × Jv))

/-- Decimal digit character of `n < 10`. -/
def digitChar (n : Nat) : Char :=
  Char.ofNat (48 + n)

/-- Decimal digits of a natural number (most significant first). -/
def natDigits (n : Nat) : List Char :=
  if _h : n < 10 then [digitChar n]
  else natDigits (n / 10) ++ [digitChar (n % 10)]
  decreasing_by exact Nat.div_lt_self (by omega) (by omega)

/-- Numeric value of a digit character. -/
def digitVal (c : Char) : Nat :=
  c.toNat - 48

/-- Value of a digit run (most significant first). -/
def digitsVal (l : List Char) : Nat :=
  l.foldl (fun a c => a * 10 + digitVal c) 0

/-- Serialization of a string with quote character `q`. -/
def serStrQ (q : Char) (s : String) : List Char :=
  q :: (s.data ++ [q])

mutual

/-- Canonical serialization of a value, with quote character `q` (`"` for the
JSON texts of the claims, an apostrophe for the single-quoted variant). -/
def serQ (q : Char) : Jv → List Char
  | .jstr s => serStrQ q s
  | .jnum n => natDigits n
  | .jarr xs => '[' :: (serItems q xs ++ [']'])
  | .jobj fs => '{' :: (serMembers q fs ++ ['}'])

/-- Comma-separated serialization of array items. -/
def serItems (q : Char) : List Jv → List Char
  | [] => []
  | [x] => serQ q x
  | x :: xs => serQ q x ++ ',' :: serItems q xs

/-- Comma-separated serialization of object members. -/
def serMembers (q : Char) : List (String × Jv) → List Char
  | [] => []
  | [(k, v)] => serStrQ q k ++ ':' :: serQ q v
  | (k, v) :: fs => serStrQ q k ++ ':' :: serQ q v ++ ',' :: serMembers q fs

end

/-- The canonical double-quoted JSON text of a value. -/
def serJ (v : Jv) : List Char :=
  serQ dqCh v

/-- Characters allowed inside the strings of the restricted value class: no
quotes of either kind, no backslash, no backtick, no typographic quotes, no
control characters. -/
def plainChar (c : Char) : Bool :=
  c.toNat ≥ 32 && c ≠ dqCh && c ≠ sqCh && c ≠ bslCh && c ≠ btCh &&
  c.toNat ≠ 0x201C && c.toNat ≠ 0x201D && c.toNat ≠ 0x2018 && c.toNat ≠ 0x2019

/-- A string made of allowed characters. -/
def plainStr (s : String) : Bool :=
  s.data.all plainChar

mutual

/-- Membership of a value in the restricted class. -/
def plainJ : Jv → Bool
  | .jstr s => plainStr s
  | .jnum _ => true
  | .jarr xs => plainItems xs
  | .jobj fs => plainMembers fs

/-- All array items are in the restricted class. -/
def plainItems : List Jv → Bool
  | [] => true
  | x :: xs => plainJ x && plainItems xs

/-- All object members are in the restricted class. -/
def plainMembers : List (String × Jv) → Bool
  | [] => true
  | (k, v) :: fs => plainStr k && plainJ v && plainMembers fs

end

mutual

/-- Nesting depth of a value (drives the parser fuel). -/
def depthJ : Jv → Nat
  | .jstr _ => 1
  | .jnum _ => 1
  | .jarr xs => 1 + depthItems xs
  | .jobj fs => 1 + depthMembers fs

/-- Maximal depth of array items. -/
def depthItems : List Jv → Nat
  | [] => 0
  | x :: xs => max (depthJ x) (depthItems xs)

/-- Maximal depth of object member values. -/
def depthMembers : List (String × Jv) → Nat
  | [] => 0
  | (_, v) :: fs => max (depthJ v) (depthMembers fs)

end

/-- Object member lookup (first match), for stating graph-shape hypotheses. -/
def getMember (fs : List (String × Jv)) (k : String) : Option Jv :=
  (fs.find? (fun p => p.1 == k)).map (fun p => p.2)

/-- The scan of `_extract_balanced_json_blob`: depth-count braces while
skipping quoted strings (either quote character) and escapes; return the
consumed prefix when the depth returns to zero at a `}`. `none` models the
`Braces not balanced` error. Python decrements an `int`, but the scan starts
at a `{`, so the depth stays positive until the final return. -/
def blobGo : List Char → Nat → Option Char → Bool → List Char → Option (List Char)
  | [], _, _, _, _ => none
  | c :: rest, depth, inStr, esc, acc =>
    match inStr with
    | some q =>
      if esc then blobGo rest depth (some q) false (c :: acc)
      else if c == bslCh then blobGo rest depth (some q) true (c :: acc)
      else if c == q then blobGo rest depth none false (c :: acc)
      else blobGo rest depth (some q) false (c :: acc)
    | none =>
      if c == sqCh || c == dqCh then blobGo rest depth (some c) false (c :: acc)
      else if c == '{' then blobGo rest (depth + 1) none false (c :: acc)
      else if c == '}' then
        (if depth == 1 then some (c :: acc).reverse
         else blobGo rest (depth - 1) none false (c :: acc))
      else blobGo rest depth none false (c :: acc)

/-- `_extract_balanced_json_blob`: the first balanced `{...}` span. -/
def extractBalancedJsonBlob (l : List Char) : Option (List Char) :=
  let rest := l.dropWhile (fun c => c ≠ '{')
  match rest with
  | [] => none
  | _ => blobGo rest 0 none false []

/-- One step of the square-bracket scan of `_maybe_close_square_brackets`:
state is (depth, current quote, escape flag); Python `max(0, depth-1)` is the
truncated `Nat` subtraction. -/
def sqFoldStep : Nat × Option Char × Bool → Char → Nat × Option Char × Bool
  | (depth, some q, esc), c =>
    if esc then (depth, some q, false)
    else if c == bslCh then (depth, some q, true)
    else if c == q then (depth, none, false)
    else (depth, some q, false)
  | (depth, none, _), c =>
    if c == sqCh || c == dqCh then (depth, some c, false)
    else if c == '[' then (depth + 1, none, false)
    else if c == ']' then (depth - 1, none, false)
    else (depth, none, false)

/-- Unclosed-`[` depth of a text, outside strings. -/
def sqDepth (l : List Char) : Nat :=
  (l.foldl sqFoldStep (0, none, false)).1

/-- Python `s.rfind("}")`: index of the last `}`, if any. -/
def lastBraceIdx (l : List Char) : Option Nat :=
  match l.reverse.findIdx? (fun c => c == '}') with
  | none => none
  | some r => some (l.length - 1 - r)

/-- `_maybe_close_square_brackets`: append the missing `]`s just before the
final `}` (or at the end when no `}` exists). -/
def maybeCloseSquareBrackets (l : List Char) : List Char :=
  let depth := sqDepth l
  if depth > 0 then
    match lastBraceIdx l with
    | some k => l.take k ++ List.replicate depth ']' ++ l.drop k
    | none => l ++ List.replicate depth ']'
  else l

/-- The typographic-quote normalization of `_parse_llm_json` (four
single-character replacements, hence a character-wise map). -/
def normQuoteCh (c : Char) : Char :=
  if c.toNat == 0x201C || c.toNat == 0x201D then dqCh
  else if c.toNat == 0x2018 || c.toNat == 0x2019 then sqCh
  else c

/-- Normalize typographic quotes to ASCII quotes. -/
def normalizeQuotes (l : List Char) : List Char :=
  l.map normQuoteCh

/-- Split `l` at the first occurrence of `pat`: the part before the match and
the part after it. -/
def findSubSplit (pat : List Char) : List Char → Option (List Char × List Char)
  | [] => if pat.isEmpty then some ([], []) else none
  | c :: t =>
    if prefAt pat (c :: t) then some ([], (c :: t).drop pat.length)
    else
      match findSubSplit pat t with
      | some (pre, post) => some (c :: pre, post)
      | none => none

/-- The fence pattern (three backticks). -/
def fencePat : List Char :=
  List.replicate 3 btCh

/-- Operational model of `_JSON_FENCE_RE.search(...).group(1)`: text between
the first fence pair, after an optional case-insensitive `json` tag; the
greedy `\s*` absorbs leading whitespace and the lazy capture stops before the
whitespace run preceding the closing fence. -/
def fenceSearch (l : List Char) : Option (List Char) :=
  match findSubSplit fencePat l with
  | none => none
  | some (_, rest) =>
    let rest1 := if prefAt "json".data ((rest.take 4).map lowCh) then rest.drop 4 else rest
    let rest2 := rest1.dropWhile isPyWs
    match findSubSplit fencePat rest2 with
    | none => none
    | some (pre, _) => some (dropTrailWs pre)

/-- Quote characters accepted by the value parser: `"` always, an apostrophe
only in literal-eval mode. -/
def isQuoteCh (allowSingle : Bool) (c : Char) : Bool :=
  c == dqCh || (allowSingle && c == sqCh)

/-- Read a quoted string body up to the closing quote `q`; fails on a
backslash (escapes are outside the modelled class) and on raw control
characters (which strict `json.loads` rejects). -/
def readStr (q : Char) : List Char → Option (List Char × List Char)
  | [] => none
  | c :: rest =>
    if c == q then some ([], rest)
    else if c == bslCh || c.toNat < 32 then none
    else
      match readStr q rest with
      | some (content, rest') => some (c :: content, rest')
      | none => none

/-- Parse a comma-separated run of array items ending at `]`, with the value
parser `pv` for the items. -/
def pItems (pv : List Char → Option (Jv × List Char)) :
    Nat → List Char → Option (List Jv × List Char)
  | 0, _ => none
  | ifuel + 1, l =>
    match pv l with
    | none => none
    | some (v, rest) =>
      match rest with
      | [] => none
      | c :: rest' =>
        if c == ',' then
          (match pItems pv ifuel rest' with
           | some (vs, rest'') => some (v :: vs, rest'')
           | none => none)
        else if c == ']' then some ([v], rest')
        else none

/-- Parse a comma-separated run of object members ending at `}`. -/
def pMembers (allowSingle : Bool) (pv : List Char → Option (Jv × List Char)) :
    Nat → List Char → Option (List (String × Jv) × List Char)
  | 0, _ => none
  | ifuel + 1, l =>
    match l with
    | [] => none
    | c :: rest =>
      if isQuoteCh allowSingle c then
        match readStr c rest with
        | none => none
        | some (key, rest1) =>
          match rest1 with
          | [] => none
          | c1 :: rest2 =>
            if c1 == ':' then
              (match pv rest2 with
               | none => none
               | some (v, rest3) =>
                 match rest3 with
                 | [] => none
                 | c2 :: rest4 =>
                   if c2 == ',' then
                     (match pMembers allowSingle pv ifuel rest4 with
                      | some (fs, rest5) => some ((⟨key⟩, v) :: fs, rest5)
                      | none => none)
                   else if c2 == '}' then some ([(⟨key⟩, v)], rest4)
                   else none)
            else none
      else none

/-- The value parser shared by the `json.loads` and `ast.literal_eval`
models: quoted strings, digit runs, arrays, objects. No whitespace skipping
(the pipelines of the claims hand it whitespace-free texts). -/
def pValQ (allowSingle : Bool) : Nat → List Char → Option (Jv × List Char)
  | 0, _ => none
  | fuel + 1, l =>
    match l with
    | [] => none
    | c :: rest =>
      if isQuoteCh allowSingle c then
        (match readStr c rest with
         | some (content, rest') => some (.jstr ⟨content⟩, rest')
         | none => none)
      else if c.isDigit then
        some (.jnum (digitsVal ((c :: rest).takeWhile Char.isDigit)),
              (c :: rest).dropWhile Char.isDigit)
      else if c == '[' then
        (match rest with
         | [] => none
         | c2 :: rest2 =>
           if c2 == ']' then some (.jarr [], rest2)
           else
             match pItems (pValQ allowSingle fuel) ((c2 :: rest2).length + 1) (c2 :: rest2) with
             | some (vs, rest') => some (.jarr vs, rest')
             | none => none)
      else if c == '{' then
        (match rest with
         | [] => none
         | c2 :: rest2 =>
           if c2 == '}' then some (.jobj [], rest2)
           else
             match pMembers allowSingle (pValQ allowSingle fuel)
                 ((c2 :: rest2).length + 1) (c2 :: rest2) with
             | some (fs, rest') => some (.jobj fs, rest')
             | none => none)
      else none

/-- Model of `json.loads` on a whitespace-free text: a full parse with double
quotes only. -/
def jsonLoads (l : List Char) : Option Jv :=
  match pValQ false (l.length + 1) l with
  | some (v, []) => some v
  | _ => none

/-- Model of the `ast.literal_eval` fallback (single quotes also accepted;
`_to_jsonable` is the identity on this value universe). -/
def pyLiteralEval (l : List Char) : Option Jv :=
  match pValQ true (l.length + 1) l with
  | some (v, []) => some v
  | _ => none

/-- `_parse_llm_json`: strip, unfence, extract a balanced blob (with the
find/rfind slice fallback), normalize typographic quotes, auto-close stray
`[`s, then `json.loads` and the literal-eval fallback. `none` models the
raised `ValueError`. -/
def parseLlmJson (l : List Char) : Option Jv :=
  if l.isEmpty then none
  else
    let raw := pyStripL l
    let raw :=
      match fenceSearch raw with
      | some cap => pyStripL cap
      | none => raw
    let blobO : Option (List Char) :=
      match extractBalancedJsonBlob raw with
      | some b => some b
      | none =>
        match raw.findIdx? (fun c => c == '{'), lastBraceIdx raw with
        | some i, some j => if i < j then some (sliceL raw i (j + 1)) else none
        | _, _ => none
    match blobO with
    | none => none
    | some blob =>
      let blob2 := maybeCloseSquareBrackets (normalizeQuotes blob)
      match jsonLoads blob2 with
      | some v => some v
      | none => pyLiteralEval blob2

/-! ## Statement-level predicates and concrete instances -/

/-- An optional string field free of leading/trailing whitespace. -/
def strippedOpt : Option String → Bool
  | none => true
  | some s => pyStrip s == s

/-- Node ids free of surrounding whitespace. -/
def strippedNode (n : LNode) : Bool :=
  strippedOpt n.id

/-- Edge endpoint fields free of surrounding whitespace. -/
def strippedEdge (e : LEdge) : Bool :=
  strippedOpt e.efrom && strippedOpt e.eto && strippedOpt e.esource && strippedOpt e.etarget

/-- A graph whose node ids and edge endpoints are whitespace-stripped
strings — the normal case, matching what the normalizer itself compares. -/
def strippedGraph (g : LGraph) : Bool :=
  g.lineage.nodes.all strippedNode && g.lineage.edges.all strippedEdge

/-- The `node_map` key list of a graph. -/
def nodeKeysOf (g : LGraph) : List String :=
  (dedupNodes g.lineage.nodes).map (fun p => p.1)

/-- A placeholder-explained node whose raw id (with leading whitespace) does
not textually match the stripped ids used in its edge: input of the C1/C3
counterexamples. -/
def cxPlaceholderNode : LNode :=
  { id := some " A", ntype := some "crf page", label := none, file := none,
    description := none,
    explanation := some "[general] Explicit node for the requested target." }

/-- A self-edge on the stripped id `A`. -/
def cxEdgeAA : LEdge :=
  { efrom := some "A", eto := some "A", esource := none, etarget := none,
    label := none, explanation := some "[direct] Stated mapping." }

/-- Graph with one whitespace-padded placeholder node and one edge on its
stripped id. -/
def cxWhitespaceGraph : LGraph :=
  { gvariable := some "AGE", gdataset := some "ADSL", gsummary := some "",
    lineage := { nodes := [cxPlaceholderNode], edges := [cxEdgeAA], gaps := [] } }

/-- Node with a non-empty explanation that carries no provenance tag. -/
def c4Node : LNode :=
  { id := some "X", ntype := some "crf page", label := none, file := none,
    description := none, explanation := some "Some untagged note." }

/-- Graph wrapping `c4Node`. -/
def c4Graph : LGraph :=
  { gvariable := some "AGE", gdataset := some "ADSL", gsummary := some "",
    lineage := { nodes := [c4Node], edges := [], gaps := [] } }

/-- First of two nodes sharing the id `X` but with different canonical
types. -/
def c6NodeA : LNode :=
  { id := some "X", ntype := some "crf page", label := none, file := none,
    description := none, explanation := some "[direct] CRF anchor." }

/-- Second node with the same id and a different canonical type. -/
def c6NodeB : LNode :=
  { id := some "X", ntype := some "protocol section", label := none, file := none,
    description := none, explanation := some "[direct] Protocol anchor." }

/-- Graph holding the two same-id, different-type nodes. -/
def c6Graph : LGraph :=
  { gvariable := some "AGE", gdataset := some "ADSL", gsummary := some "",
    lineage := { nodes := [c6NodeA, c6NodeB], edges := [], gaps := [] } }

/-- An empty parsed model response. -/
def emptyRawGraph : LGraph :=
  { gvariable := none, gdataset := none, gsummary := none,
    lineage := { nodes := [], edges := [], gaps := [] } }

/-- The variable builder run on an empty (but successfully parsed) model
response for target `ADSL.AGE`: input of the C5 counterexample. -/
def c5Build : Except String LGraph :=
  buildLineageWithLlmFromSession "ADSL" "AGE"
    (fun _ => .error "endpoint builder unused")
    (fun _ => .error "table builder unused")
    false (.ok emptyRawGraph) (.error "fallback unused")
    (fun _ => .error "augmentation unused")

/-- The `/analyze-variable` handler with both chat calls raising: input of
the C2 counterexample. -/
def c2Analyze : LGraph :=
  analyzeVariable "ADSL" "AGE" none none
    (fun _ => .error "endpoint builder unused")
    (fun d v =>
      buildLineageWithLlmFromSession d v
        (fun _ => .error "endpoint builder unused")
        (fun _ => .error "table builder unused")
        false (.error "primary model call failed") (.error "fallback model call failed")
        (fun _ => .error "augmentation unused"))

/-- Text that stalls the chunker when `max_chars = 5`: once the cursor
reaches the newline at position 2, the boundary walk-back lands on the
cursor itself and no progress is ever made again. -/
def c9Text : List Char :=
  'x' :: 'x' :: '\n' :: List.replicate 20 'y'

/-- The JSON value `{"lineage": {"nodes": []}}`. -/
def c7J0 : Jv :=
  Jv.jobj [("lineage", Jv.jobj [("nodes", Jv.jarr [])])]

/-- The text of `c7J0` with the closing `]` of its unclosed `[` removed (the
character just before the final two braces). -/
def c7BrokenText : List Char :=
  '{' :: (dqCh :: ("lineage".data ++ [dqCh, ':', '{', dqCh] ++ "nodes".data ++
    [dqCh, ':', '[', '}', '}']))

/-- Remove the second-to-last character of a text: the transformation of the
parser claim, variant (c), on a text ending in `]}`. -/
def dropPenultimate (l : List Char) : List Char :=
  l.take (l.length - 2) ++ l.drop (l.length - 1)

/-- Wrap a text in a ```` ```json ```` fenced code block. -/
def fenceWrap (l : List Char) : List Char :=
  fencePat ++ "json".data ++ '\n' :: (l ++ '\n' :: fencePat)

/-- The JSON value `{"lineage": {"nodes": ["a"]}, "z": []}`, whose text ends
in `]}`: witness value for the parser claim. -/
def c7J1 : Jv :=
  Jv.jobj [("lineage", Jv.jobj [("nodes", Jv.jarr [Jv.jstr "a"])]), ("z", Jv.jarr [])]

/-- Guard for the number parser: the trailing context does not begin with a
digit (true of `,`, `]`, `}`, `:` and of the end of input). -/
def noDigitHead (l : List Char) : Prop :=
  ∀ c, l.head? = some c → c.isDigit = false

/-! ## General lemmas -/

/-- A non-falsy optional string is a non-empty string. -/
theorem isFalsyStr_eq_false_iff (o : Option String) :
    isFalsyStr o = false ↔ ∃ s, o = some s ∧ s ≠ "" := by
  cases o <;> simp [isFalsyStr]

/-! ## Claim C8 -/

/-- C8: the chunker cursor never moves back by `overlap`: the source computes
`i = max(j - overlap, j)`, which is always the boundary `j` itself, so with
`max_chars = 5` and `overlap = 2` the two chunks of `abcdefghij` are the
disjoint `abcde` and `fghij` instead of sharing two characters. The second
conjunct isolates the dead clamp. -/
theorem C8_cursor_advance_ignores_overlap :
    chunkText "d" ("abcdefghij".data) 5 2 =
      some [⟨"d#0", "abcde".data⟩, ⟨"d#1", "fghij".data⟩] ∧
    (∀ j overlap : Nat, max (j - overlap) j = j) := by
  constructor
  · decide
  · intro j overlap
    exact Nat.max_eq_right (Nat.sub_le j overlap)

/-! ## Claim C10 -/

/-- C10: `_retry` retries only the two retryable error classes, up to 5
attempts, sleeping 1.5 s and doubling after each retryable failure; a
non-retryable exception is re-raised after a single invocation with no sleep;
five retryable failures re-raise the last error after the fifth attempt. -/
theorem C10_retry_discrimination (f : Nat → CallOutcome Nat) (es : Nat → String) (v : Nat) :
    (∀ e, f 0 = CallOutcome.otherErr e →
      retryRun f = { result := Except.error e, calls := 1, sleeps := [] }) ∧
    ((∀ i, i < 5 → f i = CallOutcome.rateLimitErr (es i)) →
      retryRun f = { result := Except.error (es 4), calls := 5,
                     sleeps := [3/2, 3, 6, 12, 24] }) ∧
    (∀ k, k ≤ 4 → (∀ i, i < k → f i = CallOutcome.apiError (es i)) →
      f k = CallOutcome.success v →
      retryRun f = { result := Except.ok v, calls := k + 1,
                     sleeps := (List.range k).map (fun i => 3 / 2 * 2 ^ i) }) := by
  refine ⟨?_, ?_, ?_⟩
  · intro e h
    simp [retryRun, retryGo, retryTries, retryBaseWait, h]
  · intro h
    have h0 := h 0 (by omega)
    have h1 := h 1 (by omega)
    have h2 := h 2 (by omega)
    have h3 := h 3 (by omega)
    have h4 := h 4 (by omega)
    simp [retryRun, retryGo, retryTries, retryBaseWait, h0, h1, h2, h3, h4]
    try norm_num
  · intro k hk h hs
    interval_cases k
    · simp [retryRun, retryGo, retryTries, retryBaseWait, hs]
    · have h0 := h 0 (by omega)
      simp [retryRun, retryGo, retryTries, retryBaseWait, h0, hs, List.range_succ]
      try norm_num
    · have h0 := h 0 (by omega)
      have h1 := h 1 (by omega)
      simp [retryRun, retryGo, retryTries, retryBaseWait, h0, h1, hs, List.range_succ]
      try norm_num
    · have h0 := h 0 (by omega)
      have h1 := h 1 (by omega)
      have h2 := h 2 (by omega)
      simp [retryRun, retryGo, retryTries, retryBaseWait, h0, h1, h2, hs, List.range_succ]
      try norm_num
    · have h0 := h 0 (by omega)
      have h1 := h 1 (by omega)
      have h2 := h 2 (by omega)
      have h3 := h 3 (by omega)
      simp [retryRun, retryGo, retryTries, retryBaseWait, h0, h1, h2, h3, hs, List.range_succ]
      try norm_num

/-- Witness for C10 at a concrete attempt sequence: two rate-limit failures
followed by success. -/
theorem C10_witness :
    retryRun (fun i => if i < 2 then CallOutcome.apiError (toString i) else CallOutcome.success 7) =
      { result := Except.ok 7, calls := 3,
        sleeps := (List.range 2).map (fun i => 3 / 2 * 2 ^ i) } :=
  (C10_retry_discrimination
      (fun i => if i < 2 then CallOutcome.apiError (toString i) else CallOutcome.success 7)
      (fun i => toString i) 7).2.2 2 (by omega)
    (fun i hi => by interval_cases i <;> rfl) (by rfl)

/-! ## Claim C2 -/

/-- The lower-cased `dataset.variable` id is never empty (it contains the
dot), so the `or "target"` fallback of the handler never fires. -/
theorem pyLower_dotted_ne_empty (a b : String) :
    pyLower (a ++ "." ++ b) ≠ "" := by
  intro h
  have hd := congrArg String.data h
  simp [pyLower, String.data_append] at hd

/-- C2 (amended): when the primary and the fallback chat calls both raise,
the exception propagates out of the variable builder (whose `try` block
begins only after the calls) to the top-level handler, which returns the
degraded error-path graph: exactly one node, id the lower-cased
`dataset.variable`, explanation `[general] Error path.`, and a single gap
carrying the stringified fallback exception. -/
theorem C2_degraded_graph_error_path (pds pvar e1 e2 : String)
    (endpointFn tableFn : String → Except String LGraph)
    (augOracle : LGraph → Except String LGraph)
    (routed cellRouted : Option (String × String))
    (hne : pyStrip pds ≠ "")
    (h1 : pyLower (pyStrip pds) ≠ "endpoint") (h2 : pyLower (pyStrip pds) ≠ "soa")
    (h3 : pyLower (pyStrip pds) ≠ "protocol") (h4 : pyLower (pyStrip pds) ≠ "table")
    (h5 : pyLower (pyStrip pds) ≠ "tlf") (h6 : pyLower (pyStrip pds) ≠ "display") :
    analyzeVariable pds pvar routed cellRouted endpointFn
        (fun d v => buildLineageWithLlmFromSession d v endpointFn tableFn false
          (Except.error e1) (Except.error e2) augOracle) =
      errorPathGraph pds pvar e2 ∧
    (errorPathGraph pds pvar e2).lineage.nodes.length = 1 ∧
    (∀ n ∈ (errorPathGraph pds pvar e2).lineage.nodes,
        n.explanation = some "[general] Error path." ∧
        n.id = some (pyLower (pyStrip pds ++ "." ++ pyStrip pvar))) ∧
    (errorPathGraph pds pvar e2).lineage.gaps =
      [GapItem.gstr ("Lineage service error: " ++ e2)] := by
  refine ⟨?_, ?_, ?_, ?_⟩
  · simp [analyzeVariable, buildLineageWithLlmFromSession, hne, h1, h2, h3, h4, h5, h6]
  · rfl
  · intro n hn
    simp only [errorPathGraph, List.mem_singleton] at hn
    subst hn
    refine ⟨rfl, ?_⟩
    simp [pyLower_dotted_ne_empty]
  · rfl

/-- Counterexample to C2 as stated: with both model calls raising, the
returned single node carries the explanation `[general] Error path.` and the
lower-cased id `adsl.age` — not the claimed post-processing-error explanation
and not the upper-cased requested target id `ADSL.AGE`. -/
theorem C2_counterexample :
    c2Analyze.lineage.nodes.map (fun n => (n.id, n.explanation)) =
      [(some "adsl.age", some "[general] Error path.")] ∧
    some "[general] Error path." ≠ some postErrorExpl ∧
    targetIdOf "ADSL" "AGE" = "ADSL.AGE" ∧ ("adsl.age" : String) ≠ "ADSL.AGE" := by
  refine ⟨by decide, by decide, by decide, by decide⟩

/-- Witness for C2 at the concrete request `ADSL.AGE` with two failing
calls. -/
theorem C2_witness :
    analyzeVariable "ADSL" "AGE" none none (fun _ => Except.error "ep")
        (fun d v => buildLineageWithLlmFromSession d v (fun _ => Except.error "ep")
          (fun _ => Except.error "tb") false
          (Except.error "primary down") (Except.error "fallback down")
          (fun _ => Except.error "aug")) =
      errorPathGraph "ADSL" "AGE" "fallback down" :=
  (C2_degraded_graph_error_path "ADSL" "AGE" "primary down" "fallback down"
    (fun _ => Except.error "ep") (fun _ => Except.error "tb")
    (fun _ => Except.error "aug") none none
    (by decide) (by decide) (by decide) (by decide) (by decide) (by decide) (by decide)).1

/-! ## Claim C5 -/

/-- C5 (amended, first half): when no parsed node upper-cases to the
requested target id, the ensure-target step appends a placeholder node with
the target id and a `[general]` explanation, so the graph entering
normalization always contains the asked-about entity. -/
theorem C5_explicit_target_appended (dataset varName : String) (g : LGraph)
    (habs : g.lineage.nodes.all
      (fun n => pyUpper (orEmpty n.id) != targetIdOf dataset varName) = true) :
    ∃ n ∈ (ensureTarget dataset varName g).lineage.nodes,
      n.id = some (targetIdOf dataset varName) ∧
      n.explanation = some explicitTargetExpl ∧
      prefAt "[general]".data explicitTargetExpl.data = true := by
  have hany : g.lineage.nodes.any
      (fun n => pyUpper (orEmpty n.id) == targetIdOf dataset varName) = false := by
    rw [List.any_eq_false]
    intro n hn
    have := (List.all_eq_true).1 habs n hn
    simpa using this
  refine ⟨{ id := some (targetIdOf dataset varName),
            ntype := some (suggestTypeForId (targetIdOf dataset varName) dataset),
            label := none, file := none, description := none,
            explanation := some explicitTargetExpl }, ?_, rfl, rfl, by decide⟩
  simp [ensureTarget, hany]

/-- Counterexample to C5 as stated: on an empty parsed response for target
`ADSL.AGE`, the placeholder is appended (one node enters normalization) but
the orphan-placeholder pruning removes it again, and the builder returns a
graph with no nodes at all — the asked-about entity is absent from the final
graph. -/
theorem C5_counterexample :
    (ensureTarget "ADSL" "AGE"
        (autoPrefixAdamVars (mkOut "ADSL" "AGE" emptyRawGraph))).lineage.nodes.length = 1 ∧
    c5Build.map (fun g => g.lineage.nodes) = Except.ok [] := by
  exact ⟨by decide, by rfl⟩

/-- Witness for C5 at the empty parsed response. -/
theorem C5_witness :
    ∃ n ∈ (ensureTarget "ADSL" "AGE" emptyRawGraph).lineage.nodes,
      n.id = some (targetIdOf "ADSL" "AGE") ∧
      n.explanation = some explicitTargetExpl ∧
      prefAt "[general]".data explicitTargetExpl.data = true :=
  C5_explicit_target_appended "ADSL" "AGE" emptyRawGraph (by decide)

/-! ## Normalizer infrastructure lemmas -/

/-- `fixNode` does not change the id. -/
theorem fixNode_id (dk k : String) (n : LNode) : (fixNode dk k n).id = n.id := by
  unfold fixNode
  dsimp only
  split <;> split <;> rfl

/-- `fixNode` leaves a non-falsy explanation; a falsy one becomes the
default. -/
theorem fixNode_expl_not_falsy (dk k : String) (n : LNode) :
    isFalsyStr (fixNode dk k n).explanation = false := by
  unfold fixNode
  dsimp only
  split
  · split
    · dsimp only; decide
    · next h => simpa using h
  · split
    · dsimp only; decide
    · next h => simpa using h

/-- `canonNode` does not change the id. -/
theorem canonNode_id (n : LNode) : (canonNode n).id = n.id := by
  unfold canonNode
  dsimp only
  split <;> rfl

/-- `canonNode` does not change the explanation. -/
theorem canonNode_explanation (n : LNode) : (canonNode n).explanation = n.explanation := by
  unfold canonNode
  dsimp only
  split <;> rfl

/-- `canonNode` does not change the label. -/
theorem canonNode_label (n : LNode) : (canonNode n).label = n.label := by
  unfold canonNode
  dsimp only
  split <;> rfl

/-- A kept edge has a non-falsy explanation. -/
theorem keptEdge_expl_not_falsy (keys : List String) (e e' : LEdge)
    (h : keptEdge keys e = some e') : isFalsyStr e'.explanation = false := by
  unfold keptEdge at h
  dsimp only at h
  split at h
  · exact absurd h (by simp)
  · split at h
    · exact absurd h (by simp)
    · split at h
      · cases h; dsimp only; decide
      · next hex =>
        cases h
        simpa using hex

/-- A successful lookup yields a stored pair. -/
theorem lookupK_mem {k : String} {acc : List (String × LNode)} {v : LNode}
    (h : lookupK k acc = some v) : (k, v) ∈ acc := by
  induction acc with
  | nil => simp [lookupK] at h
  | cons p t ih =>
    obtain ⟨k', n'⟩ := p
    unfold lookupK at h
    split at h
    · next hk =>
      cases h
      have : k' = k := by simpa using hk
      subst this
      exact List.mem_cons_self _ _
    · exact List.mem_cons_of_mem _ (ih h)

/-- A failed lookup means the key is absent. -/
theorem lookupK_eq_none_iff (k : String) (acc : List (String × LNode)) :
    lookupK k acc = none ↔ ∀ p ∈ acc, p.1 ≠ k := by
  induction acc with
  | nil => simp [lookupK]
  | cons p t ih =>
    obtain ⟨k', n'⟩ := p
    unfold lookupK
    constructor
    · intro h
      split at h
      · exact absurd h (by simp)
      · next hk =>
        intro q hq
        rcases List.mem_cons.1 hq with rfl | hq'
        · simpa using hk
        · exact (ih.1 h) q hq'
    · intro h
      have hk : (k' == k) = false := by
        simpa using h (k', n') (List.mem_cons_self _ _)
      rw [hk]
      simp only [Bool.false_eq_true, if_false]
      exact ih.2 (fun q hq => h q (List.mem_cons_of_mem _ hq))

/-- `updateK` preserves the key list. -/
theorem updateK_map_fst (k : String) (n : LNode) (acc : List (String × LNode)) :
    (updateK k n acc).map Prod.fst = acc.map Prod.fst := by
  induction acc with
  | nil => rfl
  | cons p t ih =>
    obtain ⟨k', n'⟩ := p
    unfold updateK
    split
    · next hk =>
      have : k' = k := by simpa using hk
      subst this
      rfl
    · simpa using ih

/-- Every element of `updateK k n acc` is the replacement or an original. -/
theorem mem_updateK {k : String} {n : LNode} {acc : List (String × LNode)} {p : String × LNode}
    (h : p ∈ updateK k n acc) : p = (k, n) ∨ p ∈ acc := by
  induction acc with
  | nil => simp [updateK] at h
  | cons q t ih =>
    obtain ⟨k', n'⟩ := q
    unfold updateK at h
    split at h
    · next hk =>
      have hk' : k' = k := by simpa using hk
      subst hk'
      rcases List.mem_cons.1 h with rfl | h'
      · exact Or.inl rfl
      · exact Or.inr (List.mem_cons_of_mem _ h')
    · rcases List.mem_cons.1 h with rfl | h'
      · exact Or.inr (List.mem_cons_self _ _)
      · rcases ih h' with h'' | h''
        · exact Or.inl h''
        · exact Or.inr (List.mem_cons_of_mem _ h'')

/-- `mergeNode` keeps the id of the kept node when that id is non-falsy. -/
theorem mergeNode_id_of_not_falsy {kept dup : LNode} (h : isFalsyStr kept.id = false) :
    (mergeNode kept dup).id = kept.id := by
  rcases (isFalsyStr_eq_false_iff kept.id).1 h with ⟨s, hs, hne⟩
  unfold mergeNode mergeField
  cases hd : dup.id
  · simp [hs]
  · simp [hs, hne]

/-- A stripped node whose key is non-empty stores its key as its id. -/
theorem nodeKey_id_of_stripped {n : LNode} (hs : strippedNode n = true)
    (hne : nodeKey n ≠ "") : n.id = some (nodeKey n) := by
  unfold nodeKey at hne ⊢
  cases hid : n.id with
  | none =>
    rw [hid] at hne
    exact absurd rfl hne
  | some s =>
    have hss : pyStrip s = s := by
      have hs2 := hs
      unfold strippedNode strippedOpt at hs2
      rw [hid] at hs2
      simpa using hs2
    simp [orEmpty, hss]

/-- Entry invariant of `node_map` over stripped inputs: keys are non-empty
stripped strings and each stored node's id equals its key. -/
theorem dedupNodes_entry_inv (ns : List LNode) (hstr : ns.all strippedNode = true) :
    ∀ p ∈ dedupNodes ns, p.1 ≠ "" ∧ p.2.id = some p.1 ∧ pyStrip p.1 = p.1 := by
  suffices h : ∀ (ms : List LNode) (acc : List (String × LNode)),
      ms.all strippedNode = true →
      (∀ p ∈ acc, p.1 ≠ "" ∧ p.2.id = some p.1 ∧ pyStrip p.1 = p.1) →
      ∀ p ∈ ms.foldl dedupInsert acc, p.1 ≠ "" ∧ p.2.id = some p.1 ∧ pyStrip p.1 = p.1 by
    exact h ns [] hstr (by simp)
  intro ms
  induction ms with
  | nil => intro acc _ hacc p hp; exact hacc p hp
  | cons n t ih =>
    intro acc hall hacc p hp
    have hn : strippedNode n = true := by
      have := (List.all_eq_true).1 hall n (List.mem_cons_self _ _)
      simpa using this
    have ht : t.all strippedNode = true := by
      rw [List.all_eq_true]
      intro x hx
      exact (List.all_eq_true).1 hall x (List.mem_cons_of_mem _ hx)
    refine ih _ ht ?_ p hp
    intro q hq
    unfold dedupInsert at hq
    dsimp only at hq
    split at hq
    · exact hacc q hq
    · next hk =>
      have hkne : nodeKey n ≠ "" := by simpa using hk
      split at hq
      · rcases List.mem_append.1 hq with h' | h'
        · exact hacc q h'
        · have : q = (nodeKey n, n) := by simpa using h'
          subst this
          refine ⟨hkne, nodeKey_id_of_stripped hn hkne, ?_⟩
          have hid := nodeKey_id_of_stripped hn hkne
          have hsn2 : strippedNode n = true := hn
          unfold strippedNode strippedOpt at hsn2
          rw [hid] at hsn2
          simpa using hsn2
      · next kept hkept =>
        rcases mem_updateK hq with rfl | h'
        · have hkinv := hacc (nodeKey n, kept) (lookupK_mem hkept)
          refine ⟨hkne, ?_, hkinv.2.2⟩
          have hidk : kept.id = some (nodeKey n) := hkinv.2.1
          have : isFalsyStr kept.id = false := by
            rw [hidk]
            simp [isFalsyStr]
            exact hkne
          rw [mergeNode_id_of_not_falsy this, hidk]
        · exact hacc q h'

/-- The `node_map` key list has no duplicates. -/
theorem dedupNodes_keys_nodup (ns : List LNode) :
    ((dedupNodes ns).map Prod.fst).Nodup := by
  suffices h : ∀ (ms : List LNode) (acc : List (String × LNode)),
      (acc.map Prod.fst).Nodup → ((ms.foldl dedupInsert acc).map Prod.fst).Nodup by
    exact h ns [] (by simp)
  intro ms
  induction ms with
  | nil => intro acc hacc; exact hacc
  | cons n t ih =>
    intro acc hacc
    refine ih _ ?_
    unfold dedupInsert
    dsimp only
    split
    · exact hacc
    · split
      · next hnone =>
        rw [List.map_append]
        refine List.Nodup.append hacc (by simp) ?_
        intro x hx hy
        have : x = nodeKey n := by simpa using hy
        subst this
        rcases List.mem_map.1 hx with ⟨p, hp, hfst⟩
        exact ((lookupK_eq_none_iff _ _).1 hnone p hp) hfst
      · rw [updateK_map_fst]
        exact hacc

/-- Raw endpoints of every kept edge are recorded in `used_ids`. -/
theorem mem_usedIds {es : List LEdge} {e : LEdge} (h : e ∈ es) :
    pyStr e.efrom ∈ usedIds es ∧ pyStr e.eto ∈ usedIds es := by
  induction es with
  | nil => simp at h
  | cons e' t ih =>
    rcases List.mem_cons.1 h with rfl | h'
    · exact ⟨List.mem_cons_self _ _, List.mem_cons_of_mem _ (List.mem_cons_self _ _)⟩
    · have := ih h'
      exact ⟨List.mem_cons_of_mem _ (List.mem_cons_of_mem _ this.1),
             List.mem_cons_of_mem _ (List.mem_cons_of_mem _ this.2)⟩

/-! ## Claim C4 -/

/-- C4 (amended): after normalization every node and edge carries a non-empty
explanation, and the backfilled defaults start with the `[reasoned]` tag; a
pre-existing non-empty explanation is preserved verbatim and is not required
to carry a provenance tag. -/
theorem C4_explanation_backfill (g : LGraph) :
    (∀ n ∈ (validateAndFixGraph g).lineage.nodes, ∃ s, n.explanation = some s ∧ s ≠ "") ∧
    (∀ e ∈ (validateAndFixGraph g).lineage.edges, ∃ s, e.explanation = some s ∧ s ≠ "") ∧
    prefAt "[reasoned]".data defaultNodeExpl.data = true ∧
    prefAt "[reasoned]".data defaultEdgeExpl.data = true := by
  refine ⟨?_, ?_, by decide, by decide⟩
  · intro n hn
    simp only [validateAndFixGraph] at hn
    rcases List.mem_map.1 hn with ⟨m, hm, rfl⟩
    have hm' := List.mem_of_mem_filter hm
    rcases List.mem_map.1 hm' with ⟨p, _, rfl⟩
    rw [← isFalsyStr_eq_false_iff]
    rw [canonNode_explanation]
    exact fixNode_expl_not_falsy _ _ _
  · intro e he
    simp only [validateAndFixGraph] at he
    rcases List.mem_filterMap.1 he with ⟨e0, _, hk⟩
    rw [← isFalsyStr_eq_false_iff]
    exact keptEdge_expl_not_falsy _ _ _ hk

/-- Counterexample to C4 as stated: a pre-existing non-empty explanation
without any provenance tag survives normalization unchanged, so not every
explanation starts with `[direct]`, `[reasoned]` or `[general]`. -/
theorem C4_counterexample :
    (validateAndFixGraph c4Graph).lineage.nodes.map (fun n => n.explanation) =
      [some "Some untagged note."] ∧
    (prefAt "[direct]".data "Some untagged note.".data ||
     prefAt "[reasoned]".data "Some untagged note.".data ||
     prefAt "[general]".data "Some untagged note.".data) = false := by
  exact ⟨by decide, by decide⟩

/-- Witness for C4 at the concrete graph `c4Graph`. -/
theorem C4_witness : ∃ s, c4Node.explanation = some s ∧ s ≠ "" :=
  (C4_explanation_backfill c4Graph).1 c4Node (by decide)

/-! ## Claim C6 -/

/-- C6 (amended): de-duplication groups nodes by the stripped id string
alone — two nodes with the same stripped id merge regardless of their types,
the first occurrence's id is kept, non-empty duplicate fields fill empty kept
fields, and the resulting key list is duplicate-free. -/
theorem C6_dedup_by_stripped_id (n1 n2 : LNode) (ns : List LNode)
    (hk : nodeKey n1 = nodeKey n2) (hne : nodeKey n1 ≠ "")
    (hid : isFalsyStr n1.id = false) :
    dedupNodes [n1, n2] = [(nodeKey n1, mergeNode n1 n2)] ∧
    (mergeNode n1 n2).id = n1.id ∧
    (isFalsyStr n1.label = true → (mergeNode n1 n2).label =
      (match n2.label with | none => n1.label | some v => some v)) ∧
    (isFalsyStr n1.label = false → (mergeNode n1 n2).label = n1.label) ∧
    ((dedupNodes ns).map Prod.fst).Nodup := by
  refine ⟨?_, mergeNode_id_of_not_falsy hid, ?_, ?_, dedupNodes_keys_nodup ns⟩
  · have hne1 : ¬((nodeKey n1 == "") = true) := by simpa using hne
    have hne2 : ¬((nodeKey n2 == "") = true) := by
      rw [← hk]
      exact hne1
    have s1 : dedupInsert [] n1 = [(nodeKey n1, n1)] := by
      unfold dedupInsert
      dsimp only
      rw [if_neg hne1]
      rfl
    have s2 : dedupInsert [(nodeKey n1, n1)] n2 = [(nodeKey n1, mergeNode n1 n2)] := by
      unfold dedupInsert
      dsimp only
      rw [if_neg hne2]
      have hl : lookupK (nodeKey n2) [(nodeKey n1, n1)] = some n1 := by
        unfold lookupK
        rw [hk]
        simp
      rw [hl]
      unfold updateK
      rw [if_pos (by rw [hk]; simp : (nodeKey n1 == nodeKey n2) = true)]
    show dedupInsert (dedupInsert [] n1) n2 = _
    rw [s1, s2]
  · intro hfal
    unfold mergeNode mergeField
    cases hl2 : n2.label
    · simp
    · cases hl1 : n1.label with
      | none => simp
      | some s =>
        have hs : s = "" := by
          rw [hl1] at hfal
          simpa [isFalsyStr] using hfal
        subst hs
        simp
  · intro hfal
    rcases (isFalsyStr_eq_false_iff _).1 hfal with ⟨s, hs, hsne⟩
    unfold mergeNode mergeField
    cases n2.label
    · simp
    · simp [hs, hsne]

/-- Counterexample to C6 as stated: two nodes with the same id but different
canonical types (`crf page` vs `protocol section`) are merged into a single
node, so the grouping key is not `(normalized type, normalized id)`. -/
theorem C6_counterexample :
    (validateAndFixGraph c6Graph).lineage.nodes.length = 1 ∧
    (canonNode c6NodeA).ntype ≠ (canonNode c6NodeB).ntype := by
  exact ⟨by decide, by decide⟩

/-- Witness for C6 at two concrete same-id nodes. -/
theorem C6_witness :
    dedupNodes [c6NodeA, c6NodeB] = [(nodeKey c6NodeA, mergeNode c6NodeA c6NodeB)] :=
  (C6_dedup_by_stripped_id c6NodeA c6NodeB [] (by decide) (by decide) (by decide)).1

/-! ## Claim C1 -/

/-- A stripped optional string is fixed by `pyStrip`. -/
theorem strippedOpt_pyStrip {o : Option String} (h : strippedOpt o = true) :
    pyStrip (orEmpty o) = orEmpty o := by
  cases o with
  | none => rfl
  | some s => simpa [strippedOpt, orEmpty] using h

/-- A non-empty `orEmpty` comes from a `some`. -/
theorem eq_some_of_orEmpty_ne {o : Option String} (h : orEmpty o ≠ "") :
    o = some (orEmpty o) := by
  cases o with
  | none => exact absurd rfl h
  | some s => rfl

/-- Key renaming preserves strippedness of the `from`/`to` endpoints. -/
theorem normEdgeKeys_stripped {e : LEdge} (h : strippedEdge e = true) :
    strippedOpt (normEdgeKeys e).efrom = true ∧ strippedOpt (normEdgeKeys e).eto = true := by
  obtain ⟨⟨⟨ha, hb⟩, hc⟩, hd⟩ :
      ((strippedOpt e.efrom = true ∧ strippedOpt e.eto = true) ∧
        strippedOpt e.esource = true) ∧ strippedOpt e.etarget = true := by
    simpa [strippedEdge] using h
  unfold normEdgeKeys
  dsimp only
  split
  · split
    · exact ⟨hc, hd⟩
    · exact ⟨hc, hb⟩
  · split
    · exact ⟨ha, hd⟩
    · exact ⟨ha, hb⟩

/-- What holds of a kept edge: endpoints are those of the key-renamed edge,
both strip to non-empty keys, and both keys are known. -/
theorem keptEdge_some_spec {keys : List String} {e0 e : LEdge}
    (h : keptEdge keys e0 = some e) :
    e.efrom = (normEdgeKeys e0).efrom ∧ e.eto = (normEdgeKeys e0).eto ∧
    pyStrip (orEmpty (normEdgeKeys e0).efrom) ≠ "" ∧
    pyStrip (orEmpty (normEdgeKeys e0).eto) ≠ "" ∧
    keys.contains (pyStrip (orEmpty (normEdgeKeys e0).efrom)) = true ∧
    keys.contains (pyStrip (orEmpty (normEdgeKeys e0).eto)) = true := by
  unfold keptEdge at h
  dsimp only at h
  split at h
  · exact absurd h (by simp)
  · next hcond1 =>
    split at h
    · exact absurd h (by simp)
    · next hcond2 =>
      have hc1 : pyStrip (orEmpty (normEdgeKeys e0).efrom) ≠ "" ∧
          pyStrip (orEmpty (normEdgeKeys e0).eto) ≠ "" := by
        constructor <;> (intro hx; apply hcond1; simp [hx])
      have hmm : (pyStrip (orEmpty (normEdgeKeys e0).efrom)) ∈ keys ∧
          (pyStrip (orEmpty (normEdgeKeys e0).eto)) ∈ keys := by
        simpa using hcond2
      have hc2 : keys.contains (pyStrip (orEmpty (normEdgeKeys e0).efrom)) = true ∧
          keys.contains (pyStrip (orEmpty (normEdgeKeys e0).eto)) = true :=
        ⟨by simpa using hmm.1, by simpa using hmm.2⟩
      split at h
      · cases h
        exact ⟨rfl, rfl, hc1.1, hc1.2, hc2.1, hc2.2⟩
      · cases h
        exact ⟨rfl, rfl, hc1.1, hc1.2, hc2.1, hc2.2⟩

/-- If a key is known to `node_map` and its id occurs in `used_ids`, then a
node with exactly that id survives pruning into the output. -/
theorem validate_node_present (g : LGraph)
    (hsn : g.lineage.nodes.all strippedNode = true) (s : String)
    (hk : s ∈ (dedupNodes g.lineage.nodes).map (fun p => p.1))
    (hus : s ∈ usedIds (g.lineage.edges.filterMap
      (keptEdge ((dedupNodes g.lineage.nodes).map (fun p => p.1))))) :
    ∃ n ∈ (validateAndFixGraph g).lineage.nodes, n.id = some s := by
  simp only [validateAndFixGraph]
  rcases List.mem_map.1 hk with ⟨p, hp, hpk⟩
  have hinv := dedupNodes_entry_inv g.lineage.nodes hsn p hp
  refine ⟨canonNode (fixNode (pyLower (orEmpty g.gdataset)) p.1 p.2), ?_, ?_⟩
  · apply List.mem_map_of_mem
    apply List.mem_filter.2
    refine ⟨List.mem_map_of_mem _ hp, ?_⟩
    have hidm : (fixNode (pyLower (orEmpty g.gdataset)) p.1 p.2).id = some s := by
      rw [fixNode_id, hinv.2.1, hpk]
    rw [hidm]
    simp only [idInUsed]
    have hcont : (usedIds (g.lineage.edges.filterMap
        (keptEdge ((dedupNodes g.lineage.nodes).map (fun p => p.1))))).contains s = true := by
      simpa using hus
    rw [hcont]
    simp
  · rw [canonNode_id, fixNode_id, hinv.2.1, hpk]

/-- An edge is dropped by the edge-normalization loop exactly when it
contributes a gap. -/
theorem keptEdge_none_iff_gap (keys : List String) (e : LEdge) :
    keptEdge keys e = none ↔ (edgeGap keys e).isSome = true := by
  unfold keptEdge edgeGap
  dsimp only
  split
  · simp
  · split
    · simp
    · split <;> simp

/-- C1 (amended): on a graph whose node ids and edge endpoints are already
whitespace-stripped strings, after normalization every kept edge has `from`
and `to` equal to ids of present output nodes; the gap list is the input list
extended by exactly the per-edge gap of each dropped edge, and an edge is
dropped exactly when it contributes such a gap. -/
theorem C1_edge_referential_integrity (g : LGraph) (hs : strippedGraph g = true) :
    (∀ e ∈ (validateAndFixGraph g).lineage.edges,
        (∃ n ∈ (validateAndFixGraph g).lineage.nodes, n.id = e.efrom) ∧
        (∃ n ∈ (validateAndFixGraph g).lineage.nodes, n.id = e.eto)) ∧
    (validateAndFixGraph g).lineage.gaps =
      g.lineage.gaps ++ g.lineage.edges.filterMap (edgeGap (nodeKeysOf g)) ∧
    (∀ e, keptEdge (nodeKeysOf g) e = none ↔ (edgeGap (nodeKeysOf g) e).isSome = true) := by
  have hsn : g.lineage.nodes.all strippedNode = true := by
    simp [strippedGraph] at hs
    rw [List.all_eq_true]
    intro x hx
    simpa using hs.1 x hx
  have hse : ∀ e ∈ g.lineage.edges, strippedEdge e = true := by
    simp [strippedGraph] at hs
    intro x hx
    exact hs.2 x hx
  refine ⟨?_, rfl, ?_⟩
  · intro e he
    have he' : e ∈ g.lineage.edges.filterMap
        (keptEdge ((dedupNodes g.lineage.nodes).map (fun p => p.1))) := he
    rcases List.mem_filterMap.1 he' with ⟨e0, he0, hkeep⟩
    obtain ⟨hef0, het0, hfne, htne, hfc, htc⟩ := keptEdge_some_spec hkeep
    have hstr := normEdgeKeys_stripped (hse e0 he0)
    have hffix := strippedOpt_pyStrip hstr.1
    have htfix := strippedOpt_pyStrip hstr.2
    have hfsome : (normEdgeKeys e0).efrom =
        some (pyStrip (orEmpty (normEdgeKeys e0).efrom)) := by
      rw [hffix]
      exact eq_some_of_orEmpty_ne (by rw [← hffix]; exact hfne)
    have htsome : (normEdgeKeys e0).eto =
        some (pyStrip (orEmpty (normEdgeKeys e0).eto)) := by
      rw [htfix]
      exact eq_some_of_orEmpty_ne (by rw [← htfix]; exact htne)
    have hef : e.efrom = some (pyStrip (orEmpty (normEdgeKeys e0).efrom)) :=
      hef0.trans hfsome
    have het : e.eto = some (pyStrip (orEmpty (normEdgeKeys e0).eto)) :=
      het0.trans htsome
    have huse := mem_usedIds he'
    constructor
    · rw [hef]
      refine validate_node_present g hsn (pyStrip (orEmpty (normEdgeKeys e0).efrom))
        (by simpa using hfc) ?_
      have h1 := huse.1
      rw [hef] at h1
      simpa [pyStr] using h1
    · rw [het]
      refine validate_node_present g hsn (pyStrip (orEmpty (normEdgeKeys e0).eto))
        (by simpa using htc) ?_
      have h1 := huse.2
      rw [het] at h1
      simpa [pyStr] using h1
  · exact keptEdge_none_iff_gap (nodeKeysOf g)

/-- Counterexample to C1 as stated: a whitespace-padded placeholder node is
pruned although its stripped id is referenced by a kept edge, leaving an
output edge whose endpoints match no output node id and no compensating
gap. -/
theorem C1_counterexample :
    (validateAndFixGraph cxWhitespaceGraph).lineage.edges = [cxEdgeAA] ∧
    (validateAndFixGraph cxWhitespaceGraph).lineage.nodes = [] ∧
    (validateAndFixGraph cxWhitespaceGraph).lineage.gaps = [] := by
  exact ⟨by decide, by decide, by decide⟩

/-- Witness for C1 at a concrete stripped graph with a kept self-edge: the
edge's `from` id names an output node. -/
theorem C1_witness :
    ∃ n ∈ (validateAndFixGraph
        { gvariable := some "AGE", gdataset := some "ADSL", gsummary := some "",
          lineage :=
          { nodes := [{ id := some "A", ntype := some "crf page", label := none,
                        file := none, description := none,
                        explanation := some "[direct] Page 3." }],
            edges := [{ efrom := some "A", eto := some "A", esource := none,
                        etarget := none, label := none,
                        explanation := some "[direct] Self." }],
            gaps := [] } }).lineage.nodes, n.id = some "A" :=
  ((C1_edge_referential_integrity
      { gvariable := some "AGE", gdataset := some "ADSL", gsummary := some "",
        lineage :=
        { nodes := [{ id := some "A", ntype := some "crf page", label := none,
                      file := none, description := none,
                      explanation := some "[direct] Page 3." }],
          edges := [{ efrom := some "A", eto := some "A", esource := none,
                      etarget := none, label := none,
                      explanation := some "[direct] Self." }],
          gaps := [] } } (by decide)).1
    { efrom := some "A", eto := some "A", esource := none, etarget := none,
      label := none, explanation := some "[direct] Self." } (by decide)).1

/-! ## Claim C3: character and substring lemmas -/

/-- `Char.ofNat` below the surrogate range keeps its value. -/
theorem toNat_ofNat_lt (n : Nat) (h : n < 0xd800) : (Char.ofNat n).toNat = n := by
  unfold Char.ofNat
  rw [dif_pos (Or.inl h)]
  simp [Char.ofNatAux, Char.toNat, UInt32.toNat]

/-- Upper-casing maps only letters; a character upper-casing to `.` is `.`. -/
theorem upCh_eq_dot {c : Char} (h : upCh c = '.') : c = '.' := by
  unfold upCh at h
  split at h
  · next hc =>
    exfalso
    have h97 : 97 ≤ c.toNat := by
      simpa [Char.le_def, Char.toNat, UInt32.le_def, UInt32.toNat] using hc.1
    have h122 : c.toNat ≤ 122 := by
      simpa [Char.le_def, Char.toNat, UInt32.le_def, UInt32.toNat] using hc.2
    have hval : (Char.ofNat (c.toNat - 32)).toNat = c.toNat - 32 :=
      toNat_ofNat_lt _ (by omega)
    have h46 : (Char.ofNat (c.toNat - 32)).toNat = 46 := by rw [h]; rfl
    omega
  · exact h

/-- A dot inside the upper-cased id comes from a dot in the id. -/
theorem dot_mem_of_upper {nid : String} (h : '.' ∈ (pyUpper nid).data) : '.' ∈ nid.data := by
  unfold pyUpper at h
  rcases List.mem_map.1 h with ⟨c, hc, hcu⟩
  rwa [upCh_eq_dot hcu] at hc

/-- Every character of a verified prefix occurs in the text. -/
theorem prefAt_mem {p l : List Char} (h : prefAt p l = true) : ∀ c ∈ p, c ∈ l := by
  induction p generalizing l with
  | nil => intro c hc; simp at hc
  | cons a as ih =>
    cases l with
    | nil => simp [prefAt] at h
    | cons b bs =>
      unfold prefAt at h
      rw [Bool.and_eq_true] at h
      obtain ⟨hab, hrest⟩ := h
      have hab' : a = b := by simpa using hab
      intro c hc
      rcases List.mem_cons.1 hc with rfl | hc'
      · rw [hab']; exact List.mem_cons_self _ _
      · exact List.mem_cons_of_mem _ (ih hrest c hc')

/-- A single-character pattern occurs iff the character is a member. -/
theorem containsSub_singleton_of_mem {c : Char} {l : List Char} (h : c ∈ l) :
    containsSub [c] l = true := by
  induction l with
  | nil => simp at h
  | cons b bs ih =>
    show (prefAt [c] (b :: bs) || containsSub [c] bs) = true
    rcases List.mem_cons.1 h with rfl | h'
    · have hp : prefAt [c] (c :: bs) = true := by simp [prefAt]
      rw [hp]
      simp
    · rw [ih h']
      simp

/-- An id matching the ADaM variable regex contains a dot. -/
theorem reAdamVar_dot {s : String} (h : reAdamVar s = true) : '.' ∈ s.data := by
  unfold reAdamVar at h
  split at h
  · next rest heq =>
    rw [Bool.and_eq_true] at h
    obtain ⟨-, hmatch⟩ := h
    split at hmatch
    · next tl hdrop =>
      have hdotdrop : '.' ∈ rest.dropWhile isUpDigit := by
        rw [hdrop]
        exact List.mem_cons_self _ _
      have hdotrest : '.' ∈ rest := (List.dropWhile_sublist _).mem hdotdrop
      rw [heq]
      exact List.mem_cons_of_mem _ (List.mem_cons_of_mem _ hdotrest)
    · simp at hmatch
  · simp at h

/-- A dot in the id, as the `"." in nid` test of the normalizer. -/
theorem containsSubStr_dot_of_upper {nid : String}
    (h : '.' ∈ (pyUpper nid).data) : containsSubStr "." nid = true := by
  unfold containsSubStr
  exact containsSub_singleton_of_mem (dot_mem_of_upper h)

/-! ## Claim C3: `canonTypeOf` on its own canonical outputs -/

/-- `canonTypeOf` on the literal type `tlf display`. -/
theorem canonTypeOf_lit_tlf_display (nid up lbl : String) :
    canonTypeOf "tlf display" nid up lbl = some "tlf display" := by
  unfold canonTypeOf
  rw [if_neg (by decide), if_pos (by decide)]

/-- `canonTypeOf` on the literal type `tlf cell`. -/
theorem canonTypeOf_lit_tlf_cell (nid up lbl : String) :
    canonTypeOf "tlf cell" nid up lbl = some "tlf cell" := by
  unfold canonTypeOf
  rw [if_neg (by decide), if_neg (by decide), if_pos (by decide)]

/-- `canonTypeOf` on the literal type `protocol section`. -/
theorem canonTypeOf_lit_protocol_section (nid up lbl : String) :
    canonTypeOf "protocol section" nid up lbl = some "protocol section" := by
  unfold canonTypeOf
  rw [if_neg (by decide), if_neg (by decide), if_neg (by decide), if_pos (by decide)]

/-- `canonTypeOf` on the literal type `crf page`. -/
theorem canonTypeOf_lit_crf_page (nid up lbl : String) :
    canonTypeOf "crf page" nid up lbl = some "crf page" := by
  unfold canonTypeOf
  rw [if_neg (by decide), if_neg (by decide), if_neg (by decide), if_neg (by decide),
      if_pos (by decide)]

/-- `canonTypeOf` on the literal type `adam variable`. -/
theorem canonTypeOf_lit_adam_variable (nid up lbl : String) :
    canonTypeOf "adam variable" nid up lbl =
      (if containsSubStr "." nid = true then some "adam variable" else some "adam dataset") := by
  unfold canonTypeOf
  rw [if_neg (by decide), if_neg (by decide), if_neg (by decide), if_neg (by decide),
      if_neg (by decide), if_pos (by decide)]

/-- `canonTypeOf` on the literal type `sdtm variable`. -/
theorem canonTypeOf_lit_sdtm_variable (nid up lbl : String) :
    canonTypeOf "sdtm variable" nid up lbl =
      (if (containsSubStr "." nid || reSdtmVar up) = true then some "sdtm variable"
       else some "sdtm dataset") := by
  unfold canonTypeOf
  rw [if_neg (by decide), if_neg (by decide), if_neg (by decide), if_neg (by decide),
      if_neg (by decide), if_neg (by decide), if_pos (by decide)]

/-- `canonTypeOf` on the literal type `adam dataset` is a no-op. -/
theorem canonTypeOf_lit_adam_dataset (nid up lbl : String) :
    canonTypeOf "adam dataset" nid up lbl = none := by
  unfold canonTypeOf
  rw [if_neg (by decide), if_neg (by decide), if_neg (by decide), if_neg (by decide),
      if_neg (by decide), if_neg (by decide), if_neg (by decide), if_neg (by decide)]

/-- `canonTypeOf` on the literal type `sdtm dataset` is a no-op. -/
theorem canonTypeOf_lit_sdtm_dataset (nid up lbl : String) :
    canonTypeOf "sdtm dataset" nid up lbl = none := by
  unfold canonTypeOf
  rw [if_neg (by decide), if_neg (by decide), if_neg (by decide), if_neg (by decide),
      if_neg (by decide), if_neg (by decide), if_neg (by decide), if_neg (by decide)]

/-- `canonTypeOf` on the literal type `protocol endpoint` is a no-op. -/
theorem canonTypeOf_lit_protocol_endpoint (nid up lbl : String) :
    canonTypeOf "protocol endpoint" nid up lbl = none := by
  unfold canonTypeOf
  rw [if_neg (by decide), if_neg (by decide), if_neg (by decide), if_neg (by decide),
      if_neg (by decide), if_neg (by decide), if_neg (by decide), if_neg (by decide)]

/-- Inversion of `canonTypeOf`: a produced type is one of the canonical
values, with the id facts that produced it. -/
theorem canonTypeOf_out (t nid lbl ty : String)
    (h : canonTypeOf t nid (pyUpper nid) lbl = some ty) :
    (ty = "adam variable" ∧ containsSubStr "." nid = true) ∨
    (ty = "sdtm variable" ∧ (containsSubStr "." nid || reSdtmVar (pyUpper nid)) = true) ∨
    ty ∈ (["tlf display", "tlf cell", "protocol section", "crf page",
           "adam dataset", "sdtm dataset", "protocol endpoint"] : List String) := by
  unfold canonTypeOf inferTypeFromId at h
  cases h1 : synDatasetVariable t <;>
    simp only [h1, Bool.false_eq_true, if_false, if_true, Option.some.injEq] at h
  case true =>
    cases h1a : reAdamVar (pyUpper nid) <;>
      simp only [h1a, Bool.false_eq_true, if_false, if_true, Option.some.injEq] at h
    case true =>
      subst h
      exact Or.inl ⟨rfl, containsSubStr_dot_of_upper (reAdamVar_dot h1a)⟩
    case false =>
      cases h1b : (reSdtmVar (pyUpper nid) || prefAt "SDTM.".data (pyUpper nid).data) <;>
        simp only [h1b, Bool.false_eq_true, if_false, if_true, Option.some.injEq] at h
      case false => exact absurd h (by simp)
      case true =>
        subst h
        refine Or.inr (Or.inl ⟨rfl, ?_⟩)
        rw [Bool.or_eq_true] at h1b ⊢
        rcases h1b with hre | hpre
        · exact Or.inr hre
        · exact Or.inl (containsSubStr_dot_of_upper (prefAt_mem hpre '.' (by decide)))
  case false =>
    cases h2 : synDisplay t <;>
      simp only [h2, Bool.false_eq_true, if_false, if_true, Option.some.injEq] at h
    case true =>
      subst h
      exact Or.inr (Or.inr (by simp))
    case false =>
      cases h3 : synCell t <;>
        simp only [h3, Bool.false_eq_true, if_false, if_true, Option.some.injEq] at h
      case true =>
        subst h
        exact Or.inr (Or.inr (by simp))
      case false =>
        cases h4 : synProtocol t <;>
          simp only [h4, Bool.false_eq_true, if_false, if_true, Option.some.injEq] at h
        case true =>
          subst h
          exact Or.inr (Or.inr (by simp))
        case false =>
          cases h5 : synCrf t <;>
            simp only [h5, Bool.false_eq_true, if_false, if_true, Option.some.injEq] at h
          case true =>
            subst h
            exact Or.inr (Or.inr (by simp))
          case false =>
            cases h6 : synAdam t <;>
              simp only [h6, Bool.false_eq_true, if_false, if_true, Option.some.injEq] at h
            case true =>
              cases h6a : containsSubStr "." nid <;>
                simp only [h6a, Bool.false_eq_true, if_false, if_true,
                  Option.some.injEq] at h
              case true =>
                subst h
                exact Or.inl ⟨rfl, rfl⟩
              case false =>
                subst h
                exact Or.inr (Or.inr (by simp))
            case false =>
              cases h7 : synSdtm t <;>
                simp only [h7, Bool.false_eq_true, if_false, if_true,
                  Option.some.injEq] at h
              case true =>
                cases h7a : (containsSubStr "." nid || reSdtmVar (pyUpper nid)) <;>
                  simp only [h7a, Bool.false_eq_true, if_false, if_true,
                    Option.some.injEq] at h
                case true =>
                  subst h
                  exact Or.inr (Or.inl ⟨rfl, rfl⟩)
                case false =>
                  subst h
                  exact Or.inr (Or.inr (by simp))
              case false =>
                cases h8 : synInfer t <;>
                  simp only [h8, Bool.false_eq_true, if_false, if_true,
                    Option.some.injEq] at h
                case false => exact absurd h (by simp)
                case true =>
                  cases h8a : reAdamVar (pyUpper nid) <;>
                    simp only [h8a, Bool.false_eq_true, if_false, if_true,
                      Option.some.injEq] at h
                  case true =>
                    subst h
                    exact Or.inl ⟨rfl, containsSubStr_dot_of_upper (reAdamVar_dot h8a)⟩
                  case false =>
                    cases h8b : (reSdtmVar (pyUpper nid) ||
                        prefAt "SDTM.".data (pyUpper nid).data) <;>
                      simp only [h8b, Bool.false_eq_true, if_false, if_true,
                        Option.some.injEq] at h
                    case true =>
                      subst h
                      refine Or.inr (Or.inl ⟨rfl, ?_⟩)
                      rw [Bool.or_eq_true] at h8b ⊢
                      rcases h8b with hre | hpre
                      · exact Or.inr hre
                      · exact Or.inl
                          (containsSubStr_dot_of_upper (prefAt_mem hpre '.' (by decide)))
                    case false =>
                      cases h8c : (prefAt "AD".data (pyUpper nid).data &&
                          !(containsSubStr "." (pyUpper nid))) <;>
                        simp only [h8c, Bool.false_eq_true, if_false, if_true,
                          Option.some.injEq] at h
                      case true =>
                        subst h
                        exact Or.inr (Or.inr (by simp))
                      case false =>
                        cases h8d : containsSubStr "crf page" (pyLower (pyUpper nid)) <;>
                          simp only [h8d, Bool.false_eq_true, if_false, if_true,
                            Option.some.injEq] at h
                        case true =>
                          subst h
                          exact Or.inr (Or.inr (by simp))
                        case false =>
                          cases h8e : containsSubStr "|" nid <;>
                            simp only [h8e, Bool.false_eq_true, if_false, if_true,
                              Option.some.injEq] at h
                          case true =>
                            subst h
                            exact Or.inr (Or.inr (by simp))
                          case false =>
                            cases h8f : (containsSubStr "table" (pyLower nid) ||
                                containsSubStr "tlf" lbl) <;>
                              simp only [h8f, Bool.false_eq_true, if_false, if_true,
                                Option.some.injEq] at h
                            case true =>
                              subst h
                              exact Or.inr (Or.inr (by simp))
                            case false =>
                              cases h8g : containsSubStr "endpoint" lbl <;>
                                simp only [h8g, Bool.false_eq_true, if_false, if_true,
                                  Option.some.injEq] at h
                              case true =>
                                subst h
                                exact Or.inr (Or.inr (by simp))
                              case false => exact absurd h (by simp)

/-- A canonical output type never lowers/strips to the re-derivation
triggers `""`/`target`/`source`. -/
theorem canonTypeOf_triggerFree (t nid lbl ty : String)
    (h : canonTypeOf t nid (pyUpper nid) lbl = some ty) :
    (pyLower (pyStrip ty) == "" || pyLower (pyStrip ty) == "target" ||
     pyLower (pyStrip ty) == "source") = false := by
  rcases canonTypeOf_out t nid lbl ty h with ⟨rfl, -⟩ | ⟨rfl, -⟩ | hm
  · decide
  · decide
  · simp only [List.mem_cons, List.not_mem_nil, or_false] at hm
    rcases hm with rfl | rfl | rfl | rfl | rfl | rfl | rfl <;> decide

/-- A canonical output type is a fixed point of the type decision: fed back
in (lower-cased and stripped), it is either re-produced or left unchanged. -/
theorem canonTypeOf_stable (t nid lbl ty : String)
    (h : canonTypeOf t nid (pyUpper nid) lbl = some ty) :
    canonTypeOf (pyLower (pyStrip ty)) nid (pyUpper nid) lbl = some ty ∨
    canonTypeOf (pyLower (pyStrip ty)) nid (pyUpper nid) lbl = none := by
  rcases canonTypeOf_out t nid lbl ty h with ⟨rfl, hd⟩ | ⟨rfl, hd⟩ | hm
  · left
    have hl : pyLower (pyStrip "adam variable") = "adam variable" := by decide
    rw [hl, canonTypeOf_lit_adam_variable, if_pos hd]
  · left
    have hl : pyLower (pyStrip "sdtm variable") = "sdtm variable" := by decide
    rw [hl, canonTypeOf_lit_sdtm_variable, if_pos hd]
  · simp only [List.mem_cons, List.not_mem_nil, or_false] at hm
    rcases hm with rfl | rfl | rfl | rfl | rfl | rfl | rfl
    · left
      have hl : pyLower (pyStrip "tlf display") = "tlf display" := by decide
      rw [hl, canonTypeOf_lit_tlf_display]
    · left
      have hl : pyLower (pyStrip "tlf cell") = "tlf cell" := by decide
      rw [hl, canonTypeOf_lit_tlf_cell]
    · left
      have hl : pyLower (pyStrip "protocol section") = "protocol section" := by decide
      rw [hl, canonTypeOf_lit_protocol_section]
    · left
      have hl : pyLower (pyStrip "crf page") = "crf page" := by decide
      rw [hl, canonTypeOf_lit_crf_page]
    · right
      have hl : pyLower (pyStrip "adam dataset") = "adam dataset" := by decide
      rw [hl, canonTypeOf_lit_adam_dataset]
    · right
      have hl : pyLower (pyStrip "sdtm dataset") = "sdtm dataset" := by decide
      rw [hl, canonTypeOf_lit_sdtm_dataset]
    · right
      have hl : pyLower (pyStrip "protocol endpoint") = "protocol endpoint" := by decide
      rw [hl, canonTypeOf_lit_protocol_endpoint]

/-- Type canonicalization of a node is idempotent. -/
theorem canonNode_idem (n : LNode) : canonNode (canonNode n) = canonNode n := by
  cases hc : canonTypeOf (pyLower (pyStrip (orEmpty n.ntype))) (pyStrip (orEmpty n.id))
      (pyUpper (pyStrip (orEmpty n.id))) (pyLower (orEmpty n.label)) with
  | none =>
    have hN : canonNode n = n := by
      unfold canonNode
      dsimp only
      rw [hc]
    rw [hN]
    exact hN
  | some ty =>
    have hN : canonNode n = { n with ntype := some ty } := by
      unfold canonNode
      dsimp only
      rw [hc]
    rw [hN]
    have hstab := canonTypeOf_stable _ _ _ _ hc
    unfold canonNode
    dsimp only
    simp only [orEmpty]
    rcases hstab with h2 | h2 <;> simp only [orEmpty] at h2 <;> rw [h2]

/-- The suggested type for an id never lowers/strips to one of the
re-derivation triggers. -/
theorem suggestTypeForId_triggerFree (nid dk : String) :
    (pyLower (pyStrip (suggestTypeForId nid dk)) == "" ||
     pyLower (pyStrip (suggestTypeForId nid dk)) == "target" ||
     pyLower (pyStrip (suggestTypeForId nid dk)) == "source") = false := by
  unfold suggestTypeForId
  dsimp only
  split
  · split <;> decide
  · split
    · decide
    · split
      · decide
      · split
        · decide
        · split
          · decide
          · split
            · next hp =>
              rw [Bool.or_eq_true, Bool.or_eq_true] at hp
              rcases hp with (hp1 | hp2) | hp3
              · have hx : pyStrip (pyUpper nid) = "PROTOCOL" := by simpa using hp1
                rw [hx]
                decide
              · have hx : pyStrip (pyUpper nid) = "CRF" := by simpa using hp2
                rw [hx]
                decide
              · have hx : pyStrip (pyUpper nid) = "USDM" := by simpa using hp3
                rw [hx]
                decide
            · decide

/-- The type of a fixed node never lowers/strips to a re-derivation
trigger. -/
theorem fixNode_triggerFree (dk k : String) (n : LNode) :
    (pyLower (pyStrip (orEmpty (fixNode dk k n).ntype)) == "" ||
     pyLower (pyStrip (orEmpty (fixNode dk k n).ntype)) == "target" ||
     pyLower (pyStrip (orEmpty (fixNode dk k n).ntype)) == "source") = false := by
  unfold fixNode
  dsimp only
  split
  · split
    · dsimp only [orEmpty]
      exact suggestTypeForId_triggerFree k dk
    · dsimp only [orEmpty]
      exact suggestTypeForId_triggerFree k dk
  · next htr =>
    split
    · dsimp only
      simpa using htr
    · simpa using htr

/-- Type canonicalization preserves trigger-freeness of the type. -/
theorem canonNode_triggerFree (n : LNode)
    (h : (pyLower (pyStrip (orEmpty n.ntype)) == "" ||
          pyLower (pyStrip (orEmpty n.ntype)) == "target" ||
          pyLower (pyStrip (orEmpty n.ntype)) == "source") = false) :
    (pyLower (pyStrip (orEmpty (canonNode n).ntype)) == "" ||
     pyLower (pyStrip (orEmpty (canonNode n).ntype)) == "target" ||
     pyLower (pyStrip (orEmpty (canonNode n).ntype)) == "source") = false := by
  unfold canonNode
  dsimp only
  cases hc : canonTypeOf (pyLower (pyStrip (orEmpty n.ntype))) (pyStrip (orEmpty n.id))
      (pyUpper (pyStrip (orEmpty n.id))) (pyLower (orEmpty n.label)) with
  | none => exact h
  | some ty => exact canonTypeOf_triggerFree _ _ _ _ hc

/-- `fixNode` is the identity on a node whose type is trigger-free and whose
explanation is non-falsy. -/
theorem fixNode_noop (dk k : String) (n : LNode)
    (htr : (pyLower (pyStrip (orEmpty n.ntype)) == "" ||
            pyLower (pyStrip (orEmpty n.ntype)) == "target" ||
            pyLower (pyStrip (orEmpty n.ntype)) == "source") = false)
    (hex : isFalsyStr n.explanation = false) :
    fixNode dk k n = n := by
  unfold fixNode
  dsimp only
  rw [htr]
  simp only [Bool.false_eq_true, if_false]
  rw [hex]
  simp only [Bool.false_eq_true, if_false]

/-- Pruning looks only at the explanation, which canonicalization keeps. -/
theorem isExplicitPlaceholder_canonNode (n : LNode) :
    isExplicitPlaceholder (canonNode n) = isExplicitPlaceholder n := by
  unfold isExplicitPlaceholder
  rw [canonNode_explanation]

/-- Mapping a pointwise-identity function is the identity. -/
theorem map_id_of {α : Type} (f : α → α) (l : List α) (h : ∀ a ∈ l, f a = a) :
    l.map f = l := by
  induction l with
  | nil => rfl
  | cons a t ih =>
    rw [List.map_cons, h a (List.mem_cons_self _ _),
        ih (fun x hx => h x (List.mem_cons_of_mem _ hx))]

/-- Filtering with a function that keeps every element unchanged is the
identity. -/
theorem filterMap_id_of {α : Type} (f : α → Option α) (l : List α)
    (h : ∀ a ∈ l, f a = some a) : l.filterMap f = l := by
  induction l with
  | nil => rfl
  | cons a t ih =>
    rw [List.filterMap_cons, h a (List.mem_cons_self _ _),
        ih (fun x hx => h x (List.mem_cons_of_mem _ hx))]

/-- Folding fresh, non-empty-keyed nodes into `node_map` just appends
them. -/
theorem foldl_dedupInsert_fresh (l : List LNode) (acc : List (String × LNode))
    (hne : ∀ n ∈ l, nodeKey n ≠ "")
    (hnd : (acc.map Prod.fst ++ l.map nodeKey).Nodup) :
    l.foldl dedupInsert acc = acc ++ l.map (fun n => (nodeKey n, n)) := by
  induction l generalizing acc with
  | nil => simp
  | cons a t ih =>
    have hka : nodeKey a ≠ "" := hne a (List.mem_cons_self _ _)
    obtain ⟨-, -, hdisj⟩ := List.nodup_append.1 hnd
    have hlk : lookupK (nodeKey a) acc = none := by
      rw [lookupK_eq_none_iff]
      intro p hp heq
      exact hdisj (List.mem_map_of_mem Prod.fst hp)
        (heq ▸ List.mem_cons_self _ _)
    have h1 : dedupInsert acc a = acc ++ [(nodeKey a, a)] := by
      unfold dedupInsert
      dsimp only
      rw [if_neg (by simpa using hka), hlk]
    have htne : ∀ n ∈ t, nodeKey n ≠ "" := fun n hn => hne n (List.mem_cons_of_mem _ hn)
    have hnd2 : ((acc ++ [(nodeKey a, a)]).map Prod.fst ++ t.map nodeKey).Nodup := by
      simpa [List.append_assoc] using hnd
    rw [List.foldl_cons, h1, ih _ htne hnd2]
    simp

/-- On a list of nodes with non-empty, duplicate-free keys, `node_map` is
just the keyed list in order, with no merging. -/
theorem dedupNodes_eq_of_unique (l : List LNode)
    (hne : ∀ n ∈ l, nodeKey n ≠ "") (hnd : (l.map nodeKey).Nodup) :
    dedupNodes l = l.map (fun n => (nodeKey n, n)) := by
  have h := foldl_dedupInsert_fresh l [] hne (by simpa using hnd)
  simpa [dedupNodes] using h

/-- An edge whose endpoints are present stripped ids with known keys and
whose explanation is non-falsy is kept verbatim. -/
theorem keptEdge_fixed {keys : List String} {e : LEdge} {f t : String}
    (hf : e.efrom = some f) (ht : e.eto = some t)
    (hfs : pyStrip f = f) (hts : pyStrip t = t)
    (hfne : f ≠ "") (htne : t ≠ "")
    (hfk : keys.contains f = true) (htk : keys.contains t = true)
    (hex : isFalsyStr e.explanation = false) :
    keptEdge keys e = some e := by
  have hnorm : normEdgeKeys e = e := by
    unfold normEdgeKeys
    dsimp only
    have h1 : ¬(e.efrom = none ∧ e.esource ≠ none) := fun hc => by
      rw [hf] at hc
      exact absurd hc.1 (by simp)
    rw [if_neg h1]
    have h2 : ¬(e.eto = none ∧ e.etarget ≠ none) := fun hc => by
      rw [ht] at hc
      exact absurd hc.1 (by simp)
    rw [if_neg h2]
  unfold keptEdge
  dsimp only
  rw [hnorm, hf, ht]
  have hfrm : pyStrip (orEmpty (some f)) = f := hfs
  have htov : pyStrip (orEmpty (some t)) = t := hts
  rw [hfrm, htov]
  have hfm : f ∈ keys := by simpa using hfk
  have htm : t ∈ keys := by simpa using htk
  rw [if_neg (by simp [hfne, htne]), if_neg (by simp [hfm, htm]), hex]
  simp only [Bool.false_eq_true, if_false]

/-- `_validate_and_fix_graph` is the identity on a graph that is a fixed
point of each of its stages. -/
theorem validateAndFixGraph_self {g : LGraph}
    (hded : dedupNodes g.lineage.nodes = g.lineage.nodes.map (fun n => (nodeKey n, n)))
    (hfix : ∀ n ∈ g.lineage.nodes,
      fixNode (pyLower (orEmpty g.gdataset)) (nodeKey n) n = n)
    (hkept : ∀ e ∈ g.lineage.edges,
      keptEdge (g.lineage.nodes.map nodeKey) e = some e)
    (hprune : ∀ n ∈ g.lineage.nodes,
      (!(!(idInUsed (usedIds g.lineage.edges) n.id) && isExplicitPlaceholder n)) = true)
    (hcanon : ∀ n ∈ g.lineage.nodes, canonNode n = n) :
    validateAndFixGraph g = g := by
  have hkeys : (g.lineage.nodes.map (fun n => (nodeKey n, n))).map (fun p => p.1) =
      g.lineage.nodes.map nodeKey := by
    rw [List.map_map]
    rfl
  have hnf : (g.lineage.nodes.map (fun n => (nodeKey n, n))).map
      (fun p => fixNode (pyLower (orEmpty g.gdataset)) p.1 p.2) = g.lineage.nodes := by
    rw [List.map_map]
    exact map_id_of _ _ (fun n hn => hfix n hn)
  have hef : g.lineage.edges.filterMap (keptEdge (g.lineage.nodes.map nodeKey)) =
      g.lineage.edges :=
    filterMap_id_of _ _ hkept
  have hgap : g.lineage.edges.filterMap (edgeGap (g.lineage.nodes.map nodeKey)) = [] := by
    rw [List.filterMap_eq_nil_iff]
    intro e he
    rcases hg : edgeGap (g.lineage.nodes.map nodeKey) e with _ | gp
    · rfl
    · exfalso
      have hnone : keptEdge (g.lineage.nodes.map nodeKey) e = none :=
        (keptEdge_none_iff_gap _ e).2 (by rw [hg]; rfl)
      rw [hkept e he] at hnone
      exact absurd hnone (by simp)
  have hfil : g.lineage.nodes.filter
      (fun n => !(!(idInUsed (usedIds g.lineage.edges) n.id) && isExplicitPlaceholder n)) =
      g.lineage.nodes :=
    List.filter_eq_self.2 hprune
  simp only [validateAndFixGraph]
  rw [hded, hkeys, hnf, hef, hgap, hfil, map_id_of _ _ hcanon, List.append_nil]

/-- Every node of a normalized graph (over stripped input) stores its own
non-empty key as id, has a non-falsy explanation and a trigger-free type, is
fixed by canonicalization, and passes the pruning test against the output
edges. -/
theorem validate_out_node {g : LGraph} (hsn : g.lineage.nodes.all strippedNode = true) :
    ∀ n ∈ (validateAndFixGraph g).lineage.nodes,
      n.id = some (nodeKey n) ∧ nodeKey n ≠ "" ∧
      isFalsyStr n.explanation = false ∧
      (pyLower (pyStrip (orEmpty n.ntype)) == "" ||
       pyLower (pyStrip (orEmpty n.ntype)) == "target" ||
       pyLower (pyStrip (orEmpty n.ntype)) == "source") = false ∧
      canonNode n = n ∧
      (!(!(idInUsed (usedIds (validateAndFixGraph g).lineage.edges) n.id) &&
         isExplicitPlaceholder n)) = true := by
  intro n hn
  simp only [validateAndFixGraph] at hn
  rcases List.mem_map.1 hn with ⟨m, hm, rfl⟩
  have hmf := (List.mem_filter.1 hm).1
  have hmc := (List.mem_filter.1 hm).2
  rcases List.mem_map.1 hmf with ⟨p, hp, rfl⟩
  have hinv := dedupNodes_entry_inv g.lineage.nodes hsn p hp
  have hid : (canonNode (fixNode (pyLower (orEmpty g.gdataset)) p.1 p.2)).id = some p.1 := by
    rw [canonNode_id, fixNode_id, hinv.2.1]
  have hkey : nodeKey (canonNode (fixNode (pyLower (orEmpty g.gdataset)) p.1 p.2)) = p.1 := by
    unfold nodeKey
    rw [hid]
    exact hinv.2.2
  refine ⟨by rw [hkey]; exact hid, by rw [hkey]; exact hinv.1, ?_, ?_, canonNode_idem _, ?_⟩
  · rw [canonNode_explanation]
    exact fixNode_expl_not_falsy _ _ _
  · exact canonNode_triggerFree _ (fixNode_triggerFree _ _ _)
  · simp only [validateAndFixGraph]
    rw [canonNode_id, isExplicitPlaceholder_canonNode]
    exact hmc

/-- The key list of a normalized graph has no duplicates. -/
theorem validate_out_keys_nodup {g : LGraph}
    (hsn : g.lineage.nodes.all strippedNode = true) :
    (((validateAndFixGraph g).lineage.nodes).map nodeKey).Nodup := by
  simp only [validateAndFixGraph]
  rw [List.map_map]
  have hfun : (nodeKey ∘ canonNode) = nodeKey := by
    funext n
    show nodeKey (canonNode n) = nodeKey n
    unfold nodeKey
    rw [canonNode_id]
  rw [hfun]
  have heq : ((dedupNodes g.lineage.nodes).map
      (fun p => fixNode (pyLower (orEmpty g.gdataset)) p.1 p.2)).map nodeKey =
      (dedupNodes g.lineage.nodes).map Prod.fst := by
    rw [List.map_map]
    apply List.map_congr_left
    intro p hp
    have hinv := dedupNodes_entry_inv g.lineage.nodes hsn p hp
    show nodeKey (fixNode (pyLower (orEmpty g.gdataset)) p.1 p.2) = p.1
    unfold nodeKey
    rw [fixNode_id, hinv.2.1]
    exact hinv.2.2
  have hnd2 : (((dedupNodes g.lineage.nodes).map
      (fun p => fixNode (pyLower (orEmpty g.gdataset)) p.1 p.2)).map nodeKey).Nodup := by
    rw [heq]
    exact dedupNodes_keys_nodup _
  exact ((List.filter_sublist _).map nodeKey).nodup hnd2

/-- Every edge of a normalized graph (over a stripped input graph) carries
present, stripped, non-empty endpoints, a non-falsy explanation, and both
endpoint ids appear as ids of output nodes. -/
theorem validate_out_edge {g : LGraph} (hsn : g.lineage.nodes.all strippedNode = true)
    (hse : ∀ e ∈ g.lineage.edges, strippedEdge e = true) :
    ∀ e ∈ (validateAndFixGraph g).lineage.edges,
      ∃ f t : String, e.efrom = some f ∧ e.eto = some t ∧
        pyStrip f = f ∧ pyStrip t = t ∧ f ≠ "" ∧ t ≠ "" ∧
        isFalsyStr e.explanation = false ∧
        (∃ n ∈ (validateAndFixGraph g).lineage.nodes, n.id = some f) ∧
        (∃ n ∈ (validateAndFixGraph g).lineage.nodes, n.id = some t) := by
  intro e he
  have he' : e ∈ g.lineage.edges.filterMap
      (keptEdge ((dedupNodes g.lineage.nodes).map (fun p => p.1))) := he
  rcases List.mem_filterMap.1 he' with ⟨e0, he0, hkeep⟩
  obtain ⟨hef0, het0, hfne, htne, hfc, htc⟩ := keptEdge_some_spec hkeep
  have hstr := normEdgeKeys_stripped (hse e0 he0)
  have hffix := strippedOpt_pyStrip hstr.1
  have htfix := strippedOpt_pyStrip hstr.2
  have hfsome : (normEdgeKeys e0).efrom =
      some (pyStrip (orEmpty (normEdgeKeys e0).efrom)) := by
    rw [hffix]
    exact eq_some_of_orEmpty_ne (by rw [← hffix]; exact hfne)
  have htsome : (normEdgeKeys e0).eto =
      some (pyStrip (orEmpty (normEdgeKeys e0).eto)) := by
    rw [htfix]
    exact eq_some_of_orEmpty_ne (by rw [← htfix]; exact htne)
  have huse := mem_usedIds he'
  refine ⟨pyStrip (orEmpty (normEdgeKeys e0).efrom),
          pyStrip (orEmpty (normEdgeKeys e0).eto),
          hef0.trans hfsome, het0.trans htsome, ?_, ?_, hfne, htne,
          keptEdge_expl_not_falsy _ _ _ hkeep, ?_, ?_⟩
  · rw [hffix]
    exact hffix
  · rw [htfix]
    exact htfix
  · refine validate_node_present g hsn (pyStrip (orEmpty (normEdgeKeys e0).efrom))
      (by simpa using hfc) ?_
    have h1 := huse.1
    rw [hef0.trans hfsome] at h1
    simpa [pyStr] using h1
  · refine validate_node_present g hsn (pyStrip (orEmpty (normEdgeKeys e0).eto))
      (by simpa using htc) ?_
    have h1 := huse.2
    rw [het0.trans htsome] at h1
    simpa [pyStr] using h1

/-- C3 (amended): on a graph whose node ids and edge endpoints carry no
leading/trailing whitespace, `_validate_and_fix_graph` is idempotent — a
second application changes nothing and adds no gaps. Without the whitespace
restriction idempotence fails: the raw-vs-stripped comparison of the orphan
pruning can leave a dangling edge that only the second pass drops, adding a
new gap. -/
theorem C3_normalizer_idempotent (g : LGraph) (hs : strippedGraph g = true) :
    validateAndFixGraph (validateAndFixGraph g) = validateAndFixGraph g := by
  have hsn : g.lineage.nodes.all strippedNode = true := by
    simp [strippedGraph] at hs
    rw [List.all_eq_true]
    intro x hx
    simpa using hs.1 x hx
  have hse : ∀ e ∈ g.lineage.edges, strippedEdge e = true := by
    simp [strippedGraph] at hs
    intro x hx
    exact hs.2 x hx
  have hnode := validate_out_node hsn
  have hedge := validate_out_edge hsn hse
  have hnd := validate_out_keys_nodup hsn
  apply validateAndFixGraph_self
  · exact dedupNodes_eq_of_unique _ (fun n hn => (hnode n hn).2.1) hnd
  · intro n hn
    obtain ⟨-, -, hex, htr, -, -⟩ := hnode n hn
    exact fixNode_noop _ _ _ htr hex
  · intro e he
    obtain ⟨f, t, hf, ht, hfs, hts, hfne, htne, hex, ⟨nf, hnf, hnfid⟩, ⟨nt, hnt, hntid⟩⟩ :=
      hedge e he
    have hkf : nodeKey nf = f := by
      unfold nodeKey
      rw [hnfid]
      exact hfs
    have hkt : nodeKey nt = t := by
      unfold nodeKey
      rw [hntid]
      exact hts
    refine keptEdge_fixed hf ht hfs hts hfne htne ?_ ?_ hex
    · have hmem : f ∈ ((validateAndFixGraph g).lineage.nodes).map nodeKey :=
        hkf ▸ List.mem_map_of_mem nodeKey hnf
      simpa using hmem
    · have hmem : t ∈ ((validateAndFixGraph g).lineage.nodes).map nodeKey :=
        hkt ▸ List.mem_map_of_mem nodeKey hnt
      simpa using hmem
  · intro n hn
    exact (hnode n hn).2.2.2.2.2
  · intro n hn
    exact (hnode n hn).2.2.2.2.1

/-- Counterexample to C3 as stated: on a graph with a whitespace-padded
placeholder node id, the first normalization keeps an edge whose endpoint
node it prunes; the second normalization then drops that edge and appends a
new gap, so `normalize` is not idempotent on arbitrary graphs. -/
theorem C3_counterexample :
    validateAndFixGraph (validateAndFixGraph cxWhitespaceGraph) ≠
      validateAndFixGraph cxWhitespaceGraph ∧
    (validateAndFixGraph (validateAndFixGraph cxWhitespaceGraph)).lineage.gaps.length = 1 ∧
    (validateAndFixGraph cxWhitespaceGraph).lineage.gaps.length = 0 := by
  exact ⟨by decide, by decide, by decide⟩

/-- Witness for C3 at a concrete stripped graph. -/
theorem C3_witness :
    validateAndFixGraph (validateAndFixGraph
      { gvariable := some "AGE", gdataset := some "ADSL", gsummary := some "",
        lineage :=
        { nodes := [{ id := some "A", ntype := some "crf page", label := none,
                      file := none, description := none,
                      explanation := some "[direct] Page 3." }],
          edges := [{ efrom := some "A", eto := some "A", esource := none,
                      etarget := none, label := none,
                      explanation := some "[direct] Self." }],
          gaps := [] } }) =
    validateAndFixGraph
      { gvariable := some "AGE", gdataset := some "ADSL", gsummary := some "",
        lineage :=
        { nodes := [{ id := some "A", ntype := some "crf page", label := none,
                      file := none, description := none,
                      explanation := some "[direct] Page 3." }],
          edges := [{ efrom := some "A", eto := some "A", esource := none,
                      etarget := none, label := none,
                      explanation := some "[direct] Self." }],
          gaps := [] } } :=
  C3_normalizer_idempotent _ (by decide)

/-! ## Claim C9 -/

/-- A found newline position lies inside the searched window `[i, j)`. -/
theorem rfindNl_bound (l : List Char) (i j k : Nat) (h : rfindNl l i j = some k) :
    i ≤ k ∧ k < j := by
  unfold rfindNl at h
  dsimp only at h
  cases hf : (sliceL l i j).reverse.findIdx? (fun c => c == '\n') with
  | none =>
    rw [hf] at h
    exact absurd h (by simp)
  | some r =>
    rw [hf] at h
    have hne : sliceL l i j ≠ [] := by
      intro he
      rw [he] at hf
      simp [List.findIdx?] at hf
    have hlen1 : 1 ≤ (sliceL l i j).length := List.length_pos.2 hne
    have hlen2 : (sliceL l i j).length ≤ j - i := by
      unfold sliceL
      rw [List.length_take]
      exact min_le_left _ _
    injection h with h
    omega

/-- The slice `text[i:j]` has at most `j - i` characters. -/
theorem sliceL_len_le (l : List Char) (i j : Nat) : (sliceL l i j).length ≤ j - i := by
  unfold sliceL
  rw [List.length_take]
  exact min_le_left _ _

/-- With `max_chars ≥ 200` the boundary always advances past the cursor: the
newline walk-back only fires within 200 characters of a boundary that is at
least 200 characters past the cursor. -/
theorem chunkBoundary_progress (l : List Char) (maxChars i : Nat)
    (h200 : 200 ≤ maxChars) (hi : i < l.length) : i < chunkBoundary l maxChars i := by
  unfold chunkBoundary
  dsimp only
  split
  · next hlt =>
    split
    · next k hk =>
      split
      · next hwalk => omega
      · omega
    · omega
  · next hge => omega

/-- The boundary never exceeds the cursor plus `max_chars`, nor the text
length. -/
theorem chunkBoundary_le (l : List Char) (maxChars i : Nat) :
    chunkBoundary l maxChars i ≤ i + maxChars ∧ chunkBoundary l maxChars i ≤ l.length := by
  unfold chunkBoundary
  dsimp only
  split
  · next hlt =>
    split
    · next k hk =>
      have hb := rfindNl_bound l i (min l.length (i + maxChars)) k hk
      split
      · constructor <;> omega
      · constructor <;> omega
    · constructor <;> omega
  · constructor <;> omega

/-- Invariant of the chunking loop under `max_chars ≥ 200`: with fuel at
least the remaining text, the loop succeeds, the produced texts concatenate
to the accumulated texts followed by the rest of the input, and every new
chunk respects the size bound. -/
theorem chunkLoop_spec (docid : String) (l : List Char) (maxChars overlap : Nat)
    (h200 : 200 ≤ maxChars) :
    ∀ (fuel i : Nat) (acc : List Chunk), l.length ≤ i + fuel →
      ∃ cs, chunkLoop docid l maxChars overlap fuel i acc = some cs ∧
        (cs.map Chunk.text).flatten = (acc.map Chunk.text).flatten ++ l.drop i ∧
        (∀ c ∈ cs, c ∈ acc ∨ c.text.length ≤ maxChars) := by
  intro fuel
  induction fuel with
  | zero =>
    intro i acc hle
    refine ⟨acc, ?_, ?_, fun c hc => Or.inl hc⟩
    · rw [chunkLoop, if_neg (by omega)]
    · rw [List.drop_eq_nil_of_le (by omega), List.append_nil]
  | succ f ih =>
    intro i acc hle
    by_cases hi : i < l.length
    · have hprog := chunkBoundary_progress l maxChars i h200 hi
      have hble := chunkBoundary_le l maxChars i
      have hmax : max (chunkBoundary l maxChars i - overlap) (chunkBoundary l maxChars i) =
          chunkBoundary l maxChars i := Nat.max_eq_right (Nat.sub_le _ _)
      obtain ⟨cs, hrun, hjoin, hmem⟩ := ih (chunkBoundary l maxChars i)
        (acc ++ [{ cid := docid ++ "#" ++ toString acc.length,
                   text := sliceL l i (chunkBoundary l maxChars i) }]) (by omega)
      refine ⟨cs, ?_, ?_, ?_⟩
      · rw [chunkLoop, if_pos hi]
        dsimp only
        rw [hmax]
        exact hrun
      · rw [hjoin]
        simp only [List.map_append, List.flatten_append, List.map_cons, List.map_nil,
          List.flatten_cons, List.flatten_nil, List.append_nil]
        rw [List.append_assoc]
        congr 1
        have hdd : l.drop (chunkBoundary l maxChars i) =
            (l.drop i).drop (chunkBoundary l maxChars i - i) := by
          rw [List.drop_drop]
          congr 1
          omega
        unfold sliceL
        rw [hdd, List.take_append_drop]
      · intro c hc
        rcases hmem c hc with hin | hlen
        · rcases List.mem_append.1 hin with h1 | h2
          · exact Or.inl h1
          · right
            have hc2 : c = { cid := docid ++ "#" ++ toString acc.length,
                             text := sliceL l i (chunkBoundary l maxChars i) } := by
              simpa using h2
            rw [hc2]
            have hsl := sliceL_len_le l i (chunkBoundary l maxChars i)
            dsimp only
            omega
        · exact Or.inr hlen
    · refine ⟨acc, ?_, ?_, fun c hc => Or.inl hc⟩
      · rw [chunkLoop, if_neg hi]
      · rw [List.drop_eq_nil_of_le (by omega), List.append_nil]

/-- C9 (amended): whenever `max_chars ≥ 200` (every call site passes 3000),
the chunker terminates and its chunk texts concatenate to exactly the input
text, each chunk at most `max_chars` long; `overlap` plays no role in the
cursor. For `max_chars < 200` the coverage claim fails as stated: the newline
walk-back can pin the boundary at the cursor and the loop never terminates,
producing no chunk list at all. -/
theorem C9_chunk_coverage (docid : String) (l : List Char) (maxChars overlap : Nat)
    (h200 : 200 ≤ maxChars) :
    ∃ cs, chunkText docid l maxChars overlap = some cs ∧
      (cs.map Chunk.text).flatten = l ∧
      ∀ c ∈ cs, c.text.length ≤ maxChars := by
  obtain ⟨cs, hrun, hjoin, hmem⟩ :=
    chunkLoop_spec docid l maxChars overlap h200 (l.length + 1) 0 [] (by omega)
  refine ⟨cs, hrun, ?_, fun c hc => (hmem c hc).resolve_left (by simp)⟩
  simpa using hjoin

/-- The boundary for the divergent example pins itself at cursor 2. -/
theorem c9_boundary_at_two : chunkBoundary c9Text 5 2 = 2 := by decide

/-- The first boundary of the divergent example is 2. -/
theorem c9_boundary_at_zero : chunkBoundary c9Text 5 0 = 2 := by decide

/-- Length of the divergent example text. -/
theorem c9_len : c9Text.length = 23 := by decide

/-- From cursor 2 the loop consumes all fuel without terminating. -/
theorem c9_stall : ∀ fuel acc, chunkLoop "d" c9Text 5 0 fuel 2 acc = none := by
  intro fuel
  induction fuel with
  | zero =>
    intro acc
    rw [chunkLoop]
    simp [c9_len]
  | succ f ih =>
    intro acc
    rw [chunkLoop]
    simp only [c9_len, c9_boundary_at_two]
    norm_num
    exact ih _

/-- Counterexample to C9 as stated: on a 23-character text with
`max_chars = 5`, the newline walk-back sets the boundary to the cursor, the
cursor update `max(j - overlap, j)` keeps it there, and the loop never
terminates — no chunk list covering the text exists for any amount of
fuel. -/
theorem C9_counterexample :
    (∀ fuel acc, chunkLoop "d" c9Text 5 0 fuel 2 acc = none) ∧
    chunkText "d" c9Text 5 0 = none := by
  refine ⟨c9_stall, ?_⟩
  rw [chunkText, chunkLoop]
  simp only [c9_len, c9_boundary_at_zero]
  norm_num
  exact c9_stall _ _

/-- Witness for C9 at a concrete two-character text with `max_chars = 200`. -/
theorem C9_witness :
    ∃ cs, chunkText "d" ['a', 'b'] 200 0 = some cs ∧
      (cs.map Chunk.text).flatten = ['a', 'b'] ∧
      ∀ c ∈ cs, c.text.length ≤ 200 :=
  C9_chunk_coverage "d" ['a', 'b'] 200 0 (by decide)

/-! ## Claim C7: characters of the serialized texts -/

/-- Unpacking of the allowed-character predicate. -/
theorem plainChar_elim {c : Char} (h : plainChar c = true) :
    32 ≤ c.toNat ∧ c ≠ dqCh ∧ c ≠ sqCh ∧ c ≠ bslCh ∧ c ≠ btCh ∧
    c.toNat ≠ 0x201C ∧ c.toNat ≠ 0x201D ∧ c.toNat ≠ 0x2018 ∧ c.toNat ≠ 0x2019 := by
  unfold plainChar at h
  simp only [Bool.and_eq_true, decide_eq_true_eq, bne_iff_ne, ne_eq, ge_iff_le] at h
  tauto

/-- Value of a digit character. -/
theorem digitChar_toNat {d : Nat} (h : d < 10) : (digitChar d).toNat = 48 + d :=
  toNat_ofNat_lt _ (by omega)

/-- The digit list of a natural number is non-empty and consists of decimal
digit characters. -/
theorem natDigits_spec (n : Nat) :
    natDigits n ≠ [] ∧ ∀ c ∈ natDigits n, 48 ≤ c.toNat ∧ c.toNat ≤ 57 := by
  induction n using Nat.strong_induction_on with
  | _ n ih =>
    rw [natDigits]
    split
    · next h =>
      refine ⟨by simp, ?_⟩
      intro c hc
      have : c = digitChar n := by simpa using hc
      subst this
      rw [digitChar_toNat h]
      omega
    · next h =>
      have hrec := ih (n / 10) (Nat.div_lt_self (by omega) (by omega))
      refine ⟨by simp [hrec.1], ?_⟩
      intro c hc
      rcases List.mem_append.1 hc with h1 | h2
      · exact hrec.2 c h1
      · have : c = digitChar (n % 10) := by simpa using h2
        subst this
        rw [digitChar_toNat (Nat.mod_lt _ (by omega))]
        omega

/-- The digit test in terms of the character value. -/
theorem isDigit_iff_toNat (c : Char) :
    c.isDigit = true ↔ 48 ≤ c.toNat ∧ c.toNat ≤ 57 := by
  simp [Char.isDigit, Char.le_def, Char.toNat, UInt32.le_def, UInt32.toNat, BitVec.le_def]

/-- Decimal digit characters are allowed characters. -/
theorem plainChar_of_digitRange {c : Char} (h1 : 48 ≤ c.toNat) (h2 : c.toNat ≤ 57) :
    plainChar c = true := by
  unfold plainChar
  simp only [Bool.and_eq_true, decide_eq_true_eq, bne_iff_ne, ne_eq, ge_iff_le]
  have hne : ∀ m : Nat, c.toNat ≠ m → c ≠ Char.ofNat m ∨ True := fun m _ => Or.inr trivial
  refine ⟨⟨⟨⟨⟨⟨⟨⟨by omega, ?_⟩, ?_⟩, ?_⟩, ?_⟩, by omega⟩, by omega⟩, by omega⟩, by omega⟩
  · intro he
    have : c.toNat = 34 := by rw [he]; decide
    omega
  · intro he
    have : c.toNat = 39 := by rw [he]; decide
    omega
  · intro he
    have : c.toNat = 92 := by rw [he]; decide
    omega
  · intro he
    have : c.toNat = 96 := by rw [he]; decide
    omega

/-- Digit runs evaluate back to the number they serialize. -/
theorem digitsVal_natDigits (n : Nat) : digitsVal (natDigits n) = n := by
  induction n using Nat.strong_induction_on with
  | _ n ih =>
    rw [natDigits]
    split
    · next h =>
      show digitsVal [digitChar n] = n
      unfold digitsVal digitVal
      simp [digitChar_toNat h]
    · next h =>
      have hrec := ih (n / 10) (Nat.div_lt_self (by omega) (by omega))
      unfold digitsVal at hrec ⊢
      rw [List.foldl_append, hrec]
      unfold digitVal
      simp only [List.foldl_cons, List.foldl_nil]
      rw [digitChar_toNat (Nat.mod_lt _ (by omega))]
      omega

/-- All characters of a plain string are allowed characters. -/
theorem plainStr_mem {s : String} (h : plainStr s = true) :
    ∀ c ∈ s.data, plainChar c = true := by
  unfold plainStr at h
  exact fun c hc => (List.all_eq_true).1 h c hc

mutual

/-- Every character of a serialized plain value is the quote or allowed. -/
theorem serQ_chars (q : Char) (v : Jv) (h : plainJ v = true) :
    ∀ c ∈ serQ q v, c = q ∨ plainChar c = true := by
  cases v with
  | jstr s =>
    intro c hc
    have hs : plainStr s = true := by simpa [plainJ] using h
    rcases List.mem_cons.1 hc with rfl | hc'
    · exact Or.inl rfl
    · rcases List.mem_append.1 hc' with h1 | h2
      · exact Or.inr (plainStr_mem hs c h1)
      · have : c = q := by simpa using h2
        exact Or.inl this
  | jnum n =>
    intro c hc
    have := (natDigits_spec n).2 c hc
    exact Or.inr (plainChar_of_digitRange this.1 this.2)
  | jarr xs =>
    intro c hc
    have hxs : plainItems xs = true := by simpa [plainJ] using h
    rcases List.mem_cons.1 hc with rfl | hc'
    · exact Or.inr (by decide)
    · rcases List.mem_append.1 hc' with h1 | h2
      · exact serItems_chars q xs hxs c h1
      · have : c = ']' := by simpa using h2
        exact Or.inr (by rw [this]; decide)
  | jobj fs =>
    intro c hc
    have hfs : plainMembers fs = true := by simpa [plainJ] using h
    rcases List.mem_cons.1 hc with rfl | hc'
    · exact Or.inr (by decide)
    · rcases List.mem_append.1 hc' with h1 | h2
      · exact serMembers_chars q fs hfs c h1
      · have : c = '}' := by simpa using h2
        exact Or.inr (by rw [this]; decide)

/-- Every character of serialized plain items is the quote or allowed. -/
theorem serItems_chars (q : Char) (xs : List Jv) (h : plainItems xs = true) :
    ∀ c ∈ serItems q xs, c = q ∨ plainChar c = true := by
  cases xs with
  | nil => intro c hc; simp [serItems] at hc
  | cons x xs' =>
    have hx : plainJ x = true ∧ plainItems xs' = true := by
      have h2 : (plainJ x && plainItems xs') = true := h
      rw [Bool.and_eq_true] at h2
      exact h2
    cases xs' with
    | nil =>
      intro c hc
      exact serQ_chars q x hx.1 c hc
    | cons y t =>
      intro c hc
      have he : serItems q (x :: y :: t) = serQ q x ++ ',' :: serItems q (y :: t) := rfl
      rw [he] at hc
      rcases List.mem_append.1 hc with h1 | h2
      · exact serQ_chars q x hx.1 c h1
      · rcases List.mem_cons.1 h2 with rfl | h3
        · exact Or.inr (by decide)
        · exact serItems_chars q (y :: t) hx.2 c h3

/-- Every character of serialized plain members is the quote or allowed. -/
theorem serMembers_chars (q : Char) (fs : List (String × Jv)) (h : plainMembers fs = true) :
    ∀ c ∈ serMembers q fs, c = q ∨ plainChar c = true := by
  cases fs with
  | nil => intro c hc; simp [serMembers] at hc
  | cons p fs' =>
    obtain ⟨k, v⟩ := p
    have hp : plainStr k = true ∧ plainJ v = true ∧ plainMembers fs' = true := by
      have h2 : (plainStr k && plainJ v && plainMembers fs') = true := h
      rw [Bool.and_eq_true, Bool.and_eq_true] at h2
      exact ⟨h2.1.1, h2.1.2, h2.2⟩
    have hkey : ∀ c ∈ serStrQ q k, c = q ∨ plainChar c = true := by
      intro c hc
      rcases List.mem_cons.1 hc with rfl | hc'
      · exact Or.inl rfl
      · rcases List.mem_append.1 hc' with h1 | h2
        · exact Or.inr (plainStr_mem hp.1 c h1)
        · exact Or.inl (by simpa using h2)
    cases fs' with
    | nil =>
      intro c hc
      have he : serMembers q [(k, v)] = serStrQ q k ++ ':' :: serQ q v := rfl
      rw [he] at hc
      rcases List.mem_append.1 hc with h1 | h2
      · exact hkey c h1
      · rcases List.mem_cons.1 h2 with rfl | h3
        · exact Or.inr (by decide)
        · exact serQ_chars q v hp.2.1 c h3
    | cons p2 t =>
      intro c hc
      have he : serMembers q ((k, v) :: p2 :: t) =
          serStrQ q k ++ ':' :: serQ q v ++ ',' :: serMembers q (p2 :: t) := rfl
      rw [he] at hc
      rcases List.mem_append.1 hc with h12 | h2
      · rcases List.mem_append.1 h12 with h1 | hv2
        · exact hkey c h1
        · rcases List.mem_cons.1 hv2 with rfl | h4
          · exact Or.inr (by decide)
          · exact serQ_chars q v hp.2.1 c h4
      · rcases List.mem_cons.1 h2 with rfl | h6
        · exact Or.inr (by decide)
        · exact serMembers_chars q (p2 :: t) hp.2.2 c h6

end

/-- A serialized value is never empty. -/
theorem serQ_ne_nil (q : Char) (v : Jv) : serQ q v ≠ [] := by
  cases v with
  | jstr s => simp [serQ, serStrQ]
  | jnum n =>
    show natDigits n ≠ []
    exact (natDigits_spec n).1
  | jarr xs => simp [serQ]
  | jobj fs => simp [serQ]

/-- The first character of a serialized value is a quote, a digit, `[` or
`{` — never `]`, `}` or `,`. -/
theorem serQ_head (q : Char) (v : Jv) (hq : q = sqCh ∨ q = dqCh) :
    ∃ c t, serQ q v = c :: t ∧ c ≠ ']' ∧ c ≠ '}' ∧ c ≠ ',' := by
  cases v with
  | jstr s =>
    refine ⟨q, _, rfl, ?_, ?_, ?_⟩ <;> (rcases hq with rfl | rfl <;> decide)
  | jnum n =>
    obtain ⟨c, t, hct⟩ : ∃ c t, natDigits n = c :: t := by
      cases hd : natDigits n with
      | nil => exact absurd hd (natDigits_spec n).1
      | cons c t => exact ⟨c, t, rfl⟩
    have hdig := (natDigits_spec n).2 c (by rw [hct]; exact List.mem_cons_self _ _)
    refine ⟨c, t, hct, ?_, ?_, ?_⟩ <;>
      (intro he; rw [he] at hdig; revert hdig; decide)
  | jarr xs => exact ⟨'[', _, rfl, by decide, by decide, by decide⟩
  | jobj fs => exact ⟨'{', _, rfl, by decide, by decide, by decide⟩

/-- Serialized items are at least as long as the item list. -/
theorem serItems_len (q : Char) (xs : List Jv) : xs.length ≤ (serItems q xs).length := by
  induction xs with
  | nil => simp [serItems]
  | cons x xs' ih =>
    have hpos : 1 ≤ (serQ q x).length :=
      List.length_pos.2 (serQ_ne_nil q x)
    cases xs' with
    | nil => simpa [serItems] using hpos
    | cons y t =>
      have he : serItems q (x :: y :: t) = serQ q x ++ ',' :: serItems q (y :: t) := rfl
      rw [he]
      simp only [List.length_append, List.length_cons]
      simp only [List.length_cons] at ih ⊢
      omega

/-- Serialized members are at least as long as the member list. -/
theorem serMembers_len (q : Char) (fs : List (String × Jv)) :
    fs.length ≤ (serMembers q fs).length := by
  induction fs with
  | nil => simp [serMembers]
  | cons p fs' ih =>
    obtain ⟨k, v⟩ := p
    cases fs' with
    | nil =>
      have he : serMembers q [(k, v)] = serStrQ q k ++ ':' :: serQ q v := rfl
      rw [he]
      simp [serStrQ]
    | cons p2 t =>
      have he : serMembers q ((k, v) :: p2 :: t) =
          serStrQ q k ++ ':' :: serQ q v ++ ',' :: serMembers q (p2 :: t) := rfl
      rw [he]
      simp only [List.length_append, List.length_cons, serStrQ] at ih ⊢
      omega

/-- Every value has positive depth. -/
theorem depthJ_pos (v : Jv) : 1 ≤ depthJ v := by
  cases v <;> simp [depthJ]

mutual

/-- The depth of a value is at most its serialized length. -/
theorem depth_le_serLen (q : Char) (v : Jv) : depthJ v ≤ (serQ q v).length := by
  cases v with
  | jstr s => simp [depthJ, serQ, serStrQ]
  | jnum n =>
    have : 1 ≤ (natDigits n).length := List.length_pos.2 (natDigits_spec n).1
    simpa [depthJ, serQ] using this
  | jarr xs =>
    have := depthItems_le_serLen q xs
    show 1 + depthItems xs ≤ ('[' :: (serItems q xs ++ [']'])).length
    simp only [List.length_cons, List.length_append, List.length_singleton]
    omega
  | jobj fs =>
    have := depthMembers_le_serLen q fs
    show 1 + depthMembers fs ≤ ('{' :: (serMembers q fs ++ ['}'])).length
    simp only [List.length_cons, List.length_append, List.length_singleton]
    omega

/-- The depth of items is at most their serialized length. -/
theorem depthItems_le_serLen (q : Char) (xs : List Jv) :
    depthItems xs ≤ (serItems q xs).length := by
  cases xs with
  | nil => simp [depthItems, serItems]
  | cons x xs' =>
    have hx := depth_le_serLen q x
    cases xs' with
    | nil => simpa [depthItems, serItems, depthItems] using hx
    | cons y t =>
      have ht := depthItems_le_serLen q (y :: t)
      have he : serItems q (x :: y :: t) = serQ q x ++ ',' :: serItems q (y :: t) := rfl
      show max (depthJ x) (depthItems (y :: t)) ≤ _
      rw [he]
      simp only [List.length_append, List.length_cons]
      omega

/-- The depth of members is at most their serialized length. -/
theorem depthMembers_le_serLen (q : Char) (fs : List (String × Jv)) :
    depthMembers fs ≤ (serMembers q fs).length := by
  cases fs with
  | nil => simp [depthMembers, serMembers]
  | cons p fs' =>
    obtain ⟨k, v⟩ := p
    have hv := depth_le_serLen q v
    cases fs' with
    | nil =>
      have he : serMembers q [(k, v)] = serStrQ q k ++ ':' :: serQ q v := rfl
      show max (depthJ v) (depthMembers []) ≤ _
      rw [he]
      simp only [List.length_append, List.length_cons, depthMembers, serStrQ]
      omega
    | cons p2 t =>
      have ht := depthMembers_le_serLen q (p2 :: t)
      have he : serMembers q ((k, v) :: p2 :: t) =
          serStrQ q k ++ ':' :: serQ q v ++ ',' :: serMembers q (p2 :: t) := rfl
      show max (depthJ v) (depthMembers (p2 :: t)) ≤ _
      rw [he]
      simp only [List.length_append, List.length_cons]
      omega

end

/-- Character inequality from distinct code points. -/
theorem beq_false_of_toNat_ne {c d : Char} (h : c.toNat ≠ d.toNat) : (c == d) = false := by
  simp only [beq_eq_false_iff_ne, ne_eq]
  intro he
  exact h (by rw [he])

/-- Reading a quoted plain string recovers its content and the rest. -/
theorem readStr_plain (q : Char) (hq : q = sqCh ∨ q = dqCh) (content : List Char)
    (hc : ∀ c ∈ content, plainChar c = true) (rest : List Char) :
    readStr q (content ++ q :: rest) = some (content, rest) := by
  induction content with
  | nil =>
    show readStr q (q :: rest) = some ([], rest)
    unfold readStr
    rw [if_pos (by simp)]
  | cons c cs ih =>
    have hcc := plainChar_elim (hc c (List.mem_cons_self _ _))
    have h1 : (c == q) = false := by
      rcases hq with rfl | rfl
      · simpa using hcc.2.2.1
      · simpa using hcc.2.1
    have h2 : (c == bslCh || decide (c.toNat < 32)) = false := by
      have hb : (c == bslCh) = false := by simpa using hcc.2.2.2.1
      have hl : decide (c.toNat < 32) = false := by
        simp only [decide_eq_false_iff_not, not_lt]
        exact hcc.1
      simp [hb, hl]
    show readStr q (c :: (cs ++ q :: rest)) = some (c :: cs, rest)
    unfold readStr
    rw [ih (fun x hx => hc x (List.mem_cons_of_mem _ hx))]
    simp only [h1, h2, Bool.false_eq_true, if_false]

/-- One inert character of the blob scan (no quote, no brace). -/
theorem blobGo_step_inert (c : Char) (h1 : (c == sqCh) = false) (h2 : (c == dqCh) = false)
    (h3 : (c == '{') = false) (h4 : (c == '}') = false) (rest : List Char) (d : Nat)
    (acc : List Char) :
    blobGo (c :: rest) d none false acc = blobGo rest d none false (c :: acc) := by
  rw [blobGo]
  simp only [h1, h2, h3, h4, Bool.or_false, Bool.false_eq_true, if_false]

/-- A run of inert characters of the blob scan. -/
theorem blobGo_chars (cl : List Char)
    (h : ∀ c ∈ cl, (c == sqCh) = false ∧ (c == dqCh) = false ∧
      (c == '{') = false ∧ (c == '}') = false) :
    ∀ rest d acc, blobGo (cl ++ rest) d none false acc =
      blobGo rest d none false (cl.reverse ++ acc) := by
  induction cl with
  | nil => intro rest d acc; simp
  | cons c cs ih =>
    intro rest d acc
    have hc := h c (List.mem_cons_self _ _)
    show blobGo (c :: (cs ++ rest)) d none false acc = _
    rw [blobGo_step_inert c hc.1 hc.2.1 hc.2.2.1 hc.2.2.2,
        ih (fun x hx => h x (List.mem_cons_of_mem _ hx))]
    have : cs.reverse ++ (c :: acc) = (c :: cs).reverse ++ acc := by simp
    rw [this]

/-- The blob scan runs through the body of a plain quoted string. -/
theorem blobGo_inStr (q : Char) (hq : q = sqCh ∨ q = dqCh) (content : List Char)
    (hc : ∀ c ∈ content, plainChar c = true) :
    ∀ rest d acc, blobGo (content ++ q :: rest) d (some q) false acc =
      blobGo rest d none false (q :: (content.reverse ++ acc)) := by
  induction content with
  | nil =>
    intro rest d acc
    show blobGo (q :: rest) d (some q) false acc = _
    rw [blobGo]
    have hb : (q == bslCh) = false := by rcases hq with rfl | rfl <;> decide
    simp only [hb, Bool.false_eq_true, if_false, if_pos, beq_self_eq_true, if_true]
    simp
  | cons c cs ih =>
    intro rest d acc
    have hcc := plainChar_elim (hc c (List.mem_cons_self _ _))
    have hb : (c == bslCh) = false := by simpa using hcc.2.2.2.1
    have hq' : (c == q) = false := by
      rcases hq with rfl | rfl
      · simpa using hcc.2.2.1
      · simpa using hcc.2.1
    show blobGo (c :: (cs ++ q :: rest)) d (some q) false acc = _
    rw [blobGo]
    simp only [hb, hq', Bool.false_eq_true, if_false]
    rw [ih (fun x hx => hc x (List.mem_cons_of_mem _ hx))]
    have : q :: (cs.reverse ++ (c :: acc)) = q :: ((c :: cs).reverse ++ acc) := by simp
    rw [this]

/-- The blob scan runs through a serialized quoted string. -/
theorem blobGo_serStr (q : Char) (hq : q = sqCh ∨ q = dqCh) (s : String)
    (hs : plainStr s = true) (rest : List Char) (d : Nat) (acc : List Char) :
    blobGo (serStrQ q s ++ rest) d none false acc =
      blobGo rest d none false ((serStrQ q s).reverse ++ acc) := by
  show blobGo (q :: ((s.data ++ [q]) ++ rest)) d none false acc = _
  rw [blobGo]
  have hqt : (q == sqCh || q == dqCh) = true := by rcases hq with rfl | rfl <;> decide
  simp only [hqt, if_true]
  have hre : (s.data ++ [q]) ++ rest = s.data ++ (q :: rest) := by simp
  rw [hre, blobGo_inStr q hq s.data (plainStr_mem hs)]
  have : q :: (s.data.reverse ++ (q :: acc)) = (serStrQ q s).reverse ++ acc := by
    simp [serStrQ]
  rw [this]

mutual

/-- The blob scan runs through any serialized plain value at depth ≥ 1
without returning. -/
theorem blobGo_serQ (q : Char) (hq : q = sqCh ∨ q = dqCh) (v : Jv) (h : plainJ v = true) :
    ∀ rest d acc, 1 ≤ d →
      blobGo (serQ q v ++ rest) d none false acc =
        blobGo rest d none false ((serQ q v).reverse ++ acc) := by
  cases v with
  | jstr s =>
    intro rest d acc _
    exact blobGo_serStr q hq s (by simpa [plainJ] using h) rest d acc
  | jnum n =>
    intro rest d acc _
    refine blobGo_chars (natDigits n) ?_ rest d acc
    intro c hcd
    have hr := (natDigits_spec n).2 c hcd
    exact ⟨beq_false_of_toNat_ne (by rw [show sqCh.toNat = 39 from by decide]; omega),
           beq_false_of_toNat_ne (by rw [show dqCh.toNat = 34 from by decide]; omega),
           beq_false_of_toNat_ne (by rw [show Char.toNat (Char.ofNat 123) = 123 from by decide]; omega),
           beq_false_of_toNat_ne (by rw [show Char.toNat (Char.ofNat 125) = 125 from by decide]; omega)⟩
  | jarr xs =>
    intro rest d acc hd
    have hxs : plainItems xs = true := by simpa [plainJ] using h
    show blobGo ('[' :: ((serItems q xs ++ [']']) ++ rest)) d none false acc = _
    rw [blobGo_step_inert '[' (by decide) (by decide) (by decide) (by decide)]
    have hre : (serItems q xs ++ [']']) ++ rest = serItems q xs ++ (']' :: rest) := by simp
    rw [hre, blobGo_serItems q hq xs hxs (']' :: rest) d ('[' :: acc) hd,
        blobGo_step_inert ']' (by decide) (by decide) (by decide) (by decide)]
    have : ']' :: ((serItems q xs).reverse ++ ('[' :: acc)) =
        ('[' :: (serItems q xs ++ [']'])).reverse ++ acc := by simp
    rw [this]
    rfl
  | jobj fs =>
    intro rest d acc hd
    have hfs : plainMembers fs = true := by simpa [plainJ] using h
    show blobGo ('{' :: ((serMembers q fs ++ ['}']) ++ rest)) d none false acc = _
    rw [blobGo]
    simp only [show (Char.ofNat 123 == sqCh) = false from by decide,
      show (Char.ofNat 123 == dqCh) = false from by decide, Bool.or_false,
      Bool.false_eq_true, if_false, beq_self_eq_true, if_true]
    have hre : (serMembers q fs ++ ['}']) ++ rest = serMembers q fs ++ ('}' :: rest) := by simp
    rw [hre, blobGo_serMembers q hq fs hfs ('}' :: rest) (d + 1) ('{' :: acc) (by omega)]
    rw [blobGo]
    simp only [show (Char.ofNat 125 == sqCh) = false from by decide,
      show (Char.ofNat 125 == dqCh) = false from by decide,
      show (Char.ofNat 125 == Char.ofNat 123) = false from by decide, Bool.or_false,
      Bool.false_eq_true, if_false, beq_self_eq_true, if_true]
    have hd1 : (d + 1 == 1) = false := by
      simp only [beq_eq_false_iff_ne, ne_eq]
      omega
    simp only [hd1, Bool.false_eq_true, if_false, Nat.add_sub_cancel]
    have : '}' :: ((serMembers q fs).reverse ++ ('{' :: acc)) =
        ('{' :: (serMembers q fs ++ ['}'])).reverse ++ acc := by simp
    rw [this]
    rfl

/-- The blob scan runs through serialized plain items at depth ≥ 1. -/
theorem blobGo_serItems (q : Char) (hq : q = sqCh ∨ q = dqCh) (xs : List Jv)
    (h : plainItems xs = true) :
    ∀ rest d acc, 1 ≤ d →
      blobGo (serItems q xs ++ rest) d none false acc =
        blobGo rest d none false ((serItems q xs).reverse ++ acc) := by
  cases xs with
  | nil => intro rest d acc _; simp [serItems]
  | cons x xs' =>
    have hx : plainJ x = true ∧ plainItems xs' = true := by
      have h2 : (plainJ x && plainItems xs') = true := h
      rw [Bool.and_eq_true] at h2
      exact h2
    cases xs' with
    | nil =>
      intro rest d acc hd
      exact blobGo_serQ q hq x hx.1 rest d acc hd
    | cons y t =>
      intro rest d acc hd
      have he : serItems q (x :: y :: t) = serQ q x ++ ',' :: serItems q (y :: t) := rfl
      rw [he]
      have hre : (serQ q x ++ ',' :: serItems q (y :: t)) ++ rest =
          serQ q x ++ (',' :: (serItems q (y :: t) ++ rest)) := by simp
      rw [hre, blobGo_serQ q hq x hx.1 _ d acc hd,
          blobGo_step_inert ',' (by decide) (by decide) (by decide) (by decide),
          blobGo_serItems q hq (y :: t) hx.2 rest d _ hd]
      have : (serItems q (y :: t)).reverse ++ (',' :: ((serQ q x).reverse ++ acc)) =
          (serQ q x ++ ',' :: serItems q (y :: t)).reverse ++ acc := by simp
      rw [this]

/-- The blob scan runs through serialized plain members at depth ≥ 1. -/
theorem blobGo_serMembers (q : Char) (hq : q = sqCh ∨ q = dqCh) (fs : List (String × Jv))
    (h : plainMembers fs = true) :
    ∀ rest d acc, 1 ≤ d →
      blobGo (serMembers q fs ++ rest) d none false acc =
        blobGo rest d none false ((serMembers q fs).reverse ++ acc) := by
  cases fs with
  | nil => intro rest d acc _; simp [serMembers]
  | cons p fs' =>
    obtain ⟨k, v⟩ := p
    have hp : plainStr k = true ∧ plainJ v = true ∧ plainMembers fs' = true := by
      have h2 : (plainStr k && plainJ v && plainMembers fs') = true := h
      rw [Bool.and_eq_true, Bool.and_eq_true] at h2
      exact ⟨h2.1.1, h2.1.2, h2.2⟩
    cases fs' with
    | nil =>
      intro rest d acc hd
      have he : serMembers q [(k, v)] = serStrQ q k ++ ':' :: serQ q v := rfl
      rw [he]
      have hre : (serStrQ q k ++ ':' :: serQ q v) ++ rest =
          serStrQ q k ++ (':' :: (serQ q v ++ rest)) := by simp
      rw [hre, blobGo_serStr q hq k hp.1,
          blobGo_step_inert ':' (by decide) (by decide) (by decide) (by decide),
          blobGo_serQ q hq v hp.2.1 rest d _ hd]
      have : (serQ q v).reverse ++ (':' :: ((serStrQ q k).reverse ++ acc)) =
          (serStrQ q k ++ ':' :: serQ q v).reverse ++ acc := by simp
      rw [this]
    | cons p2 t =>
      intro rest d acc hd
      have he : serMembers q ((k, v) :: p2 :: t) =
          serStrQ q k ++ ':' :: serQ q v ++ ',' :: serMembers q (p2 :: t) := rfl
      rw [he]
      have hre : (serStrQ q k ++ ':' :: serQ q v ++ ',' :: serMembers q (p2 :: t)) ++ rest =
          serStrQ q k ++ (':' :: (serQ q v ++ (',' :: (serMembers q (p2 :: t) ++ rest)))) := by
        simp
      rw [hre, blobGo_serStr q hq k hp.1,
          blobGo_step_inert ':' (by decide) (by decide) (by decide) (by decide),
          blobGo_serQ q hq v hp.2.1 _ d _ hd,
          blobGo_step_inert ',' (by decide) (by decide) (by decide) (by decide),
          blobGo_serMembers q hq (p2 :: t) hp.2.2 rest d _ hd]
      have : (serMembers q (p2 :: t)).reverse ++
          (',' :: ((serQ q v).reverse ++ (':' :: ((serStrQ q k).reverse ++ acc)))) =
          (serStrQ q k ++ ':' :: serQ q v ++ ',' :: serMembers q (p2 :: t)).reverse ++ acc := by
        simp
      rw [this]

end

/-- The balanced-blob extraction returns a serialized plain object whole. -/
theorem extract_serQ_obj (q : Char) (hq : q = sqCh ∨ q = dqCh) (fs : List (String × Jv))
    (h : plainMembers fs = true) :
    extractBalancedJsonBlob (serQ q (Jv.jobj fs)) = some (serQ q (Jv.jobj fs)) := by
  unfold extractBalancedJsonBlob
  dsimp only
  have hdw : (serQ q (Jv.jobj fs)).dropWhile (fun c => decide (c ≠ '{')) =
      serQ q (Jv.jobj fs) := by
    show (('{' :: (serMembers q fs ++ ['}'])).dropWhile (fun c => decide (c ≠ '{'))) =
        '{' :: (serMembers q fs ++ ['}'])
    rw [List.dropWhile_cons]
    simp
  rw [hdw]
  show blobGo ('{' :: (serMembers q fs ++ ['}'])) 0 none false [] = _
  rw [blobGo]
  simp only [show (Char.ofNat 123 == sqCh) = false from by decide,
    show (Char.ofNat 123 == dqCh) = false from by decide, Bool.or_false,
    Bool.false_eq_true, if_false, beq_self_eq_true, if_true]
  have hre : serMembers q fs ++ ['}'] = serMembers q fs ++ ('}' :: []) := rfl
  rw [hre, blobGo_serMembers q hq fs h ('}' :: []) 1 ['{'] (by omega)]
  rw [blobGo]
  simp only [show (Char.ofNat 125 == sqCh) = false from by decide,
    show (Char.ofNat 125 == dqCh) = false from by decide,
    show (Char.ofNat 125 == Char.ofNat 123) = false from by decide, Bool.or_false,
    Bool.false_eq_true, if_false, beq_self_eq_true, if_true]
  simp
  rfl

/-- One inert character of the square-bracket fold. -/
theorem sqFoldStep_inert (c : Char) (h1 : (c == sqCh) = false) (h2 : (c == dqCh) = false)
    (h3 : (c == '[') = false) (h4 : (c == ']') = false) (d : Nat) :
    sqFoldStep (d, none, false) c = (d, none, false) := by
  unfold sqFoldStep
  simp only [h1, h2, h3, h4, Bool.or_false, Bool.false_eq_true, if_false]

/-- The square-bracket fold runs through a run of inert characters. -/
theorem sqFold_chars (cl : List Char)
    (h : ∀ c ∈ cl, (c == sqCh) = false ∧ (c == dqCh) = false ∧
      (c == '[') = false ∧ (c == ']') = false) (d : Nat) :
    cl.foldl sqFoldStep (d, none, false) = (d, none, false) := by
  induction cl with
  | nil => rfl
  | cons c cs ih =>
    have hc := h c (List.mem_cons_self _ _)
    rw [List.foldl_cons, sqFoldStep_inert c hc.1 hc.2.1 hc.2.2.1 hc.2.2.2,
        ih (fun x hx => h x (List.mem_cons_of_mem _ hx))]

/-- The square-bracket fold skips a plain quoted string body. -/
theorem sqFold_inStr (q : Char) (hq : q = sqCh ∨ q = dqCh) (content : List Char)
    (hc : ∀ c ∈ content, plainChar c = true) (d : Nat) :
    content.foldl sqFoldStep (d, some q, false) = (d, some q, false) := by
  induction content with
  | nil => rfl
  | cons c cs ih =>
    have hcc := plainChar_elim (hc c (List.mem_cons_self _ _))
    have hb : (c == bslCh) = false := by simpa using hcc.2.2.2.1
    have hq' : (c == q) = false := by
      rcases hq with rfl | rfl
      · simpa using hcc.2.2.1
      · simpa using hcc.2.1
    rw [List.foldl_cons]
    show cs.foldl sqFoldStep (sqFoldStep (d, some q, false) c) = _
    unfold sqFoldStep
    simp only [hb, hq', Bool.false_eq_true, if_false]
    exact ih (fun x hx => hc x (List.mem_cons_of_mem _ hx))

/-- The square-bracket fold runs through a serialized quoted string. -/
theorem sqFold_serStr (q : Char) (hq : q = sqCh ∨ q = dqCh) (s : String)
    (hs : plainStr s = true) (d : Nat) :
    (serStrQ q s).foldl sqFoldStep (d, none, false) = (d, none, false) := by
  show ((q :: (s.data ++ [q])).foldl sqFoldStep (d, none, false)) = _
  rw [List.foldl_cons]
  have hstep : sqFoldStep (d, none, false) q = (d, some q, false) := by
    unfold sqFoldStep
    simp only [show (q == sqCh || q == dqCh) = true from by rcases hq with rfl | rfl <;> decide,
      if_true]
  rw [hstep, List.foldl_append, sqFold_inStr q hq s.data (plainStr_mem hs)]
  show sqFoldStep (d, some q, false) q = _
  unfold sqFoldStep
  have hb : (q == bslCh) = false := by rcases hq with rfl | rfl <;> decide
  simp only [hb, Bool.false_eq_true, if_false, beq_self_eq_true, if_true]

mutual

/-- The square-bracket fold is the identity across any serialized plain
value. -/
theorem sqFold_serQ (q : Char) (hq : q = sqCh ∨ q = dqCh) (v : Jv) (h : plainJ v = true) :
    ∀ d, (serQ q v).foldl sqFoldStep (d, none, false) = (d, none, false) := by
  cases v with
  | jstr s =>
    intro d
    exact sqFold_serStr q hq s (by simpa [plainJ] using h) d
  | jnum n =>
    intro d
    refine sqFold_chars (natDigits n) ?_ d
    intro c hcd
    have hr := (natDigits_spec n).2 c hcd
    exact ⟨beq_false_of_toNat_ne (by rw [show sqCh.toNat = 39 from by decide]; omega),
           beq_false_of_toNat_ne (by rw [show dqCh.toNat = 34 from by decide]; omega),
           beq_false_of_toNat_ne (by rw [show Char.toNat (Char.ofNat 91) = 91 from by decide]; omega),
           beq_false_of_toNat_ne (by rw [show Char.toNat (Char.ofNat 93) = 93 from by decide]; omega)⟩
  | jarr xs =>
    intro d
    have hxs : plainItems xs = true := by simpa [plainJ] using h
    show (('[' :: (serItems q xs ++ [']'])).foldl sqFoldStep (d, none, false)) = _
    rw [List.foldl_cons]
    have hstep : sqFoldStep (d, none, false) '[' = (d + 1, none, false) := by
      unfold sqFoldStep
      simp only [show ('[' == sqCh || '[' == dqCh) = false from by decide,
        Bool.false_eq_true, if_false, beq_self_eq_true, if_true]
    rw [hstep, List.foldl_append, sqFold_serItems q hq xs hxs (d + 1)]
    show sqFoldStep (d + 1, none, false) ']' = _
    unfold sqFoldStep
    simp only [show (']' == sqCh || ']' == dqCh) = false from by decide,
      show (']' == '[') = false from by decide, Bool.false_eq_true, if_false,
      beq_self_eq_true, if_true, Nat.add_sub_cancel]
  | jobj fs =>
    intro d
    have hfs : plainMembers fs = true := by simpa [plainJ] using h
    show (('{' :: (serMembers q fs ++ ['}'])).foldl sqFoldStep (d, none, false)) = _
    rw [List.foldl_cons,
        sqFoldStep_inert '{' (by decide) (by decide) (by decide) (by decide),
        List.foldl_append, sqFold_serMembers q hq fs hfs d]
    exact sqFoldStep_inert '}' (by decide) (by decide) (by decide) (by decide) d

/-- The square-bracket fold is the identity across serialized plain items. -/
theorem sqFold_serItems (q : Char) (hq : q = sqCh ∨ q = dqCh) (xs : List Jv)
    (h : plainItems xs = true) :
    ∀ d, (serItems q xs).foldl sqFoldStep (d, none, false) = (d, none, false) := by
  cases xs with
  | nil => intro d; rfl
  | cons x xs' =>
    have hx : plainJ x = true ∧ plainItems xs' = true := by
      have h2 : (plainJ x && plainItems xs') = true := h
      rw [Bool.and_eq_true] at h2
      exact h2
    cases xs' with
    | nil =>
      intro d
      exact sqFold_serQ q hq x hx.1 d
    | cons y t =>
      intro d
      have he : serItems q (x :: y :: t) = serQ q x ++ ',' :: serItems q (y :: t) := rfl
      rw [he, List.foldl_append, sqFold_serQ q hq x hx.1 d, List.foldl_cons,
          sqFoldStep_inert ',' (by decide) (by decide) (by decide) (by decide)]
      exact sqFold_serItems q hq (y :: t) hx.2 d

/-- The square-bracket fold is the identity across serialized plain
members. -/
theorem sqFold_serMembers (q : Char) (hq : q = sqCh ∨ q = dqCh) (fs : List (String × Jv))
    (h : plainMembers fs = true) :
    ∀ d, (serMembers q fs).foldl sqFoldStep (d, none, false) = (d, none, false) := by
  cases fs with
  | nil => intro d; rfl
  | cons p fs' =>
    obtain ⟨k, v⟩ := p
    have hp : plainStr k = true ∧ plainJ v = true ∧ plainMembers fs' = true := by
      have h2 : (plainStr k && plainJ v && plainMembers fs') = true := h
      rw [Bool.and_eq_true, Bool.and_eq_true] at h2
      exact ⟨h2.1.1, h2.1.2, h2.2⟩
    cases fs' with
    | nil =>
      intro d
      have he : serMembers q [(k, v)] = serStrQ q k ++ ':' :: serQ q v := rfl
      rw [he, List.foldl_append, sqFold_serStr q hq k hp.1 d, List.foldl_cons,
          sqFoldStep_inert ':' (by decide) (by decide) (by decide) (by decide)]
      exact sqFold_serQ q hq v hp.2.1 d
    | cons p2 t =>
      intro d
      have he : serMembers q ((k, v) :: p2 :: t) =
          serStrQ q k ++ ':' :: serQ q v ++ ',' :: serMembers q (p2 :: t) := rfl
      have hre : serMembers q ((k, v) :: p2 :: t) =
          serStrQ q k ++ (':' :: (serQ q v ++ (',' :: serMembers q (p2 :: t)))) := by
        rw [he]
        simp
      rw [hre, List.foldl_append, sqFold_serStr q hq k hp.1 d, List.foldl_cons,
          sqFoldStep_inert ':' (by decide) (by decide) (by decide) (by decide),
          List.foldl_append, sqFold_serQ q hq v hp.2.1 d, List.foldl_cons,
          sqFoldStep_inert ',' (by decide) (by decide) (by decide) (by decide)]
      exact sqFold_serMembers q hq (p2 :: t) hp.2.2 d

end

/-- The serialized plain object has no unclosed square bracket, so
`_maybe_close_square_brackets` leaves it unchanged. -/
theorem maybeClose_serQ_obj (q : Char) (hq : q = sqCh ∨ q = dqCh) (fs : List (String × Jv))
    (h : plainMembers fs = true) :
    maybeCloseSquareBrackets (serQ q (Jv.jobj fs)) = serQ q (Jv.jobj fs) := by
  unfold maybeCloseSquareBrackets
  have hdep : sqDepth (serQ q (Jv.jobj fs)) = 0 := by
    unfold sqDepth
    rw [sqFold_serQ q hq _ (by simpa [plainJ] using h) 0]
  dsimp only
  rw [hdep]
  simp

/-- Characters that are quotes or allowed are fixed by the typographic-quote
normalization. -/
theorem normQuoteCh_eq {c : Char} (h : c = sqCh ∨ c = dqCh ∨ plainChar c = true) :
    normQuoteCh c = c := by
  have hn : c.toNat ≠ 0x201C ∧ c.toNat ≠ 0x201D ∧ c.toNat ≠ 0x2018 ∧ c.toNat ≠ 0x2019 := by
    rcases h with rfl | rfl | hp
    · refine ⟨?_, ?_, ?_, ?_⟩ <;> decide
    · refine ⟨?_, ?_, ?_, ?_⟩ <;> decide
    · have := plainChar_elim hp
      exact ⟨this.2.2.2.2.2.1, this.2.2.2.2.2.2.1, this.2.2.2.2.2.2.2.1, this.2.2.2.2.2.2.2.2⟩
  unfold normQuoteCh
  have h1 : (c.toNat == 0x201C || c.toNat == 0x201D) = false := by
    simp only [Bool.or_eq_false_iff, beq_eq_false_iff_ne, ne_eq]
    exact ⟨hn.1, hn.2.1⟩
  have h2 : (c.toNat == 0x2018 || c.toNat == 0x2019) = false := by
    simp only [Bool.or_eq_false_iff, beq_eq_false_iff_ne, ne_eq]
    exact ⟨hn.2.2.1, hn.2.2.2⟩
  simp only [h1, h2, Bool.false_eq_true, if_false]

/-- Quote normalization is the identity on quote-or-allowed texts. -/
theorem normalizeQuotes_id (l : List Char)
    (h : ∀ c ∈ l, c = sqCh ∨ c = dqCh ∨ plainChar c = true) :
    normalizeQuotes l = l :=
  map_id_of _ _ (fun c hc => normQuoteCh_eq (h c hc))

/-- `dropWhile` at a failing head. -/
theorem dropWhile_cons_of_neg {p : Char → Bool} {c : Char} (h : p c = false)
    (t : List Char) : (c :: t).dropWhile p = c :: t := by
  simp [List.dropWhile_cons, h]

/-- Python strip is the identity when both ends are non-whitespace. -/
theorem pyStripL_id (l : List Char)
    (h1 : ∀ c, l.head? = some c → isPyWs c = false)
    (h2 : ∀ c, l.getLast? = some c → isPyWs c = false) :
    pyStripL l = l := by
  cases l with
  | nil => rfl
  | cons c t =>
    unfold pyStripL
    rw [dropWhile_cons_of_neg (h1 c rfl)]
    unfold dropTrailWs
    cases hr : (c :: t).reverse with
    | nil => simp at hr
    | cons a r =>
      have hhr : (c :: t).reverse.head? = some a := by rw [hr]; rfl
      rw [List.head?_reverse] at hhr
      have hrr : (a :: r).reverse = c :: t := by
        have h3 := congrArg List.reverse hr
        rw [List.reverse_reverse] at h3
        exact h3.symm
      rw [dropWhile_cons_of_neg (h2 a hhr), hrr]

/-- Every list begins with itself. -/
theorem prefAt_append_self (p r : List Char) : prefAt p (p ++ r) = true := by
  induction p with
  | nil => rfl
  | cons a as ih => simp [prefAt, ih]

/-- No fence is found in a backtick-free text. -/
theorem findSubSplit_none (l : List Char) (h : btCh ∉ l) :
    findSubSplit fencePat l = none := by
  induction l with
  | nil => rfl
  | cons c t ih =>
    have hc : c ≠ btCh := fun he => h (he ▸ List.mem_cons_self _ _)
    unfold findSubSplit
    have hpf : prefAt fencePat (c :: t) = false := by
      show prefAt (btCh :: List.replicate 2 btCh) (c :: t) = false
      unfold prefAt
      have : (btCh == c) = false := by
        simp only [beq_eq_false_iff_ne, ne_eq]
        exact fun he => hc he.symm
      rw [this]
      rfl
    rw [hpf]
    simp only [Bool.false_eq_true, if_false]
    rw [ih (fun hm => h (List.mem_cons_of_mem _ hm))]

/-- The first fence after a backtick-free prefix is found exactly there. -/
theorem findSubSplit_found (l1 l2 : List Char) (h : btCh ∉ l1) :
    findSubSplit fencePat (l1 ++ (fencePat ++ l2)) = some (l1, l2) := by
  induction l1 with
  | nil =>
    show findSubSplit fencePat (fencePat ++ l2) = some ([], l2)
    cases hf : fencePat ++ l2 with
    | nil => simp [fencePat] at hf
    | cons c t =>
      unfold findSubSplit
      rw [← hf, prefAt_append_self]
      simp only [if_true]
      rw [hf]
      have : (c :: t).drop fencePat.length = l2 := by
        rw [← hf]
        have hlen : fencePat.length = 3 := by decide
        rw [hlen]
        show (fencePat ++ l2).drop fencePat.length = l2
        exact List.drop_left _ _
      rw [this]
  | cons c t ih =>
    have hc : c ≠ btCh := fun he => h (he ▸ List.mem_cons_self _ _)
    show findSubSplit fencePat (c :: (t ++ (fencePat ++ l2))) = _
    unfold findSubSplit
    have hpf : prefAt fencePat (c :: (t ++ (fencePat ++ l2))) = false := by
      show prefAt (btCh :: List.replicate 2 btCh) _ = false
      unfold prefAt
      have : (btCh == c) = false := by
        simp only [beq_eq_false_iff_ne, ne_eq]
        exact fun he => hc he.symm
      rw [this]
      rfl
    rw [hpf]
    simp only [Bool.false_eq_true, if_false]
    rw [ih (fun hm => h (List.mem_cons_of_mem _ hm))]

/-- No fence, no capture. -/
theorem fenceSearch_none (l : List Char) (h : btCh ∉ l) : fenceSearch l = none := by
  unfold fenceSearch
  rw [findSubSplit_none l h]

/-- Trailing whitespace before a non-whitespace tail is dropped. -/
theorem dropTrailWs_snoc_ws (l : List Char) (a : Char) (ha : isPyWs a = true)
    (h2 : ∀ c, l.getLast? = some c → isPyWs c = false) :
    dropTrailWs (l ++ [a]) = l := by
  unfold dropTrailWs
  have hrev : (l ++ [a]).reverse = a :: l.reverse := by simp
  rw [hrev, List.dropWhile_cons, ha]
  simp only [if_true]
  cases hr : l.reverse with
  | nil =>
    rw [List.reverse_eq_nil_iff] at hr
    simp [hr]
  | cons a2 r2 =>
    have hhr : l.getLast? = some a2 := by
      rw [← List.head?_reverse, hr]
      rfl
    rw [dropWhile_cons_of_neg (h2 a2 hhr)]
    have h3 := congrArg List.reverse hr
    rw [List.reverse_reverse] at h3
    exact h3.symm

/-- The fence regex extracts the body of a fenced block around a backtick-free
text that starts with `{` and ends with `}`. -/
theorem fenceSearch_wrap (l : List Char) (hbt : btCh ∉ l)
    (hhead : l.head? = some '{') (hlast : l.getLast? = some '}') :
    fenceSearch (fenceWrap l) = some l := by
  unfold fenceSearch fenceWrap
  have hw : (fencePat ++ "json".data) ++ '\n' :: (l ++ '\n' :: fencePat) =
      [] ++ (fencePat ++ ("json".data ++ '\n' :: (l ++ '\n' :: fencePat))) := by simp
  rw [hw, findSubSplit_found [] ("json".data ++ '\n' :: (l ++ '\n' :: fencePat)) (by simp)]
  dsimp only
  have htake : ("json".data ++ '\n' :: (l ++ '\n' :: fencePat)).take 4 = "json".data := by
    have hlen : (4 : Nat) = ("json".data).length := by decide
    rw [hlen]
    exact List.take_left _ _
  have hdrop : ("json".data ++ '\n' :: (l ++ '\n' :: fencePat)).drop 4 =
      '\n' :: (l ++ '\n' :: fencePat) := by
    have hlen : (4 : Nat) = ("json".data).length := by decide
    rw [hlen]
    exact List.drop_left _ _
  rw [htake]
  rw [if_pos (by decide)]
  rw [hdrop]
  have hdw : ('\n' :: (l ++ '\n' :: fencePat)).dropWhile isPyWs = l ++ '\n' :: fencePat := by
    rw [List.dropWhile_cons]
    rw [if_pos (by decide)]
    cases l with
    | nil => simp at hhead
    | cons c t =>
      have hc : c = '{' := by simpa using hhead
      subst hc
      show (('{' :: t) ++ '\n' :: fencePat).dropWhile isPyWs = _
      rw [List.cons_append, List.dropWhile_cons]
      rw [if_neg (by decide)]
  rw [hdw]
  have h2 : findSubSplit fencePat (l ++ '\n' :: fencePat) = some (l ++ ['\n'], []) := by
    have hre : l ++ '\n' :: fencePat = (l ++ ['\n']) ++ (fencePat ++ []) := by simp
    rw [hre]
    refine findSubSplit_found _ _ ?_
    intro hm
    rcases List.mem_append.1 hm with hm1 | hm2
    · exact hbt hm1
    · have : btCh = '\n' := by simpa using hm2
      exact absurd this (by decide)
  rw [h2]
  dsimp only
  rw [dropTrailWs_snoc_ws l '\n' (by decide)
    (fun c hc => by rw [hlast] at hc; cases hc; decide)]

/-- The empty context has no digit head. -/
theorem noDigitHead_nil : noDigitHead [] := by
  intro c hc
  simp at hc

/-- A non-digit head gives the guard. -/
theorem noDigitHead_cons (c : Char) (rest : List Char) (h : c.isDigit = false) :
    noDigitHead (c :: rest) := by
  intro c' hc'
  have h2 : c = c' := by simpa using hc'
  exact h2 ▸ h

/-- `takeWhile`/`dropWhile` across an all-true prefix followed by a failing
head. -/
theorem takeWhile_append_all {p : Char → Bool} (l1 l2 : List Char)
    (h1 : ∀ c ∈ l1, p c = true) (h2 : ∀ c, l2.head? = some c → p c = false) :
    (l1 ++ l2).takeWhile p = l1 ∧ (l1 ++ l2).dropWhile p = l2 := by
  induction l1 with
  | nil =>
    simp only [List.nil_append]
    cases l2 with
    | nil => simp
    | cons c t =>
      have hc : p c = false := h2 c rfl
      rw [List.takeWhile_cons, List.dropWhile_cons, hc]
      simp
  | cons c cs ih =>
    have hc : p c = true := h1 c (List.mem_cons_self _ _)
    obtain ⟨iht, ihd⟩ := ih (fun x hx => h1 x (List.mem_cons_of_mem _ hx))
    constructor
    · show ((c :: (cs ++ l2)).takeWhile p) = c :: cs
      rw [List.takeWhile_cons, hc]
      simp [iht]
    · show ((c :: (cs ++ l2)).dropWhile p) = l2
      rw [List.dropWhile_cons, hc]
      simp [ihd]

/-- Items of a plain item list are plain. -/
theorem plainItems_mem {xs : List Jv} (h : plainItems xs = true) :
    ∀ x ∈ xs, plainJ x = true := by
  induction xs with
  | nil => intro x hx; simp at hx
  | cons a t ih =>
    have h2 : (plainJ a && plainItems t) = true := h
    rw [Bool.and_eq_true] at h2
    intro x hx
    rcases List.mem_cons.1 hx with rfl | hx'
    · exact h2.1
    · exact ih h2.2 x hx'

/-- Members of a plain member list have plain keys and values. -/
theorem plainMembers_mem {fs : List (String × Jv)} (h : plainMembers fs = true) :
    ∀ p ∈ fs, plainStr p.1 = true ∧ plainJ p.2 = true := by
  induction fs with
  | nil => intro p hp; simp at hp
  | cons a t ih =>
    obtain ⟨k, v⟩ := a
    have h2 : (plainStr k && plainJ v && plainMembers t) = true := h
    rw [Bool.and_eq_true, Bool.and_eq_true] at h2
    intro p hp
    rcases List.mem_cons.1 hp with rfl | hp'
    · exact ⟨h2.1.1, h2.1.2⟩
    · exact ih h2.2 p hp'

/-- An item is at most as deep as the whole item list. -/
theorem depthItems_mem {xs : List Jv} {x : Jv} (h : x ∈ xs) : depthJ x ≤ depthItems xs := by
  induction xs with
  | nil => simp at h
  | cons a t ih =>
    rcases List.mem_cons.1 h with rfl | h'
    · show depthJ x ≤ max (depthJ x) (depthItems t)
      omega
    · have := ih h'
      show depthJ x ≤ max (depthJ a) (depthItems t)
      omega

/-- A member value is at most as deep as the whole member list. -/
theorem depthMembers_mem {fs : List (String × Jv)} {p : String × Jv} (h : p ∈ fs) :
    depthJ p.2 ≤ depthMembers fs := by
  induction fs with
  | nil => simp at h
  | cons a t ih =>
    obtain ⟨k, v⟩ := a
    rcases List.mem_cons.1 h with rfl | h'
    · show depthJ v ≤ max (depthJ v) (depthMembers t)
      omega
    · have := ih h'
      show depthJ _ ≤ max (depthJ v) (depthMembers t)
      omega

/-- Plainness distributes over member-list append. -/
theorem plainMembers_append (l1 l2 : List (String × Jv)) :
    plainMembers (l1 ++ l2) = (plainMembers l1 && plainMembers l2) := by
  induction l1 with
  | nil => simp [plainMembers]
  | cons a t ih =>
    obtain ⟨k, v⟩ := a
    show (plainStr k && plainJ v && plainMembers (t ++ l2)) =
      ((plainStr k && plainJ v && plainMembers t) && plainMembers l2)
    rw [ih]
    cases plainStr k <;> cases plainJ v <;> cases plainMembers t <;> simp

/-- The item run parser reads back serialized plain items. -/
theorem pItems_ser (q : Char) (pv : List Char → Option (Jv × List Char)) (xs : List Jv)
    (hpv : ∀ x ∈ xs, ∀ rest, noDigitHead rest → pv (serQ q x ++ rest) = some (x, rest)) :
    ∀ ifuel rest, xs.length ≤ ifuel → xs ≠ [] →
      pItems pv ifuel (serItems q xs ++ (']' :: rest)) = some (xs, rest) := by
  induction xs with
  | nil => intro ifuel rest _ hne; exact absurd rfl hne
  | cons x xs' ih =>
    intro ifuel rest hlen _
    cases ifuel with
    | zero => simp at hlen
    | succ if0 =>
      cases xs' with
      | nil =>
        have hser : serItems q [x] ++ (']' :: rest) = serQ q x ++ (']' :: rest) := rfl
        rw [hser]
        unfold pItems
        rw [hpv x (List.mem_cons_self _ _) (']' :: rest)
          (noDigitHead_cons _ _ (by decide))]
        rfl
      | cons y t =>
        have hser : serItems q (x :: y :: t) ++ (']' :: rest) =
            serQ q x ++ (',' :: (serItems q (y :: t) ++ (']' :: rest))) := by
          have he : serItems q (x :: y :: t) = serQ q x ++ ',' :: serItems q (y :: t) := rfl
          rw [he]
          simp
        rw [hser]
        unfold pItems
        rw [hpv x (List.mem_cons_self _ _) _
          (noDigitHead_cons _ _ (by decide))]
        dsimp only
        simp only [show ((',' : Char) == ',') = true from by decide, if_true]
        have hrec := ih (fun z hz => hpv z (List.mem_cons_of_mem _ hz)) if0 rest
          (by simp at hlen ⊢; omega) (by simp)
        rw [hrec]

/-- The member run parser reads back serialized plain members. -/
theorem pMembers_ser (s : Bool) (q : Char) (hq : isQuoteCh s q = true)
    (hq2 : q = sqCh ∨ q = dqCh) (pv : List Char → Option (Jv × List Char))
    (fs : List (String × Jv))
    (hpv : ∀ p ∈ fs, ∀ rest, noDigitHead rest → pv (serQ q p.2 ++ rest) = some (p.2, rest))
    (hpk : ∀ p ∈ fs, plainStr p.1 = true) :
    ∀ ifuel rest, fs.length ≤ ifuel → fs ≠ [] →
      pMembers s pv ifuel (serMembers q fs ++ ('}' :: rest)) = some (fs, rest) := by
  induction fs with
  | nil => intro ifuel rest _ hne; exact absurd rfl hne
  | cons p fs' ih =>
    obtain ⟨k, v⟩ := p
    intro ifuel rest hlen _
    cases ifuel with
    | zero => simp at hlen
    | succ if0 =>
      have hkplain := hpk (k, v) (List.mem_cons_self _ _)
      cases fs' with
      | nil =>
        have hser : serMembers q [(k, v)] ++ ('}' :: rest) =
            q :: (k.data ++ (q :: (':' :: (serQ q v ++ ('}' :: rest))))) := by
          have he : serMembers q [(k, v)] = serStrQ q k ++ ':' :: serQ q v := rfl
          rw [he]
          simp [serStrQ]
        rw [hser]
        unfold pMembers
        dsimp only
        rw [hq]
        simp only [if_true]
        rw [readStr_plain q hq2 k.data (plainStr_mem hkplain) _]
        dsimp only
        simp only [show ((':' : Char) == ':') = true from by decide, if_true]
        rw [hpv (k, v) (List.mem_cons_self _ _) ('}' :: rest)
          (noDigitHead_cons _ _ (by decide))]
        rfl
      | cons p2 t =>
        have hser : serMembers q ((k, v) :: p2 :: t) ++ ('}' :: rest) =
            q :: (k.data ++ (q :: (':' :: (serQ q v ++
              (',' :: (serMembers q (p2 :: t) ++ ('}' :: rest))))))) := by
          have he : serMembers q ((k, v) :: p2 :: t) =
              serStrQ q k ++ ':' :: serQ q v ++ ',' :: serMembers q (p2 :: t) := rfl
          rw [he]
          simp [serStrQ]
        rw [hser]
        unfold pMembers
        dsimp only
        rw [hq]
        simp only [if_true]
        rw [readStr_plain q hq2 k.data (plainStr_mem hkplain) _]
        dsimp only
        simp only [show ((':' : Char) == ':') = true from by decide, if_true]
        rw [hpv (k, v) (List.mem_cons_self _ _) _
          (noDigitHead_cons _ _ (by decide))]
        dsimp only
        simp only [show ((',' : Char) == ',') = true from by decide, if_true]
        have hrec := ih (fun z hz => hpv z (List.mem_cons_of_mem _ hz))
          (fun z hz => hpk z (List.mem_cons_of_mem _ hz)) if0 rest
          (by simp at hlen ⊢; omega) (by simp)
        rw [hrec]

/-- One unfolding step of the value parser on a non-empty input. -/
theorem pValQ_cons (s : Bool) (f : Nat) (c : Char) (r : List Char) :
    pValQ s (f + 1) (c :: r) =
      (if isQuoteCh s c then
        (match readStr c r with
         | some (content, rest2) => some (Jv.jstr ⟨content⟩, rest2)
         | none => none)
      else if c.isDigit then
        some (Jv.jnum (digitsVal ((c :: r).takeWhile Char.isDigit)),
              (c :: r).dropWhile Char.isDigit)
      else if c == '[' then
        (match r with
         | [] => none
         | c2 :: rest2 =>
           if c2 == ']' then some (Jv.jarr [], rest2)
           else
             match pItems (pValQ s f) ((c2 :: rest2).length + 1) (c2 :: rest2) with
             | some (vs, rest3) => some (Jv.jarr vs, rest3)
             | none => none)
      else if c == '{' then
        (match r with
         | [] => none
         | c2 :: rest2 =>
           if c2 == '}' then some (Jv.jobj [], rest2)
           else
             match pMembers s (pValQ s f) ((c2 :: rest2).length + 1) (c2 :: rest2) with
             | some (fs, rest3) => some (Jv.jobj fs, rest3)
             | none => none)
      else none) := rfl

/-- The value parser reads back any serialized plain value, for matching
quote mode, sufficient fuel, and a non-digit-headed rest. -/
theorem pValQ_ser (s : Bool) (q : Char) (hq : isQuoteCh s q = true)
    (hq2 : q = sqCh ∨ q = dqCh) :
    ∀ fuel v, plainJ v = true → depthJ v ≤ fuel →
      ∀ rest, noDigitHead rest → pValQ s fuel (serQ q v ++ rest) = some (v, rest) := by
  intro fuel
  induction fuel with
  | zero =>
    intro v _ hd _ _
    have := depthJ_pos v
    omega
  | succ f ih =>
    intro v hpl hd rest hrest
    cases v with
    | jstr s0 =>
      have hs0 : plainStr s0 = true := by simpa [plainJ] using hpl
      have hser : serQ q (Jv.jstr s0) ++ rest = q :: (s0.data ++ (q :: rest)) := by
        show serStrQ q s0 ++ rest = _
        simp [serStrQ]
      rw [hser]
      rw [pValQ_cons]
      rw [hq]
      simp only [if_true]
      rw [readStr_plain q hq2 s0.data (plainStr_mem hs0) rest]
    | jnum n =>
      obtain ⟨c0, t0, hnd⟩ : ∃ c0 t0, natDigits n = c0 :: t0 := by
        cases hd2 : natDigits n with
        | nil => exact absurd hd2 (natDigits_spec n).1
        | cons a b => exact ⟨a, b, rfl⟩
      have hdigs := (natDigits_spec n).2
      have hc0 := hdigs c0 (by rw [hnd]; exact List.mem_cons_self _ _)
      have hser : serQ q (Jv.jnum n) ++ rest = c0 :: (t0 ++ rest) := by
        show natDigits n ++ rest = _
        rw [hnd]
        rfl
      rw [hser]
      rw [pValQ_cons]
      have hnq : isQuoteCh s c0 = false := by
        unfold isQuoteCh
        rw [beq_false_of_toNat_ne (by rw [show dqCh.toNat = 34 from by decide]; omega),
            beq_false_of_toNat_ne (by rw [show sqCh.toNat = 39 from by decide]; omega)]
        simp
      rw [hnq]
      simp only [Bool.false_eq_true, if_false]
      have hdig0 : c0.isDigit = true := (isDigit_iff_toNat c0).2 ⟨hc0.1, hc0.2⟩
      rw [hdig0]
      simp only [if_true]
      have htw : (natDigits n ++ rest).takeWhile Char.isDigit = natDigits n ∧
          (natDigits n ++ rest).dropWhile Char.isDigit = rest :=
        takeWhile_append_all (natDigits n) rest
          (fun c hcm => (isDigit_iff_toNat c).2 ⟨(hdigs c hcm).1, (hdigs c hcm).2⟩)
          (fun c hch => hrest c hch)
      have hl2 : c0 :: (t0 ++ rest) = natDigits n ++ rest := by
        rw [hnd]
        rfl
      rw [hl2, htw.1, htw.2, digitsVal_natDigits]
    | jarr xs =>
      have hxs : plainItems xs = true := by simpa [plainJ] using hpl
      have hnq : isQuoteCh s '[' = false := by
        unfold isQuoteCh
        rw [show ('[' == dqCh) = false from by decide,
            show ('[' == sqCh) = false from by decide]
        simp
      cases xs with
      | nil =>
        have hser : serQ q (Jv.jarr []) ++ rest = '[' :: (']' :: rest) := rfl
        rw [hser]
        rw [pValQ_cons]
        dsimp only
        rw [hnq]
        simp only [Bool.false_eq_true, if_false]
        rw [show ('[' : Char).isDigit = false from by decide]
        simp only [Bool.false_eq_true, if_false]
        rw [show (('[' : Char) == '[') = true from by decide]
        simp only [if_true]
        simp only [show ((']' : Char) == ']') = true from by decide, if_true]
      | cons x xs' =>
        obtain ⟨c1, t1, hxser, hne1, hne2, hne3⟩ := serQ_head q x hq2
        obtain ⟨S, hS⟩ : ∃ S, serItems q (x :: xs') = c1 :: S := by
          cases xs' with
          | nil => exact ⟨t1, hxser⟩
          | cons y t =>
            refine ⟨t1 ++ (',' :: serItems q (y :: t)), ?_⟩
            have he : serItems q (x :: y :: t) = serQ q x ++ ',' :: serItems q (y :: t) := rfl
            rw [he, hxser]
            simp
        have hser : serQ q (Jv.jarr (x :: xs')) ++ rest =
            '[' :: (c1 :: (S ++ (']' :: rest))) := by
          show ('[' :: (serItems q (x :: xs') ++ [']'])) ++ rest = _
          rw [hS]
          simp
        rw [hser]
        rw [pValQ_cons]
        dsimp only
        rw [hnq]
        simp only [Bool.false_eq_true, if_false]
        rw [show ('[' : Char).isDigit = false from by decide]
        simp only [Bool.false_eq_true, if_false]
        rw [show (('[' : Char) == '[') = true from by decide]
        simp only [if_true]
        rw [show (c1 == ']') = false from by simp [hne1]]
        simp only [Bool.false_eq_true, if_false]
        have hback : c1 :: (S ++ (']' :: rest)) = serItems q (x :: xs') ++ (']' :: rest) := by
          rw [hS]
          simp
        rw [hback]
        have hdep : depthItems (x :: xs') ≤ f := by
          have hdd : depthJ (Jv.jarr (x :: xs')) = 1 + depthItems (x :: xs') := rfl
          omega
        have hpitems := pItems_ser q (pValQ s f) (x :: xs')
          (fun z hz r hr => ih z (plainItems_mem hxs z hz)
            (le_trans (depthItems_mem hz) hdep) r hr)
          ((serItems q (x :: xs') ++ (']' :: rest)).length + 1) rest
          (by
            have h1 := serItems_len q (x :: xs')
            simp only [List.length_append]
            omega)
          (by simp)
        rw [hpitems]
    | jobj fs =>
      have hfs : plainMembers fs = true := by simpa [plainJ] using hpl
      have hnq : isQuoteCh s '{' = false := by
        unfold isQuoteCh
        rw [show ('{' == dqCh) = false from by decide,
            show ('{' == sqCh) = false from by decide]
        simp
      cases fs with
      | nil =>
        have hser : serQ q (Jv.jobj []) ++ rest = '{' :: ('}' :: rest) := rfl
        rw [hser]
        rw [pValQ_cons]
        dsimp only
        rw [hnq]
        simp only [Bool.false_eq_true, if_false]
        rw [show ('{' : Char).isDigit = false from by decide]
        simp only [Bool.false_eq_true, if_false]
        rw [show (('{' : Char) == '[') = false from by decide]
        simp only [Bool.false_eq_true, if_false]
        rw [show (('{' : Char) == '{') = true from by decide]
        simp only [if_true]
        simp only [show (('}' : Char) == '}') = true from by decide, if_true]
      | cons p fs' =>
        obtain ⟨k, v0⟩ := p
        obtain ⟨S, hS⟩ : ∃ S, serMembers q ((k, v0) :: fs') = q :: S := by
          cases fs' with
          | nil =>
            refine ⟨k.data ++ (q :: (':' :: serQ q v0)), ?_⟩
            have he : serMembers q [(k, v0)] = serStrQ q k ++ ':' :: serQ q v0 := rfl
            rw [he]
            simp [serStrQ]
          | cons p2 t =>
            refine ⟨k.data ++ (q :: (':' :: (serQ q v0 ++ (',' :: serMembers q (p2 :: t))))), ?_⟩
            have he : serMembers q ((k, v0) :: p2 :: t) =
                serStrQ q k ++ ':' :: serQ q v0 ++ ',' :: serMembers q (p2 :: t) := rfl
            rw [he]
            simp [serStrQ]
        have hser : serQ q (Jv.jobj ((k, v0) :: fs')) ++ rest =
            '{' :: (q :: (S ++ ('}' :: rest))) := by
          show ('{' :: (serMembers q ((k, v0) :: fs') ++ ['}'])) ++ rest = _
          rw [hS]
          simp
        rw [hser]
        rw [pValQ_cons]
        dsimp only
        rw [hnq]
        simp only [Bool.false_eq_true, if_false]
        rw [show ('{' : Char).isDigit = false from by decide]
        simp only [Bool.false_eq_true, if_false]
        rw [show (('{' : Char) == '[') = false from by decide]
        simp only [Bool.false_eq_true, if_false]
        rw [show (('{' : Char) == '{') = true from by decide]
        simp only [if_true]
        have hqb : (q == '}') = false := by
          rcases hq2 with rfl | rfl <;> decide
        rw [hqb]
        simp only [Bool.false_eq_true, if_false]
        have hback : q :: (S ++ ('}' :: rest)) =
            serMembers q ((k, v0) :: fs') ++ ('}' :: rest) := by
          rw [hS]
          simp
        rw [hback]
        have hdep : depthMembers ((k, v0) :: fs') ≤ f := by
          have hdd : depthJ (Jv.jobj ((k, v0) :: fs')) =
              1 + depthMembers ((k, v0) :: fs') := rfl
          omega
        have hpm := pMembers_ser s q hq hq2 (pValQ s f) ((k, v0) :: fs')
          (fun z hz r hr => ih z.2 (plainMembers_mem hfs z hz).2
            (le_trans (depthMembers_mem hz) hdep) r hr)
          (fun z hz => (plainMembers_mem hfs z hz).1)
          ((serMembers q ((k, v0) :: fs') ++ ('}' :: rest)).length + 1) rest
          (by
            have h1 := serMembers_len q ((k, v0) :: fs')
            simp only [List.length_append]
            omega)
          (by simp)
        rw [hpm]

/-- The serialized text of a plain value carries no backtick. -/
theorem btCh_not_mem_serQ (q : Char) (hq2 : q = sqCh ∨ q = dqCh) (v : Jv)
    (h : plainJ v = true) : btCh ∉ serQ q v := by
  intro hm
  rcases serQ_chars q v h btCh hm with he | hp
  · rcases hq2 with rfl | rfl
    · exact absurd he (by decide)
    · exact absurd he (by decide)
  · exact (plainChar_elim hp).2.2.2.2.1 rfl

/-- Every character of a serialized plain value is a quote or allowed. -/
theorem serQ_chars_quotes (q : Char) (hq2 : q = sqCh ∨ q = dqCh) (v : Jv)
    (h : plainJ v = true) :
    ∀ c ∈ serQ q v, c = sqCh ∨ c = dqCh ∨ plainChar c = true := by
  intro c hc
  rcases serQ_chars q v h c hc with he | hp
  · rcases hq2 with rfl | rfl
    · exact Or.inl he
    · exact Or.inr (Or.inl he)
  · exact Or.inr (Or.inr hp)

/-- A serialized plain object is already stripped. -/
theorem pyStripL_serQ_obj (q : Char) (fs : List (String × Jv)) :
    pyStripL (serQ q (Jv.jobj fs)) = serQ q (Jv.jobj fs) := by
  refine pyStripL_id _ ?_ ?_
  · intro c hc
    have h1 : (serQ q (Jv.jobj fs)).head? = some '{' := rfl
    rw [h1] at hc
    have h0 : c = '{' := by simpa using hc.symm
    rw [h0]
    decide
  · intro c hc
    have h1 : (serQ q (Jv.jobj fs)).getLast? = some '}' := by
      show ('{' :: (serMembers q fs ++ ['}'])).getLast? = some '}'
      rw [show '{' :: (serMembers q fs ++ ['}']) =
        ('{' :: serMembers q fs) ++ ['}'] from by simp]
      exact List.getLast?_concat _
    rw [h1] at hc
    have h0 : c = '}' := by simpa using hc.symm
    rw [h0]
    decide

/-- `json.loads` reads back a double-quoted serialized plain value. -/
theorem jsonLoads_serQdq (v : Jv) (h : plainJ v = true) :
    jsonLoads (serQ dqCh v) = some v := by
  unfold jsonLoads
  have hrt := pValQ_ser false dqCh (by decide) (Or.inr rfl) ((serQ dqCh v).length + 1) v h
    (le_trans (depth_le_serLen dqCh v) (by omega)) [] noDigitHead_nil
  rw [List.append_nil] at hrt
  rw [hrt]

/-- `ast.literal_eval` reads back a serialized plain value with either
quote. -/
theorem pyLiteralEval_serQ (q : Char) (hq2 : q = sqCh ∨ q = dqCh) (v : Jv)
    (h : plainJ v = true) : pyLiteralEval (serQ q v) = some v := by
  unfold pyLiteralEval
  have hq : isQuoteCh true q = true := by rcases hq2 with rfl | rfl <;> decide
  have hrt := pValQ_ser true q hq hq2 ((serQ q v).length + 1) v h
    (le_trans (depth_le_serLen q v) (by omega)) [] noDigitHead_nil
  rw [List.append_nil] at hrt
  rw [hrt]

/-- The member parser refuses a single-quoted key in strict mode. -/
theorem pMembers_sq_none (pv : List Char → Option (Jv × List Char)) (ifuel : Nat)
    (T : List Char) : pMembers false pv ifuel (sqCh :: T) = none := by
  cases ifuel with
  | zero => rfl
  | succ i =>
    unfold pMembers
    dsimp only
    rw [show isQuoteCh false sqCh = false from by decide]
    simp only [Bool.false_eq_true, if_false]

/-- `json.loads` rejects a single-quoted non-empty object. -/
theorem jsonLoads_sq_obj (k : String) (v0 : Jv) (fs' : List (String × Jv)) :
    jsonLoads (serQ sqCh (Jv.jobj ((k, v0) :: fs'))) = none := by
  obtain ⟨S, hS⟩ : ∃ S, serMembers sqCh ((k, v0) :: fs') = sqCh :: S := by
    cases fs' with
    | nil =>
      refine ⟨k.data ++ (sqCh :: (':' :: serQ sqCh v0)), ?_⟩
      have he : serMembers sqCh [(k, v0)] = serStrQ sqCh k ++ ':' :: serQ sqCh v0 := rfl
      rw [he]
      simp [serStrQ]
    | cons p2 t =>
      refine ⟨k.data ++ (sqCh :: (':' ::
        (serQ sqCh v0 ++ (',' :: serMembers sqCh (p2 :: t))))), ?_⟩
      have he : serMembers sqCh ((k, v0) :: p2 :: t) =
          serStrQ sqCh k ++ ':' :: serQ sqCh v0 ++ ',' :: serMembers sqCh (p2 :: t) := rfl
      rw [he]
      simp [serStrQ]
  have hser : serQ sqCh (Jv.jobj ((k, v0) :: fs')) = '{' :: (sqCh :: (S ++ ['}'])) := by
    show '{' :: (serMembers sqCh ((k, v0) :: fs') ++ ['}']) = _
    rw [hS]
    simp
  unfold jsonLoads
  rw [hser, pValQ_cons]
  rw [show isQuoteCh false '{' = false from by decide]
  simp only [Bool.false_eq_true, if_false]
  rw [show ('{' : Char).isDigit = false from by decide]
  simp only [Bool.false_eq_true, if_false]
  rw [show (('{' : Char) == '[') = false from by decide]
  simp only [Bool.false_eq_true, if_false]
  rw [show (('{' : Char) == '{') = true from by decide]
  simp only [if_true]
  rw [show (sqCh == '}') = false from by decide]
  simp only [Bool.false_eq_true, if_false]
  rw [pMembers_sq_none]

/-- Serialization of a member list with one member appended. -/
theorem serMembers_snoc (q : Char) (init : List (String × Jv)) (hne : init ≠ [])
    (k : String) (v : Jv) :
    serMembers q (init ++ [(k, v)]) =
      serMembers q init ++ (',' :: (serStrQ q k ++ (':' :: serQ q v))) := by
  induction init with
  | nil => exact absurd rfl hne
  | cons m t ih =>
    obtain ⟨k0, v0⟩ := m
    cases t with
    | nil =>
      have h1 : serMembers q ((k0, v0) :: [(k, v)]) =
          serStrQ q k0 ++ ':' :: serQ q v0 ++ ',' :: serMembers q [(k, v)] := rfl
      have h2 : serMembers q [(k0, v0)] = serStrQ q k0 ++ ':' :: serQ q v0 := rfl
      have h3 : serMembers q [(k, v)] = serStrQ q k ++ ':' :: serQ q v := rfl
      show serMembers q ((k0, v0) :: [(k, v)]) = _
      rw [h1, h2, h3]
    | cons m2 t2 =>
      have h1 : serMembers q ((k0, v0) :: ((m2 :: t2) ++ [(k, v)])) =
          serStrQ q k0 ++ ':' :: serQ q v0 ++
            ',' :: serMembers q ((m2 :: t2) ++ [(k, v)]) := rfl
      have h2 : serMembers q ((k0, v0) :: m2 :: t2) =
          serStrQ q k0 ++ ':' :: serQ q v0 ++ ',' :: serMembers q (m2 :: t2) := rfl
      show serMembers q ((k0, v0) :: ((m2 :: t2) ++ [(k, v)])) = _
      rw [h1, ih (by simp), h2]
      simp

/-- The segment of a serialized object from a prefix up to (but excluding)
the closing `]` of a final array member: blob-scan traversal, square-fold
effect, and character class. -/
theorem segB_props (q : Char) (hq2 : q = sqCh ∨ q = dqCh) (P : List Char)
    (k : String) (ys : List Jv)
    (hPblob : ∀ rest d acc, 1 ≤ d → blobGo (P ++ rest) d none false acc =
      blobGo rest d none false (P.reverse ++ acc))
    (hPsq : ∀ d, P.foldl sqFoldStep (d, none, false) = (d, none, false))
    (hPch : ∀ c ∈ P, c = q ∨ plainChar c = true)
    (hk : plainStr k = true) (hys : plainItems ys = true) :
    (∀ rest d acc, 1 ≤ d →
      blobGo ((P ++ (serStrQ q k ++ (':' :: ('[' :: serItems q ys)))) ++ rest)
          d none false acc =
        blobGo rest d none false
          ((P ++ (serStrQ q k ++ (':' :: ('[' :: serItems q ys)))).reverse ++ acc)) ∧
    (∀ d, (P ++ (serStrQ q k ++ (':' :: ('[' :: serItems q ys)))).foldl
        sqFoldStep (d, none, false) = (d + 1, none, false)) ∧
    (∀ c ∈ P ++ (serStrQ q k ++ (':' :: ('[' :: serItems q ys))),
      c = q ∨ plainChar c = true) := by
  refine ⟨?_, ?_, ?_⟩
  · intro rest d acc hd
    have hre : (P ++ (serStrQ q k ++ (':' :: ('[' :: serItems q ys)))) ++ rest =
        P ++ (serStrQ q k ++ (':' :: ('[' :: (serItems q ys ++ rest)))) := by simp
    rw [hre, hPblob _ d acc hd, blobGo_serStr q hq2 k hk,
        blobGo_step_inert ':' (by decide) (by decide) (by decide) (by decide),
        blobGo_step_inert '[' (by decide) (by decide) (by decide) (by decide),
        blobGo_serItems q hq2 ys hys rest d _ hd]
    have : (serItems q ys).reverse ++
        ('[' :: (':' :: ((serStrQ q k).reverse ++ (P.reverse ++ acc)))) =
        (P ++ (serStrQ q k ++ (':' :: ('[' :: serItems q ys)))).reverse ++ acc := by
      simp
    rw [this]
  · intro d
    rw [List.foldl_append, hPsq d, List.foldl_append, sqFold_serStr q hq2 k hk d,
        List.foldl_cons, sqFoldStep_inert ':' (by decide) (by decide) (by decide) (by decide),
        List.foldl_cons]
    have hstep : sqFoldStep (d, none, false) '[' = (d + 1, none, false) := by
      unfold sqFoldStep
      simp only [show ('[' == sqCh || '[' == dqCh) = false from by decide,
        Bool.false_eq_true, if_false, beq_self_eq_true, if_true]
    rw [hstep]
    exact sqFold_serItems q hq2 ys hys (d + 1)
  · intro c hc
    rcases List.mem_append.1 hc with h1 | h2
    · exact hPch c h1
    · rcases List.mem_append.1 h2 with h3 | h4
      · rcases List.mem_cons.1 h3 with rfl | h5
        · exact Or.inl rfl
        · rcases List.mem_append.1 h5 with h6 | h7
          · exact Or.inr (plainStr_mem hk c h6)
          · exact Or.inl (by simpa using h7)
      · rcases List.mem_cons.1 h4 with rfl | h8
        · exact Or.inr (by decide)
        · rcases List.mem_cons.1 h8 with rfl | h9
          · exact Or.inr (by decide)
          · exact serItems_chars q ys hys c h9

/-- Decomposition of a serialized object whose last member value is an
array: everything before the closing `]`, with its scan properties. -/
theorem serMembers_arr_last (q : Char) (hq2 : q = sqCh ∨ q = dqCh)
    (init : List (String × Jv)) (k : String) (ys : List Jv)
    (h : plainMembers (init ++ [(k, Jv.jarr ys)]) = true) :
    ∃ B : List Char,
      serMembers q (init ++ [(k, Jv.jarr ys)]) = B ++ [']'] ∧
      (∀ rest d acc, 1 ≤ d → blobGo (B ++ rest) d none false acc =
        blobGo rest d none false (B.reverse ++ acc)) ∧
      (∀ d, B.foldl sqFoldStep (d, none, false) = (d + 1, none, false)) ∧
      (∀ c ∈ B, c = q ∨ plainChar c = true) := by
  have hsplit : plainMembers init = true ∧ plainStr k = true ∧ plainItems ys = true := by
    have h2 := h
    rw [plainMembers_append, Bool.and_eq_true] at h2
    have h3 : (plainStr k && plainJ (Jv.jarr ys) && plainMembers []) = true := h2.2
    rw [Bool.and_eq_true, Bool.and_eq_true] at h3
    exact ⟨h2.1, h3.1.1, by simpa [plainJ] using h3.1.2⟩
  cases init with
  | nil =>
    obtain ⟨hb, hs, hch⟩ := segB_props q hq2 [] k ys
      (fun rest d acc _ => by simp) (fun d => rfl) (fun c hc => by simp at hc)
      hsplit.2.1 hsplit.2.2
    refine ⟨[] ++ (serStrQ q k ++ (':' :: ('[' :: serItems q ys))), ?_, hb, hs, hch⟩
    have h1 : serMembers q [(k, Jv.jarr ys)] =
        serStrQ q k ++ ':' :: serQ q (Jv.jarr ys) := rfl
    show serMembers q [(k, Jv.jarr ys)] = _
    rw [h1, show serQ q (Jv.jarr ys) = '[' :: (serItems q ys ++ [']']) from rfl]
    simp
  | cons m t =>
    have hPblob : ∀ rest d acc, 1 ≤ d →
        blobGo ((serMembers q (m :: t) ++ [',']) ++ rest) d none false acc =
          blobGo rest d none false ((serMembers q (m :: t) ++ [',']).reverse ++ acc) := by
      intro rest d acc hd
      have hre : (serMembers q (m :: t) ++ [',']) ++ rest =
          serMembers q (m :: t) ++ (',' :: rest) := by simp
      rw [hre, blobGo_serMembers q hq2 (m :: t) hsplit.1 _ d acc hd,
          blobGo_step_inert ',' (by decide) (by decide) (by decide) (by decide)]
      have : ',' :: ((serMembers q (m :: t)).reverse ++ acc) =
          (serMembers q (m :: t) ++ [',']).reverse ++ acc := by simp
      rw [this]
    have hPsq : ∀ d, (serMembers q (m :: t) ++ [',']).foldl sqFoldStep (d, none, false) =
        (d, none, false) := by
      intro d
      rw [List.foldl_append, sqFold_serMembers q hq2 (m :: t) hsplit.1 d]
      show sqFoldStep (d, none, false) ',' = (d, none, false)
      exact sqFoldStep_inert ',' (by decide) (by decide) (by decide) (by decide) d
    have hPch : ∀ c ∈ serMembers q (m :: t) ++ [','], c = q ∨ plainChar c = true := by
      intro c hc
      rcases List.mem_append.1 hc with h1 | h2
      · exact serMembers_chars q (m :: t) hsplit.1 c h1
      · have : c = ',' := by simpa using h2
        exact Or.inr (by rw [this]; decide)
    obtain ⟨hb, hs, hch⟩ := segB_props q hq2 (serMembers q (m :: t) ++ [',']) k ys
      hPblob hPsq hPch hsplit.2.1 hsplit.2.2
    refine ⟨(serMembers q (m :: t) ++ [',']) ++
      (serStrQ q k ++ (':' :: ('[' :: serItems q ys))), ?_, hb, hs, hch⟩
    rw [serMembers_snoc q (m :: t) (by simp) k (Jv.jarr ys),
        show serQ q (Jv.jarr ys) = '[' :: (serItems q ys ++ [']']) from rfl]
    simp

/-- `rfind` of `}` on a text ending in `}`. -/
theorem lastBraceIdx_concat (L : List Char) :
    lastBraceIdx (L ++ ['}']) = some L.length := by
  unfold lastBraceIdx
  have hrev : (L ++ ['}']).reverse = '}' :: L.reverse := by simp
  rw [hrev, List.findIdx?_cons]
  rw [if_pos (by decide)]
  simp

/-- Dropping the second-to-last character of a text ending in two known
characters. -/
theorem dropPenultimate_concat2 (L : List Char) (a b : Char) :
    dropPenultimate (L ++ [a, b]) = L ++ [b] := by
  unfold dropPenultimate
  have hlen : (L ++ [a, b]).length = L.length + 2 := by simp
  rw [hlen]
  have h1 : L.length + 2 - 2 = L.length := by omega
  have h2 : L.length + 2 - 1 = L.length + 1 := by omega
  rw [h1, h2]
  have ht : (L ++ [a, b]).take L.length = L := List.take_left _ _
  have hd : (L ++ [a, b]).drop (L.length + 1) = [b] := by
    have hre : L ++ [a, b] = (L ++ [a]) ++ [b] := by simp
    rw [hre, show L.length + 1 = (L ++ [a]).length from by simp]
    exact List.drop_left _ _
  rw [ht, hd]

/-- The fenced wrapper is already stripped (backticks at both ends). -/
theorem pyStripL_fenceWrap (l : List Char) :
    pyStripL (fenceWrap l) = fenceWrap l := by
  refine pyStripL_id _ ?_ ?_
  · intro c hc
    have h1 : (fenceWrap l).head? = some btCh := rfl
    rw [h1] at hc
    have h0 : c = btCh := by simpa using hc.symm
    rw [h0]
    decide
  · intro c hc
    have h1 : (fenceWrap l).getLast? = some btCh := by
      rw [show fenceWrap l = ((fencePat ++ "json".data) ++
        '\n' :: (l ++ ['\n', btCh, btCh])) ++ [btCh] from by simp [fenceWrap, fencePat]]
      exact List.getLast?_concat _
    rw [h1] at hc
    have h0 : c = btCh := by simpa using hc.symm
    rw [h0]
    decide

/-- The graph parser reads back a serialized plain object, with either quote
character throughout (the single-quoted variant goes through the
literal-eval fallback). -/
theorem parseLlm_plain_obj (q : Char) (hq2 : q = sqCh ∨ q = dqCh)
    (fs : List (String × Jv)) (h : plainMembers fs = true) :
    parseLlmJson (serQ q (Jv.jobj fs)) = some (Jv.jobj fs) := by
  have hpl : plainJ (Jv.jobj fs) = true := h
  unfold parseLlmJson
  rw [show (serQ q (Jv.jobj fs)).isEmpty = false from rfl]
  simp only [Bool.false_eq_true, if_false]
  rw [pyStripL_serQ_obj q fs,
      fenceSearch_none _ (btCh_not_mem_serQ q hq2 _ hpl),
      extract_serQ_obj q hq2 fs h]
  dsimp only
  rw [normalizeQuotes_id _ (serQ_chars_quotes q hq2 _ hpl),
      maybeClose_serQ_obj q hq2 fs h]
  rcases hq2 with rfl | rfl
  · cases fs with
    | nil =>
      rw [show jsonLoads (serQ sqCh (Jv.jobj [])) = some (Jv.jobj []) from rfl]
    | cons p fs' =>
      obtain ⟨k, v0⟩ := p
      rw [jsonLoads_sq_obj k v0 fs']
      dsimp only
      rw [pyLiteralEval_serQ sqCh (Or.inl rfl) _ hpl]
  · rw [jsonLoads_serQdq _ hpl]

/-- The last character of a serialized object is its closing brace. -/
theorem serQ_obj_getLast (q : Char) (fs : List (String × Jv)) :
    (serQ q (Jv.jobj fs)).getLast? = some '}' := by
  show ('{' :: (serMembers q fs ++ ['}'])).getLast? = some '}'
  rw [show '{' :: (serMembers q fs ++ ['}']) =
    ('{' :: serMembers q fs) ++ ['}'] from by simp]
  exact List.getLast?_concat _

/-- The graph parser reads a fenced serialized plain object. -/
theorem parseLlm_fenced (fs : List (String × Jv)) (h : plainMembers fs = true) :
    parseLlmJson (fenceWrap (serQ dqCh (Jv.jobj fs))) = some (Jv.jobj fs) := by
  have hpl : plainJ (Jv.jobj fs) = true := h
  unfold parseLlmJson
  rw [show (fenceWrap (serQ dqCh (Jv.jobj fs))).isEmpty = false from rfl]
  simp only [Bool.false_eq_true, if_false]
  rw [pyStripL_fenceWrap,
      fenceSearch_wrap _ (btCh_not_mem_serQ dqCh (Or.inr rfl) _ hpl) rfl
        (serQ_obj_getLast dqCh fs)]
  dsimp only
  rw [pyStripL_serQ_obj dqCh fs,
      extract_serQ_obj dqCh (Or.inr rfl) fs h]
  dsimp only
  rw [normalizeQuotes_id _ (serQ_chars_quotes dqCh (Or.inr rfl) _ hpl),
      maybeClose_serQ_obj dqCh (Or.inr rfl) fs h,
      jsonLoads_serQdq _ hpl]

/-- The graph parser repairs and reads a serialized plain object whose final
array-closing `]` (just before the final `}`) was dropped. -/
theorem parseLlm_dropPen (init : List (String × Jv)) (k : String) (ys : List Jv)
    (h : plainMembers (init ++ [(k, Jv.jarr ys)]) = true) :
    parseLlmJson (dropPenultimate (serQ dqCh (Jv.jobj (init ++ [(k, Jv.jarr ys)])))) =
      some (Jv.jobj (init ++ [(k, Jv.jarr ys)])) := by
  obtain ⟨B, hB, hblob, hsq, hch⟩ := serMembers_arr_last dqCh (Or.inr rfl) init k ys h
  have hfull : serQ dqCh (Jv.jobj (init ++ [(k, Jv.jarr ys)])) =
      ('{' :: B) ++ [']', '}'] := by
    show '{' :: (serMembers dqCh (init ++ [(k, Jv.jarr ys)]) ++ ['}']) = _
    rw [hB]
    simp
  have hdp : dropPenultimate (serQ dqCh (Jv.jobj (init ++ [(k, Jv.jarr ys)]))) =
      ('{' :: B) ++ ['}'] := by
    rw [hfull]
    exact dropPenultimate_concat2 _ _ _
  rw [hdp]
  unfold parseLlmJson
  rw [show ((('{' :: B) ++ ['}']) : List Char).isEmpty = false from rfl]
  simp only [Bool.false_eq_true, if_false]
  have hstrip : pyStripL (('{' :: B) ++ ['}']) = ('{' :: B) ++ ['}'] := by
    refine pyStripL_id _ ?_ ?_
    · intro c hc
      have h1 : ((('{' :: B) ++ ['}']) : List Char).head? = some '{' := rfl
      rw [h1] at hc
      have h0 : c = '{' := by simpa using hc.symm
      rw [h0]
      decide
    · intro c hc
      rw [List.getLast?_concat] at hc
      have h0 : c = '}' := by simpa using hc.symm
      rw [h0]
      decide
  rw [hstrip]
  have hbt : btCh ∉ ('{' :: B) ++ ['}'] := by
    intro hm
    rcases List.mem_append.1 hm with h1 | h2
    · rcases List.mem_cons.1 h1 with he | h3
      · exact absurd he (by decide)
      · rcases hch btCh h3 with he | hp
        · exact absurd he (by decide)
        · exact (plainChar_elim hp).2.2.2.2.1 rfl
    · have h0 : btCh = '}' := by simpa using h2
      exact absurd h0 (by decide)
  rw [fenceSearch_none _ hbt]
  have hform : ('{' :: B) ++ ['}'] = '{' :: (B ++ ['}']) := by simp
  have hex : extractBalancedJsonBlob (('{' :: B) ++ ['}']) =
      some (('{' :: B) ++ ['}']) := by
    unfold extractBalancedJsonBlob
    dsimp only
    have hdw : ((('{' :: B) ++ ['}']).dropWhile (fun c => decide (c ≠ '{'))) =
        ('{' :: B) ++ ['}'] := by
      rw [hform, List.dropWhile_cons]
      simp
    rw [hdw, hform]
    rw [blobGo]
    simp only [show (Char.ofNat 123 == sqCh) = false from by decide,
      show (Char.ofNat 123 == dqCh) = false from by decide, Bool.or_false,
      Bool.false_eq_true, if_false, beq_self_eq_true, if_true]
    rw [show (B ++ ['}'] : List Char) = B ++ ('}' :: []) from rfl,
        hblob ('}' :: []) 1 ['{'] (by omega)]
    rw [blobGo]
    simp only [show (Char.ofNat 125 == sqCh) = false from by decide,
      show (Char.ofNat 125 == dqCh) = false from by decide,
      show (Char.ofNat 125 == Char.ofNat 123) = false from by decide, Bool.or_false,
      Bool.false_eq_true, if_false, beq_self_eq_true, if_true]
    simp
  rw [hex]
  dsimp only
  have hnq : normalizeQuotes (('{' :: B) ++ ['}']) = ('{' :: B) ++ ['}'] := by
    refine normalizeQuotes_id _ ?_
    intro c hc
    rcases List.mem_append.1 hc with h1 | h2
    · rcases List.mem_cons.1 h1 with rfl | h3
      · exact Or.inr (Or.inr (by decide))
      · rcases hch c h3 with rfl | hp
        · exact Or.inr (Or.inl rfl)
        · exact Or.inr (Or.inr hp)
    · have h0 : c = '}' := by simpa using h2
      exact Or.inr (Or.inr (by rw [h0]; decide))
  rw [hnq]
  have hmc : maybeCloseSquareBrackets (('{' :: B) ++ ['}']) =
      serQ dqCh (Jv.jobj (init ++ [(k, Jv.jarr ys)])) := by
    unfold maybeCloseSquareBrackets
    dsimp only
    have hdep : sqDepth (('{' :: B) ++ ['}']) = 1 := by
      unfold sqDepth
      rw [hform, List.foldl_cons,
          sqFoldStep_inert '{' (by decide) (by decide) (by decide) (by decide),
          List.foldl_append, hsq 0, List.foldl_cons,
          sqFoldStep_inert '}' (by decide) (by decide) (by decide) (by decide),
          List.foldl_nil]
    rw [hdep, if_pos (by omega), lastBraceIdx_concat ('{' :: B)]
    dsimp only
    rw [List.take_left, List.drop_left]
    rw [hfull]
    simp
  have hpl : plainJ (Jv.jobj (init ++ [(k, Jv.jarr ys)])) = true := h
  rw [hmc, jsonLoads_serQdq _ hpl]

/-- C7 (amended): for every plain JSON object value whose `lineage` member
is an object with `nodes` a list, the graph parser returns the value itself
when given (a) its strict JSON text, (b) the same text in a ```` ```json ````
fence, (d) the same text single-quoted throughout; variant (c) — the closing
`]` just before the final `}` removed — is recovered exactly when the object
text really ends in `]}`, i.e. when the last member value is an array. For
other positions of the dropped `]` the bracket repair inserts the `]` at the
wrong place and parsing fails. -/
theorem C7_parser_robustness (fs gs : List (String × Jv)) (ns : List Jv)
    (hplain : plainMembers fs = true)
    (hlin : getMember fs "lineage" = some (Jv.jobj gs))
    (hnodes : getMember gs "nodes" = some (Jv.jarr ns)) :
    parseLlmJson (serJ (Jv.jobj fs)) = some (Jv.jobj fs) ∧
    parseLlmJson (fenceWrap (serJ (Jv.jobj fs))) = some (Jv.jobj fs) ∧
    (∀ init k ys, fs = init ++ [(k, Jv.jarr ys)] →
      parseLlmJson (dropPenultimate (serJ (Jv.jobj fs))) = some (Jv.jobj fs)) ∧
    parseLlmJson (serQ sqCh (Jv.jobj fs)) = some (Jv.jobj fs) := by
  refine ⟨?_, ?_, ?_, ?_⟩
  · exact parseLlm_plain_obj dqCh (Or.inr rfl) fs hplain
  · exact parseLlm_fenced fs hplain
  · intro init k ys hfs
    subst hfs
    exact parseLlm_dropPen init k ys hplain
  · exact parseLlm_plain_obj sqCh (Or.inl rfl) fs hplain

/-- Counterexample to C7 as stated: for `{"lineage":{"nodes":[]}}` the text
parses, but removing the `]` that closes its only array (which does not sit
directly before the final `}`) yields a text the parser cannot repair — the
missing `]` is re-inserted before the final `}`, inside the object — and
parsing raises. -/
theorem C7_counterexample :
    parseLlmJson (serJ c7J0) = some c7J0 ∧
    parseLlmJson c7BrokenText = none ∧
    c7BrokenText = (serJ c7J0).take 21 ++ (serJ c7J0).drop 22 ∧
    (serJ c7J0).drop 21 = ']' :: (serJ c7J0).drop 22 := by
  refine ⟨rfl, rfl, by decide, by decide⟩

/-- Witness for C7 at the concrete value
`{"lineage": {"nodes": ["a"]}, "z": []}` (whose text ends in `]}`). -/
theorem C7_witness :
    parseLlmJson (serJ c7J1) = some c7J1 ∧
    parseLlmJson (fenceWrap (serJ c7J1)) = some c7J1 ∧
    parseLlmJson (dropPenultimate (serJ c7J1)) = some c7J1 ∧
    parseLlmJson (serQ sqCh c7J1) = some c7J1 := by
  have h := C7_parser_robustness
    [("lineage", Jv.jobj [("nodes", Jv.jarr [Jv.jstr "a"])]), ("z", Jv.jarr [])]
    [("nodes", Jv.jarr [Jv.jstr "a"])] [Jv.jstr "a"]
    (by decide) rfl rfl
  exact ⟨h.1, h.2.1,
    h.2.2.1 [("lineage", Jv.jobj [("nodes", Jv.jarr [Jv.jstr "a"])])] "z" [] rfl,
    h.2.2.2⟩

end Tracil
